import Mathlib

/-!
# git-open: a shallow embedding of `cmd/git-open/main.go`

The program locates the `.git` directory above the working directory, reads the
origin remote from `.git/config`, splits it into host, project and repository
name, reads the current branch from `.git/HEAD`, computes the path of the
target relative to the repository root and assembles a browse URL.

Modelling conventions.

* A Go `string` is modelled as `Str = List Char`: the sequence of Unicode code
  points of a valid UTF-8 text.  All bytes the program and the library
  functions it calls give a meaning to (separators, `%`, `:`, ASCII white
  space, ...) are ASCII, so tests on a byte are tests on a code point below
  `0x80`; where the library works byte by byte on non-ASCII input
  (`url.QueryEscape`) the UTF-8 encoding of the code point is spelled out.
* The operating system is a record `World` of the answers it gives
  (`os.Getwd`, `os.Stat`, `os.ReadFile`, `runtime.GOOS`, whether starting the
  browser command succeeds).  `filepath` is the Unix implementation
  (separator `/`, no volume names).
* A function with a Go `error` result returns `Except Error _`.
* `log.Fatal` ends the run: `main` returns `Outcome.fatal _`.
* Library functions (`strings`, `net/url`, `net`, `path/filepath`, `regexp`)
  are transcribed from the Go standard library, release 1.22, keeping their
  names.
-/

namespace GitOpen

/-- A Go string: the code points of a UTF-8 text. -/
abbrev Str := List Char

/-! ## Package `strings` -/

/-- The Go `unicode.IsSpace`: the Latin-1 spaces `\t \n \v \f \r`, space, U+0085 and
U+00A0, and beyond Latin-1 the code points of the `White_Space` table. -/
def isSpace (c : Char) : Bool :=
  let n := c.toNat
  n == 0x09 || n == 0x0A || n == 0x0B || n == 0x0C || n == 0x0D || n == 0x20 ||
  n == 0x85 || n == 0xA0 || n == 0x1680 || (0x2000 ≤ n && n ≤ 0x200A) ||
  n == 0x2028 || n == 0x2029 || n == 0x202F || n == 0x205F || n == 0x3000

/-- The Go `strings.TrimSpace`: the string without its leading and trailing white
space (the leading run is cut first, then the trailing run of what is left). -/
def TrimSpace (s : Str) : Str :=
  (s.dropWhile isSpace).rdropWhile isSpace

/-- The Go `strings.HasPrefix`. -/
def HasPrefix (s pre : Str) : Bool :=
  pre.isPrefixOf s

/-- The Go `strings.HasSuffix`. -/
def HasSuffix (s suf : Str) : Bool :=
  suf.isSuffixOf s

/-- The Go `strings.TrimPrefix`: `s` without the leading `pre`, or `s` itself when it
does not start with `pre`. -/
def TrimPrefix (s pre : Str) : Str :=
  if HasPrefix s pre then s.drop pre.length else s

/-- The Go `strings.Split(s, sep)` for a separator of one byte: the pieces between
the separators, `n + 1` pieces for `n` separators (one empty piece for the
empty string). -/
def Split : Str → Char → List Str
  | [], _ => [[]]
  | c :: cs, sep =>
    if c = sep then [] :: Split cs sep
    else
      match Split cs sep with
      | [] => [[c]]
      | piece :: pieces => (c :: piece) :: pieces

/-- The Go `strings.Cut(s, sep)` for a separator of one byte: the text before the
first separator, the text after it, and whether there is one. -/
def Cut (s : Str) (sep : Char) : Str × Str × Bool :=
  (s.takeWhile (fun c => c != sep), (s.dropWhile (fun c => c != sep)).drop 1, s.contains sep)

/-- The Go `strings.Count(s, sep)` for a separator of one byte. -/
def Count (s : Str) (sep : Char) : Nat :=
  s.count sep

/-- The Go `strings.IndexByte`: position of the first `c`, if any. -/
def IndexByte : Str → Char → Option Nat
  | [], _ => none
  | d :: ds, c => if d = c then some 0 else (IndexByte ds c).map (· + 1)

/-- The Go `strings.LastIndexByte`: position of the last `c`, if any. -/
def LastIndexByte : Str → Char → Option Nat
  | [], _ => none
  | d :: ds, c =>
    match LastIndexByte ds c with
    | some i => some (i + 1)
    | none => if d = c then some 0 else none

/-- The Go `strings.Index`: position of the first occurrence of `sub`, if any. -/
def Index : Str → Str → Option Nat
  | [], sub => if sub = [] then some 0 else none
  | c :: cs, sub =>
    if sub.isPrefixOf (c :: cs) then some 0 else (Index cs sub).map (· + 1)

/-! ## Errors -/

deriving instance DecidableEq for Except

/-- The errors of `url.Parse`. -/
inductive UrlError
  /-- The text `net/url: invalid control character in URL`. -/
  | invalidControlCharacter
  /-- The text `missing protocol scheme`. -/
  | missingProtocolScheme
  /-- The text `first path segment in URL cannot contain colon`. -/
  | firstPathSegmentColon
  /-- The text `missing ']' in host`. -/
  | missingBracket
  /-- The text `invalid port ... after host`. -/
  | invalidPort (colonPort : Str)
  /-- The text `net/url: invalid userinfo`. -/
  | invalidUserinfo
  /-- An `EscapeError`: `invalid URL escape ...`. -/
  | escape (s : Str)
  /-- An `InvalidHostError`: `invalid character ... in host name`. -/
  | invalidHost (s : Str)
  deriving DecidableEq, Repr

/-- The reasons of a `net.AddrError` of `net.SplitHostPort`. -/
inductive AddrError
  | missingPort
  | tooManyColons
  | missingClosingBracket
  | unexpectedOpeningBracket
  | unexpectedClosingBracket
  deriving DecidableEq, Repr

/-- The `error` values of the functions of `main.go`. -/
inductive Error
  /-- The call of `os.ReadFile` failed. -/
  | readFile
  /-- The call of `os.Getwd` (inside `filepath.Abs`) failed. -/
  | getwd
  /-- The text `not in a git repository` (`findGitDir`). -/
  | notInGitRepository
  /-- The text `no origin remote found` (`parseRemoteURL`). -/
  | noOriginRemote
  /-- An error of `url.Parse` (`parseDomain`). -/
  | url (e : UrlError)
  /-- An error of `net.SplitHostPort` (`parseDomain`). -/
  | addr (e : AddrError)
  /-- The text `unsupported remote URL format: ...` (`parseRepoInfo`). -/
  | unsupportedRemoteFormat (remoteURL : Str)
  /-- The text `could not parse HEAD` (`getCurrentBranch`). -/
  | couldNotParseHead
  /-- The text `Rel: can't make ... relative to ...` (`filepath.Rel`). -/
  | rel
  deriving DecidableEq, Repr

/-! ## The operating system -/

/-- What `os.Stat` answers for a path. -/
inductive StatResult
  /-- An error for which `os.IsNotExist` holds. -/
  | notExist
  /-- Any other error (permission, not a directory, ...). -/
  | otherError
  /-- The path exists and is not a directory. -/
  | file
  /-- The path exists and is a directory. -/
  | dir
  deriving DecidableEq, Repr

/-- The answers of the operating system during one run. -/
structure World where
  /-- The result of `os.Getwd`, `none` when it fails. -/
  getwd : Option Str
  /-- The result of `os.Stat` on a path, given as the program passes it. -/
  stat : Str → StatResult
  /-- The result of `os.ReadFile` on a path, `none` when it fails. -/
  readFile : Str → Option Str
  /-- The value of `runtime.GOOS`. -/
  goos : Str
  /-- Whether `exec.Command(...).Start()` succeeds. -/
  startOK : Bool

/-! ## `parseRemoteURL` and `getCurrentBranch` -/

/-- The section header the config scan looks for. -/
def originHeader : Str := "[remote \"origin\"]".toList

/-- The key the config scan looks for inside the origin section. -/
def urlKey : Str := "url = ".toList

/-- The loop of `parseRemoteURL` (main.go, lines 141-151) over the remaining lines,
with the current value of `inOrigin`; `none` when the loop ends without
returning. -/
def scanConfig : Bool → List Str → Option Str
  | _, [] => none
  | inOrigin, line :: rest =>
    let line := TrimSpace line
    if HasPrefix line originHeader then scanConfig true rest
    else if inOrigin && HasPrefix line urlKey then
      some (TrimSpace (TrimPrefix line urlKey))
    else if HasPrefix line "[".toList then scanConfig false rest
    else scanConfig inOrigin rest

/-- The body of `parseRemoteURL` after the file has been read (main.go, lines
140-152). -/
def parseRemoteURLText (data : Str) : Except Error Str :=
  match scanConfig false (Split data '\n') with
  | some u => .ok u
  | none => .error Error.noOriginRemote

/-- Transcription of `parseRemoteURL` (main.go, lines 134-153). -/
def parseRemoteURL (w : World) (configPath : Str) : Except Error Str :=
  match w.readFile configPath with
  | none => .error Error.readFile
  | some data => parseRemoteURLText data

/-- The prefix of a symbolic HEAD. -/
def refPrefix : Str := "ref: ".toList

/-- The body of `getCurrentBranch` after the file has been read (main.go, lines
186-190). -/
def getCurrentBranchText (data : Str) : Except Error Str :=
  let ref := TrimSpace data
  if HasPrefix ref refPrefix then .ok (TrimPrefix ref refPrefix)
  else .error Error.couldNotParseHead

/-- Transcription of `getCurrentBranch` (main.go, lines 181-191). -/
def getCurrentBranch (w : World) (headPath : Str) : Except Error Str :=
  match w.readFile headPath with
  | none => .error Error.readFile
  | some data => getCurrentBranchText data

/-! ## `parseRepoInfo` -/

/-- The literal the pattern of `parseRepoInfo` starts with. -/
def sshScheme : Str := "ssh://".toList

/-- A match of `[^/]+` that has to be followed by `/`: the run of non-slash
characters is taken whole (a shorter run is followed by a non-slash character, so
backtracking into it cannot succeed), it must be non-empty and a `/` must follow.
Returns the run and the text after the `/`. -/
def matchSegment (s : Str) : Option (Str × Str) :=
  let run := s.takeWhile (fun c => c != '/')
  match s.dropWhile (fun c => c != '/') with
  | [] => none
  | _ :: rest => if run = [] then none else some (run, rest)

/-- A match of the pattern `ssh://[^/]+/([^/]+)/([^/.]+)(\.git)?` that starts at
the first character of `s`; the result is the pair of the submatches 1 and 2.
The third group is optional and the pattern is not anchored at the end, so the
greedy `[^/.]+` keeps its longest run and the match succeeds as soon as that run
is non-empty. -/
def matchHere (s : Str) : Option (Str × Str) :=
  if HasPrefix s sshScheme then
    match matchSegment (s.drop sshScheme.length) with
    | none => none
    | some (_, afterHost) =>
      match matchSegment afterHost with
      | none => none
      | some (project, afterProject) =>
        let repoName := afterProject.takeWhile (fun c => c != '/' && c != '.')
        if repoName = [] then none else some (project, repoName)
  else none

/-- The submatches 1 and 2 of `FindStringSubmatch` for the pattern of
`parseRepoInfo`: those of the leftmost position at which the pattern matches,
`none` when it matches nowhere. -/
def FindStringSubmatch : Str → Option (Str × Str)
  | [] => none
  | c :: cs =>
    match matchHere (c :: cs) with
    | some m => some m
    | none => FindStringSubmatch cs

/-- Transcription of `parseRepoInfo` (main.go, lines 171-178): `matches` has four
entries when the pattern matches and none otherwise. -/
def parseRepoInfo (remoteURL : Str) : Except Error (Str × Str) :=
  match FindStringSubmatch remoteURL with
  | none => .error (Error.unsupportedRemoteFormat remoteURL)
  | some (project, repoName) => .ok (project, repoName)

/-! ## Package `net/url` -/

/-- The escaping modes of `net/url`. -/
inductive Encoding
  | encodePath
  | encodePathSegment
  | encodeHost
  | encodeZone
  | encodeUserPassword
  | encodeQueryComponent
  | encodeFragment
  deriving DecidableEq, Repr

/-- ASCII letter or digit. -/
def isAlnum (c : Char) : Bool :=
  ('a' ≤ c && c ≤ 'z') || ('A' ≤ c && c ≤ 'Z') || ('0' ≤ c && c ≤ '9')

/-- The Go `ishex`. -/
def ishex (c : Char) : Bool :=
  ('0' ≤ c && c ≤ '9') || ('a' ≤ c && c ≤ 'f') || ('A' ≤ c && c ≤ 'F')

/-- The Go `unhex`. -/
def unhex (c : Char) : Nat :=
  if '0' ≤ c && c ≤ '9' then c.toNat - '0'.toNat
  else if 'a' ≤ c && c ≤ 'f' then c.toNat - 'a'.toNat + 10
  else if 'A' ≤ c && c ≤ 'F' then c.toNat - 'A'.toNat + 10
  else 0

/-- The Go `shouldEscape`, on an ASCII character. -/
def shouldEscape (c : Char) (mode : Encoding) : Bool :=
  if isAlnum c then false
  else if (mode = .encodeHost || mode = .encodeZone) &&
      "!$&\x27()*+,;=:[]<>\"".toList.contains c then false
  else if "-_.~".toList.contains c then false
  else if "$&+,/:;=?@".toList.contains c then
    match mode with
    | .encodePath => c == '?'
    | .encodePathSegment => c == '/' || c == ';' || c == ',' || c == '?'
    | .encodeUserPassword => c == '@' || c == '/' || c == '?' || c == ':'
    | .encodeQueryComponent => true
    | .encodeFragment => false
    | _ => true
  else if mode = .encodeFragment && "!()*".toList.contains c then false
  else true

/-- The first loop of the Go `unescape`: the check that every `%` starts a
well-formed escape and, for a host or zone, that every character is allowed.
`none` when the check passes. -/
def unescapeCheck (mode : Encoding) : Str → Option UrlError
  | [] => none
  | '%' :: a :: b :: rest =>
    if !ishex a || !ishex b then some (.escape ('%' :: a :: [b]))
    else if mode = .encodeHost && unhex a < 8 && ('%' :: a :: [b]) != "%25".toList then
      some (.escape ('%' :: a :: [b]))
    else if mode = .encodeZone && ('%' :: a :: [b]) != "%25".toList &&
        unhex a * 16 + unhex b != 0x20 &&
        shouldEscape (Char.ofNat (unhex a * 16 + unhex b)) .encodeHost then
      some (.escape ('%' :: a :: [b]))
    else unescapeCheck mode rest
  | '%' :: rest => some (.escape ('%' :: rest))
  | c :: rest =>
    if (mode = .encodeHost || mode = .encodeZone) && c.toNat < 0x80 &&
        shouldEscape c .encodeHost then
      some (.invalidHost [c])
    else unescapeCheck mode rest

/-- The second loop of the Go `unescape`: the text with its escapes replaced.  An
escaped byte is kept as the code point of the same number (exact below `0x80`). -/
def unescapeDecode (mode : Encoding) : Str → Str
  | [] => []
  | '%' :: a :: b :: rest => Char.ofNat (unhex a * 16 + unhex b) :: unescapeDecode mode rest
  | c :: rest =>
    (if c = '+' ∧ mode = .encodeQueryComponent then ' ' else c) :: unescapeDecode mode rest

/-- The Go `unescape`. -/
def unescape (s : Str) (mode : Encoding) : Except UrlError Str :=
  match unescapeCheck mode s with
  | some e => .error e
  | none => .ok (unescapeDecode mode s)

/-- The Go `stringContainsCTLByte`. -/
def stringContainsCTLByte (s : Str) : Bool :=
  s.any (fun c => c.toNat < 0x20 || c.toNat == 0x7f)

/-- The loop of the Go `getScheme` at position `i`, `s` being the text from there
on: the scheme and the text after its colon. -/
def getSchemeLoop (rawURL : Str) : Nat → Str → Except UrlError (Str × Str)
  | _, [] => .ok ([], rawURL)
  | i, c :: cs =>
    if ('a' ≤ c && c ≤ 'z') || ('A' ≤ c && c ≤ 'Z') then getSchemeLoop rawURL (i + 1) cs
    else if ('0' ≤ c && c ≤ '9') || c == '+' || c == '-' || c == '.' then
      if i = 0 then .ok ([], rawURL) else getSchemeLoop rawURL (i + 1) cs
    else if c == ':' then
      if i = 0 then .error .missingProtocolScheme else .ok (rawURL.take i, cs)
    else .ok ([], rawURL)

/-- The Go `getScheme`. -/
def getScheme (rawURL : Str) : Except UrlError (Str × Str) :=
  getSchemeLoop rawURL 0 rawURL

/-- The Go `validOptionalPort`. -/
def validOptionalPort (port : Str) : Bool :=
  match port with
  | [] => true
  | c :: rest => c == ':' && rest.all (fun b => '0' ≤ b && b ≤ '9')

/-- The Go `validUserinfo`. -/
def validUserinfo (s : Str) : Bool :=
  s.all (fun r => isAlnum r || "-._:~!$&\x27()*+,;=%@".toList.contains r)

/-- The Go `parseHost`. -/
def parseHost (host : Str) : Except UrlError Str :=
  if HasPrefix host "[".toList then
    match LastIndexByte host ']' with
    | none => .error .missingBracket
    | some i =>
      let colonPort := host.drop (i + 1)
      if !validOptionalPort colonPort then .error (.invalidPort colonPort)
      else
        match Index (host.take i) "%25".toList with
        | some zone =>
          match unescape (host.take zone) .encodeHost with
          | .error e => .error e
          | .ok host1 =>
            match unescape ((host.take i).drop zone) .encodeZone with
            | .error e => .error e
            | .ok host2 =>
              match unescape (host.drop i) .encodeHost with
              | .error e => .error e
              | .ok host3 => .ok (host1 ++ host2 ++ host3)
        | none => unescape host .encodeHost
  else
    match LastIndexByte host ':' with
    | some i =>
      let colonPort := host.drop i
      if !validOptionalPort colonPort then .error (.invalidPort colonPort)
      else unescape host .encodeHost
    | none => unescape host .encodeHost

/-- The Go `parseAuthority`, reduced to the host it returns (the user part is
checked, as its errors are errors of `url.Parse`, and then dropped). -/
def parseAuthority (authority : Str) : Except UrlError Str :=
  match LastIndexByte authority '@' with
  | none => parseHost authority
  | some i =>
    match parseHost (authority.drop (i + 1)) with
    | .error e => .error e
    | .ok host =>
      let userinfo := authority.take i
      if !validUserinfo userinfo then .error .invalidUserinfo
      else if !userinfo.contains ':' then
        match unescape userinfo .encodeUserPassword with
        | .error e => .error e
        | .ok _ => .ok host
      else
        match unescape (Cut userinfo ':').1 .encodeUserPassword with
        | .error e => .error e
        | .ok _ =>
          match unescape (Cut userinfo ':').2.1 .encodeUserPassword with
          | .error e => .error e
          | .ok _ => .ok host

/-- The Go `parse(rawURL, false)`, reduced to the field `Host` of the URL it
returns: every check that can make it fail is kept. -/
def urlParseNoFragment (rawURL : Str) : Except UrlError Str :=
  if stringContainsCTLByte rawURL then .error .invalidControlCharacter
  else if rawURL = "*".toList then .ok []
  else
    match getScheme rawURL with
    | .error e => .error e
    | .ok (scheme, rest0) =>
      let rest :=
        if HasSuffix rest0 "?".toList && Count rest0 '?' == 1 then rest0.take (rest0.length - 1)
        else (Cut rest0 '?').1
      if !HasPrefix rest "/".toList && scheme ≠ [] then .ok []
      else if !HasPrefix rest "/".toList && (Cut rest '/').1.contains ':' then
        .error .firstPathSegmentColon
      else if (scheme ≠ [] || !HasPrefix rest "///".toList) && HasPrefix rest "//".toList then
        let authority0 := rest.drop 2
        let authority := authority0.takeWhile (fun c => c != '/')
        let path := authority0.dropWhile (fun c => c != '/')
        match parseAuthority authority with
        | .error e => .error e
        | .ok host =>
          match unescape path .encodePath with
          | .error e => .error e
          | .ok _ => .ok host
      else
        match unescape rest .encodePath with
        | .error e => .error e
        | .ok _ => .ok []

/-- The Go `url.Parse`, reduced to the field `Host` of the URL it returns. -/
def urlParseHost (rawURL : Str) : Except UrlError Str :=
  let u := (Cut rawURL '#').1
  let frag := (Cut rawURL '#').2.1
  match urlParseNoFragment u with
  | .error e => .error e
  | .ok host =>
    if frag = [] then .ok host
    else
      match unescape frag .encodeFragment with
      | .error e => .error e
      | .ok _ => .ok host

/-! ## Package `net` -/

/-- The Go `net.SplitHostPort`. -/
def SplitHostPort (hostport : Str) : Except AddrError (Str × Str) :=
  match LastIndexByte hostport ':' with
  | none => .error .missingPort
  | some i =>
    if hostport.head? = some '[' then
      match IndexByte hostport ']' with
      | none => .error .missingClosingBracket
      | some fin =>
        if fin + 1 = hostport.length then .error .missingPort
        else if fin + 1 = i then
          if (IndexByte (hostport.drop 1) '[').isSome then .error .unexpectedOpeningBracket
          else if (IndexByte (hostport.drop (fin + 1)) ']').isSome then
            .error .unexpectedClosingBracket
          else .ok ((hostport.take fin).drop 1, hostport.drop (i + 1))
        else if (hostport.drop (fin + 1)).head? = some ':' then .error .tooManyColons
        else .error .missingPort
    else
      let host := hostport.take i
      if (IndexByte host ':').isSome then .error .tooManyColons
      else if (IndexByte hostport '[').isSome then .error .unexpectedOpeningBracket
      else if (IndexByte hostport ']').isSome then .error .unexpectedClosingBracket
      else .ok (host, hostport.drop (i + 1))

/-- Transcription of `parseDomain` (main.go, lines 156-168). -/
def parseDomain (remoteURL : Str) : Except Error Str :=
  match urlParseHost remoteURL with
  | .error e => .error (Error.url e)
  | .ok uHost =>
    match SplitHostPort uHost with
    | .error e => .error (Error.addr e)
    | .ok (host, _) => .ok host

/-- The UTF-8 encoding of a code point, as a list of byte values. -/
def utf8Bytes (c : Char) : List Nat :=
  let n := c.toNat
  if n < 0x80 then [n]
  else if n < 0x800 then [0xC0 + n / 0x40, 0x80 + n % 0x40]
  else if n < 0x10000 then [0xE0 + n / 0x1000, 0x80 + n / 0x40 % 0x40, 0x80 + n % 0x40]
  else [0xF0 + n / 0x40000, 0x80 + n / 0x1000 % 0x40, 0x80 + n / 0x40 % 0x40, 0x80 + n % 0x40]

/-- The table `upperhex` of `net/url` at a value below 16. -/
def upperhex (n : Nat) : Char :=
  "0123456789ABCDEF".toList.getD n '0'

/-- The three characters `%XX` the Go `escape` writes for a byte. -/
def percentByte (b : Nat) : Str :=
  ['%', upperhex (b / 16), upperhex (b % 16)]

/-- What the second loop of the Go `escape` writes, in mode `encodeQueryComponent`,
for the bytes of one code point: `+` for a space, `%XX` for a byte that
`shouldEscape` flags (every byte from `0x80` on is one), the byte itself
otherwise. -/
def escapeChar (c : Char) : Str :=
  if c = ' ' then ['+']
  else if c.toNat < 0x80 then
    if shouldEscape c .encodeQueryComponent then percentByte c.toNat else [c]
  else (utf8Bytes c).flatMap percentByte

/-- The Go `url.QueryEscape`. -/
def QueryEscape (s : Str) : Str :=
  s.flatMap escapeChar

/-! ## Package `path/filepath` (Unix) -/

/-- The path separator. -/
def Separator : Char := '/'

/-- The inner loop of the `..` case of the Go `Clean`, after `out.w--`: while
`out.w > dotdot` and the byte at `out.w` is not a separator, `out.w--`.  Returns
the final `out.w`. -/
def backtrackLoop (out : Str) (dotdot : Nat) : Nat → Nat
  | 0 => 0
  | w + 1 =>
    if w + 1 > dotdot ∧ out.getD (w + 1) Separator ≠ Separator then backtrackLoop out dotdot w
    else w + 1

/-- The main loop of the Go `Clean`: `path` is the text from position `r` on, `out`
the bytes written so far (`out.w` is its length), `dotdot` the position in `out`
where `..` must stop.  The first argument bounds the number of iterations; each
iteration consumes a byte of `path`. -/
def cleanLoop (rooted : Bool) : Nat → Str → Str → Nat → Str
  | 0, _, out, _ => out
  | fuel + 1, path, out, dotdot =>
    match path with
    | [] => out
    | c :: rest =>
      if c = Separator then
        -- empty path element
        cleanLoop rooted fuel rest out dotdot
      else if c = '.' ∧ (rest = [] ∨ rest.head? = some Separator) then
        -- . element
        cleanLoop rooted fuel rest out dotdot
      else if c = '.' ∧ rest.head? = some '.' ∧
          (rest.tail = [] ∨ rest.tail.head? = some Separator) then
        -- .. element: remove to last separator
        if out.length > dotdot then
          cleanLoop rooted fuel rest.tail
            (out.take (backtrackLoop out dotdot (out.length - 1))) dotdot
        else if !rooted then
          cleanLoop rooted fuel rest.tail
            ((if out.length > 0 then out ++ [Separator] else out) ++ ['.', '.'])
            ((if out.length > 0 then out ++ [Separator] else out) ++ ['.', '.']).length
        else cleanLoop rooted fuel rest.tail out dotdot
      else
        -- real path element: add slash if needed, copy element
        cleanLoop rooted fuel (path.dropWhile (fun b => b != Separator))
          ((if (rooted && out.length != 1) || (!rooted && out.length != 0)
              then out ++ [Separator] else out) ++ path.takeWhile (fun b => b != Separator))
          dotdot

/-- The Go `filepath.Clean`. -/
def Clean (path : Str) : Str :=
  if path = [] then ['.']
  else
    let rooted : Bool := path.head? = some Separator
    let out :=
      if rooted then cleanLoop true (path.length + 1) path.tail [Separator] 1
      else cleanLoop false (path.length + 1) path [] 0
    if out = [] then ['.'] else out

/-- The Go `filepath.Join`: the elements from the first non-empty one on, joined by
the separator and cleaned; the empty string when all are empty. -/
def Join : List Str → Str
  | [] => []
  | e :: es => if e ≠ [] then Clean ([Separator].intercalate (e :: es)) else Join es

/-- The Go `filepath.Dir`: the path up to and including its last separator,
cleaned. -/
def Dir (path : Str) : Str :=
  Clean (path.rdropWhile (fun c => c != Separator))

/-- The Go `filepath.IsAbs`. -/
def IsAbs (path : Str) : Bool :=
  HasPrefix path [Separator]

/-- The Go `filepath.Abs`. -/
def Abs (w : World) (path : Str) : Except Error Str :=
  if IsAbs path then .ok (Clean path)
  else
    match w.getwd with
    | none => .error Error.getwd
    | some wd => .ok (Join [wd, path])

/-- The first loop of the Go `filepath.Rel`, with `base` the text `base[b0:]` and
`targ` the text `targ[t0:]` at the head of an iteration (where `bi = b0` and
`ti = t0`).  Returns `base[b0:bi]`, `base[b0:]` and `targ[t0:]` as the loop leaves
them.  The first argument bounds the number of iterations; each iteration that
goes on consumes a byte of `base`. -/
def relLoop : Nat → Str → Str → Str × Str × Str
  | 0, base, targ => ([], base, targ)
  | fuel + 1, base, targ =>
    if base ≠ [] ∧ targ ≠ [] then
      if targ.takeWhile (fun c => c != Separator) ≠ base.takeWhile (fun c => c != Separator) then
        (base.takeWhile (fun c => c != Separator), base, targ)
      else
        relLoop fuel ((base.dropWhile (fun c => c != Separator)).drop 1)
          ((targ.dropWhile (fun c => c != Separator)).drop 1)
    else ([], base, targ)

/-- The Go `filepath.Rel`. -/
def Rel (basepath targpath : Str) : Except Error Str :=
  let base := Clean basepath
  let targ := Clean targpath
  if targ = base then .ok ['.']
  else
    let base := if base = ['.'] then [] else base
    let baseSlashed : Bool := base.head? = some Separator
    let targSlashed : Bool := targ.head? = some Separator
    if baseSlashed != targSlashed then .error Error.rel
    else
      let r := relLoop (base.length + 1) base targ
      if r.1 = ['.', '.'] then .error Error.rel
      else if r.2.1 ≠ [] then
        -- base elements left: go up before going down
        .ok (['.', '.'] ++ (List.replicate (Count r.2.1 Separator) [Separator, '.', '.']).flatten ++
          (if r.2.2 ≠ [] then Separator :: r.2.2 else []))
      else .ok r.2.2

/-! ## `findGitDir` -/

/-- The name of the metadata directory. -/
def dotGit : Str := ".git".toList

/-- The loop of `findGitDir` (main.go, lines 119-130) from directory `dir`.  The
first argument bounds the number of iterations; `none` when the bound is
reached before the loop ends. -/
def findGitDirLoop (w : World) : Nat → Str → Option (Except Error Str)
  | 0, _ => none
  | fuel + 1, dir =>
    if w.stat (Join [dir, dotGit]) = StatResult.dir then some (.ok (Join [dir, dotGit]))
    else if Dir dir = dir then some (.error Error.notInGitRepository)
    else findGitDirLoop w fuel (Dir dir)

/-- Transcription of `findGitDir` (main.go, lines 114-131); the loop is run for at
most one iteration per byte of the absolute start directory, and one more. -/
def findGitDir (w : World) (start : Str) : Option (Except Error Str) :=
  match Abs w start with
  | .error e => some (.error e)
  | .ok dir => findGitDirLoop w (dir.length + 1) dir

/-! ## `openBrowser` and `main` -/

/-- The command `openBrowser` starts on a platform, `none` on an unsupported one. -/
def browserCommand (goos url : Str) : Option (List Str) :=
  if goos = "linux".toList then some ["xdg-open".toList, url]
  else if goos = "darwin".toList then some ["open".toList, url]
  else if goos = "windows".toList then
    some ["rundll32".toList, "url.dll,FileProtocolHandler".toList, url]
  else none

/-- What a run has done when it ends. -/
structure Effects where
  /-- The lines written to standard output, in order. -/
  stdout : List Str
  /-- The lines written to standard error, in order. -/
  stderr : List Str
  /-- The commands handed to `exec.Command(...).Start()`, in order. -/
  started : List (List Str)
  deriving DecidableEq

/-- Transcription of `openBrowser` (main.go, lines 194-211). -/
def openBrowser (w : World) (url : Str) : Effects :=
  match browserCommand w.goos url with
  | some cmd =>
    if w.startOK then { stdout := [], stderr := [], started := [cmd] }
    else
      { stdout := ["Please open the following URL manually:".toList, url],
        stderr := ["Failed to open browser: start failed".toList],
        started := [cmd] }
  | none =>
    { stdout := ["Please open the following URL manually:".toList, url],
      stderr := ["Failed to open browser: unsupported platform".toList],
      started := [] }

/-- The calls of `log.Fatal` and `log.Fatalf` in `main`. -/
inductive Fatal
  /-- The text `Not inside a git repository.` -/
  | notInsideRepository
  /-- The text `Could not read origin URL from config: ...` -/
  | couldNotReadOrigin (e : Error)
  /-- The text `Invalid remote URL: ...` -/
  | invalidRemoteURL (e : Error)
  /-- The text `Could not determine current branch: ...` -/
  | couldNotDetermineBranch (e : Error)
  /-- The text `Path does not exist locally: ...` -/
  | pathDoesNotExist (fp : Str)
  /-- The text `Could not compute relative path for ...` -/
  | couldNotComputeRelativePath (fp : Str)
  deriving DecidableEq

/-- How a run of `main` ends. -/
inductive Outcome
  /-- A call of `log.Fatal`: the message goes to standard error and the process exits
  with status 1; nothing has been written to standard output and no command
  has been started. -/
  | fatal (f : Fatal)
  /-- The function `main` returns. -/
  | done (e : Effects)
  /-- The iteration bound of `findGitDir` was reached. -/
  | outOfFuel
  deriving DecidableEq

/-- The ref the flag `-m` selects, and the one for which no `?at=` is added. -/
def masterRef : Str := "refs/heads/master".toList

/-- The branch (main.go, lines 58-68). -/
def resolveBranch (w : World) (optM : Bool) (gitDir : Str) : Except Fatal Str :=
  if optM then .ok masterRef
  else
    match getCurrentBranch w (Join [gitDir, "HEAD".toList]) with
    | .error e => .error (Fatal.couldNotDetermineBranch e)
    | .ok branch => .ok branch

/-- The relative path (main.go, lines 70-95). -/
def resolveRelativePath (w : World) (optR : Bool) (gitDir filePath : Str) :
    Except Fatal Str :=
  if !optR then
    let workdir := Dir gitDir
    if filePath ≠ [] then
      let fp := Clean filePath
      if w.stat fp = StatResult.notExist then .error (Fatal.pathDoesNotExist fp)
      else
        let absFP := match Abs w fp with
          | .ok a => a
          | .error _ => []
        match Rel workdir absFP with
        | .error _ => .error (Fatal.couldNotComputeRelativePath fp)
        | .ok rel => .ok (['/'] ++ rel)
    else
      let wd := match w.getwd with
        | some d => d
        | none => []
      match Rel workdir wd with
      | .error _ => .ok []
      | .ok rel => if rel = ['.'] then .ok [] else .ok (['/'] ++ rel)
  else .ok []

/-- The base URL (main.go, line 56). -/
def baseURL (domain project repoName : Str) : Str :=
  "https://".toList ++ domain ++ "/projects/".toList ++ project ++ "/repos/".toList ++
    repoName ++ "/browse".toList

/-- The final URL (main.go, lines 98-103). -/
def finalURL (baseURL relativePath branch : Str) : Str :=
  if branch ≠ masterRef then baseURL ++ relativePath ++ "?at=".toList ++ QueryEscape branch
  else baseURL ++ relativePath

/-- The delivery of the URL (main.go, lines 105-110). -/
def deliver (w : World) (optN : Bool) (finalURL : Str) : Effects :=
  if !optN then
    { stdout := ("Opening: ".toList ++ finalURL) :: (openBrowser w finalURL).stdout,
      stderr := (openBrowser w finalURL).stderr,
      started := (openBrowser w finalURL).started }
  else { stdout := ["URL: ".toList ++ finalURL], stderr := [], started := [] }

/-- The path argument (main.go, lines 26-30): the first positional argument, the
empty string when there is none. -/
def filePathOf (args : List Str) : Str :=
  match args with
  | [] => []
  | a :: _ => a

/-- Transcription of `main` (main.go, lines 23-111), for the parsed flags `-m`, `-r`,
`-n` and the positional arguments `args`. -/
def main (w : World) (optM optR optN : Bool) (args : List Str) : Outcome :=
  match findGitDir w ".".toList with
  | none => Outcome.outOfFuel
  | some (.error _) => Outcome.fatal Fatal.notInsideRepository
  | some (.ok gitDir) =>
    match parseRemoteURL w (Join [gitDir, "config".toList]) with
    | .error e => Outcome.fatal (Fatal.couldNotReadOrigin e)
    | .ok remoteURL =>
      match parseRepoInfo remoteURL with
      | .error e => Outcome.fatal (Fatal.invalidRemoteURL e)
      | .ok (project, repoName) =>
        match parseDomain remoteURL with
        | .error e => Outcome.fatal (Fatal.invalidRemoteURL e)
        | .ok domain =>
          match resolveBranch w optM gitDir with
          | .error f => Outcome.fatal f
          | .ok branch =>
            match resolveRelativePath w optR gitDir (filePathOf args) with
            | .error f => Outcome.fatal f
            | .ok relativePath =>
              Outcome.done
                (deliver w optN (finalURL (baseURL domain project repoName) relativePath branch))

/-! ## Predicates of the statements -/

/-- No white space at the front. -/
def noLeadingSpace (s : Str) : Bool :=
  match s.head? with
  | none => true
  | some c => !isSpace c

/-- No white space at the end. -/
def noTrailingSpace (s : Str) : Bool :=
  match s.getLast? with
  | none => true
  | some c => !isSpace c

/-- The line is, once trimmed, a header of the origin section. -/
def isOriginHeader (line : Str) : Bool := HasPrefix (TrimSpace line) originHeader

/-- The line, once trimmed, starts with `[`. -/
def isSectionHeader (line : Str) : Bool := HasPrefix (TrimSpace line) "[".toList

/-- The line, once trimmed, starts with `url = `. -/
def isUrlLine (line : Str) : Bool := HasPrefix (TrimSpace line) urlKey

/-- The lines reach a `url = ` line before any line that starts with `[`. -/
def UrlBeforeHeader (lines : List Str) : Prop :=
  ∃ mid ul post, lines = mid ++ ul :: post ∧ (∀ l ∈ mid, isSectionHeader l = false) ∧
    isUrlLine ul = true

/-- Some `url = ` line has an origin header as its nearest preceding line that starts
with `[`. -/
def HasOriginEntry (lines : List Str) : Prop :=
  ∃ pre hdr rest, lines = pre ++ hdr :: rest ∧ isOriginHeader hdr = true ∧ UrlBeforeHeader rest

/-- A character `url.Parse` accepts in a host name and `net.SplitHostPort` keeps in
the host: an ASCII letter or digit, one of the signs ``-_.~!$&'()*+,;=<>"``, or a
character outside ASCII. -/
def hostChar (c : Char) : Bool :=
  isAlnum c || "-_.~!$&\x27()*+,;=<>\"".toList.contains c || decide (0x80 ≤ c.toNat)

/-- A decimal digit. -/
def isDigit (c : Char) : Bool := '0' ≤ c && c ≤ '9'

/-- A character that is neither an ASCII control character nor `%`. -/
def plainChar (c : Char) : Bool :=
  !(decide (c.toNat < 0x20) || c.toNat == 0x7f) && c != '%'

/-- A name of a directory entry: not empty, without separator, neither `.` nor `..`. -/
def validName (s : Str) : Bool :=
  !s.isEmpty && !s.contains Separator && s != ['.'] && s != ['.', '.']

/-- The names joined by the separator: `a/b/c`. -/
def joinSegs (segs : List Str) : Str :=
  [Separator].intercalate segs

/-- The absolute path with the given names: `/a/b/c`, and `/` for no name. -/
def absPath (segs : List Str) : Str :=
  Separator :: joinSegs segs

/-- What the parse of the authority needs of a character: it is not one of the
delimiters and passes the checks of `unescape` for a host. -/
structure AuthChar (c : Char) : Prop where
  host : c.toNat < 0x80 → shouldEscape c .encodeHost = false
  plain : plainChar c = true
  ne_slash : c ≠ '/'
  ne_at : c ≠ '@'
  ne_hash : c ≠ '#'
  ne_quest : c ≠ '?'
  ne_open : c ≠ '['
  ne_close : c ≠ ']'

/-- The origin section of the config has `url = v` as its first entry: the lines
are `pre`, a header of the origin section, lines `mid` that neither start with `[`
nor with `url = `, the line `url = v` (up to white space around it), and `post`,
and the scan of `pre` returns nothing. -/
def FirstOriginURL (lines : List Str) (v : Str) : Prop :=
  ∃ pre hdr mid ul post, lines = pre ++ hdr :: (mid ++ ul :: post) ∧
    scanConfig false pre = none ∧ isOriginHeader hdr = true ∧
    (∀ l ∈ mid, isSectionHeader l = false ∧ isUrlLine l = false) ∧
    TrimSpace ul = urlKey ++ v

/-- The remote URL `ssh://h:n/P/R` followed by `suffix`. -/
def sshRemote (h n P R suffix : Str) : Str :=
  "ssh://".toList ++ h ++ ":".toList ++ n ++ "/".toList ++ P ++ "/".toList ++ R ++ suffix

/-! ## An example repository -/

/-- The config file of the example repository, for a remote URL. -/
def exampleConfig (remote : Str) : Str :=
  "[core]\n\tbare = false\n[remote \"origin\"]\n\turl = ".toList ++ remote ++
    "\n\tfetch = +refs/heads/*:refs/remotes/origin/*\n[branch \"master\"]\n\tremote = origin\n".toList

/-- The entries of the example file system: the repository `/repo` with the
directory `src` and the file `src/a.go`. -/
def exampleStat (absolute : Str) : StatResult :=
  if absolute ∈ ["/".toList, "/repo".toList, "/repo/.git".toList, "/repo/src".toList] then
    StatResult.dir
  else if absolute ∈ ["/repo/.git/config".toList, "/repo/.git/HEAD".toList,
      "/repo/src/a.go".toList] then StatResult.file
  else StatResult.notExist

/-- A run in the example repository `/repo`, on Linux, from the directory `cwd`, with
the origin URL `remote` and the content `head` of `.git/HEAD` (`none` for a HEAD that
cannot be read).  A relative path is looked up from `cwd`. -/
def exampleWorld (cwd remote : Str) (head : Option Str) : World where
  getwd := some cwd
  stat := fun p => exampleStat (if IsAbs p then Clean p else Join [cwd, p])
  readFile := fun p =>
    if p = "/repo/.git/config".toList then some (exampleConfig remote)
    else if p = "/repo/.git/HEAD".toList then head
    else none
  goos := "linux".toList
  startOK := true

/-- The strings in which the pattern of `parseRepoInfo` occurs: somewhere `ssh://` is
followed by a non-empty run without `/`, a `/`, a second such run, a `/` and a
character that is neither `/` nor `.`. -/
def HasRepoPattern (s : Str) : Prop :=
  ∃ pre auth P c rest, s = pre ++ "ssh://".toList ++ auth ++ "/".toList ++ P ++ "/".toList ++
    c :: rest ∧ auth ≠ [] ∧ '/' ∉ auth ∧ P ≠ [] ∧ '/' ∉ P ∧ c ≠ '/' ∧ c ≠ '.'

/-- Whether a path has a `..` segment: one of its pieces between separators is
`..`. -/
def hasDotDot (p : Str) : Bool :=
  (Split p Separator).contains "..".toList

/-- The directory `/a...` holds a repository: its entry `.git` is a directory. -/
def IsRepoRoot (w : World) (a : List Str) : Prop :=
  w.stat (absPath (a ++ [dotGit])) = StatResult.dir

/-- The directory `/a...` is the deepest ancestor of `/segs...`, itself included,
that holds a repository. -/
def DeepestRepoRoot (w : World) (segs a : List Str) : Prop :=
  a <+: segs ∧ IsRepoRoot w a ∧ ∀ b, b <+: segs → IsRepoRoot w b → b.length ≤ a.length

/-- A host on which `net.SplitHostPort` finds no port: it has no colon, or it is
enclosed in brackets. -/
def PortLess (host : Str) : Prop :=
  ':' ∉ host ∨ (host.head? = some '[' ∧ host.getLast? = some ']')

/-- How the process ends. -/
inductive Exit
  /-- The function `main` returns. -/
  | returned
  /-- A call of `log.Fatal` or `log.Fatalf`. -/
  | fatal (f : Fatal)
  /-- The iteration bound of `findGitDir` was reached. -/
  | outOfFuel
  deriving DecidableEq

/-- A run of `main`, statement by statement: what has been written and started when
the process ends, and how it ends.  For a call of `log.Fatal` the effects are
those before the call, which writes its message to standard error and exits with
status 1. -/
structure Run where
  /-- The lines written and the commands started, in order. -/
  effects : Effects
  /-- How the process ends. -/
  exit : Exit
  deriving DecidableEq

/-- The start of a run: nothing written, nothing started. -/
def noEffects : Effects :=
  { stdout := [], stderr := [], started := [] }

/-- The effects `a` followed by the effects `b`. -/
def andThen (a b : Effects) : Effects :=
  { stdout := a.stdout ++ b.stdout, stderr := a.stderr ++ b.stderr,
    started := a.started ++ b.started }

/-- A line written to standard output (`fmt.Printf` with a final newline,
`fmt.Println`). -/
def printLine (e : Effects) (line : Str) : Effects :=
  { stdout := e.stdout ++ [line], stderr := e.stderr, started := e.started }

/-- A call of `log.Fatal` after the effects `e`. -/
def logFatal (e : Effects) (f : Fatal) : Run :=
  { effects := e, exit := Exit.fatal f }

/-- Transcription of `main` (main.go, lines 23-111) with its effects in the order
of the statements, from the effects `e` on. -/
def mainRun (w : World) (optM optR optN : Bool) (args : List Str) (e : Effects) : Run :=
  match findGitDir w ".".toList with
  | none => { effects := e, exit := Exit.outOfFuel }
  | some (.error _) => logFatal e Fatal.notInsideRepository
  | some (.ok gitDir) =>
    match parseRemoteURL w (Join [gitDir, "config".toList]) with
    | .error err => logFatal e (Fatal.couldNotReadOrigin err)
    | .ok remoteURL =>
      match parseRepoInfo remoteURL with
      | .error err => logFatal e (Fatal.invalidRemoteURL err)
      | .ok (project, repoName) =>
        match parseDomain remoteURL with
        | .error err => logFatal e (Fatal.invalidRemoteURL err)
        | .ok domain =>
          match resolveBranch w optM gitDir with
          | .error f => logFatal e f
          | .ok branch =>
            match resolveRelativePath w optR gitDir (filePathOf args) with
            | .error f => logFatal e f
            | .ok relativePath =>
              if !optN then
                { effects := andThen
                    (printLine e ("Opening: ".toList ++
                      finalURL (baseURL domain project repoName) relativePath branch))
                    (openBrowser w (finalURL (baseURL domain project repoName) relativePath branch)),
                  exit := Exit.returned }
              else
                { effects := printLine e ("URL: ".toList ++
                    finalURL (baseURL domain project repoName) relativePath branch),
                  exit := Exit.returned }

/-- The outcome of a run. -/
def outcomeOf (r : Run) : Outcome :=
  match r.exit with
  | Exit.returned => Outcome.done r.effects
  | Exit.fatal f => Outcome.fatal f
  | Exit.outOfFuel => Outcome.outOfFuel

/-! # Lemmas and theorems -/

/-! ## Lemmas on `strings` -/

theorem HasPrefix_iff (s pre : Str) : HasPrefix s pre = true ↔ ∃ t, s = pre ++ t := by
  unfold HasPrefix
  rw [List.isPrefixOf_iff_prefix]
  constructor
  · rintro ⟨t, ht⟩
    exact ⟨t, ht.symm⟩
  · rintro ⟨t, ht⟩
    exact ⟨t, ht.symm⟩

theorem HasPrefix_append (pre t : Str) : HasPrefix (pre ++ t) pre = true :=
  (HasPrefix_iff _ _).2 ⟨t, rfl⟩

theorem TrimPrefix_append (pre t : Str) : TrimPrefix (pre ++ t) pre = t := by
  unfold TrimPrefix
  rw [HasPrefix_append]
  simp

theorem rdropWhile_append_spaces (s ws : Str) (hlast : noTrailingSpace s = true)
    (hws : ∀ c ∈ ws, isSpace c = true) : (s ++ ws).rdropWhile isSpace = s := by
  induction ws using List.reverseRecOn with
  | nil =>
    rw [List.append_nil, List.rdropWhile_eq_self_iff]
    intro hl
    unfold noTrailingSpace at hlast
    rw [List.getLast?_eq_getLast _ hl] at hlast
    simpa using hlast
  | append_singleton l a ih =>
    rw [← List.append_assoc, List.rdropWhile_concat_pos _ _ _ (hws a (by simp))]
    exact ih (fun c hc => hws c (by simp [hc]))

/-- White space around a string that neither starts nor ends with white space is
what `TrimSpace` removes. -/
theorem TrimSpace_pad (ws1 s ws2 : Str) (hhead : noLeadingSpace s = true)
    (hlast : noTrailingSpace s = true) (h1 : ∀ c ∈ ws1, isSpace c = true)
    (h2 : ∀ c ∈ ws2, isSpace c = true) : TrimSpace (ws1 ++ (s ++ ws2)) = s := by
  unfold TrimSpace
  rw [List.dropWhile_append_of_pos h1]
  cases s with
  | nil =>
    have : ([] ++ ws2).dropWhile isSpace = [] := by
      rw [List.nil_append, List.dropWhile_eq_nil_iff]
      exact h2
    rw [this]
    rfl
  | cons a t =>
    have ha : isSpace a = false := by simpa [noLeadingSpace] using hhead
    have : (a :: t ++ ws2).dropWhile isSpace = a :: t ++ ws2 := by
      simp [List.dropWhile_cons, ha]
    rw [this]
    exact rdropWhile_append_spaces _ _ hlast h2

theorem noTrailingSpace_append (s t : Str) (ht : t ≠ []) (h : noTrailingSpace t = true) :
    noTrailingSpace (s ++ t) = true := by
  unfold noTrailingSpace at *
  rw [List.getLast?_append_of_ne_nil _ ht]
  exact h

theorem getCurrentBranchText_ref (r ws : Str) (hne : r ≠ [])
    (hlast : noTrailingSpace r = true) (hws : ∀ c ∈ ws, isSpace c = true) :
    getCurrentBranchText (refPrefix ++ r ++ ws) = .ok r := by
  have ht : TrimSpace (refPrefix ++ r ++ ws) = refPrefix ++ r := by
    unfold TrimSpace
    have : (refPrefix ++ r ++ ws).dropWhile isSpace = refPrefix ++ r ++ ws := by
      simp [refPrefix, List.dropWhile_cons, isSpace]
    rw [this]
    exact rdropWhile_append_spaces _ _ (noTrailingSpace_append _ _ hne hlast) hws
  unfold getCurrentBranchText
  simp only [ht, HasPrefix_append, TrimPrefix_append, if_true]

/-! ## Lemmas on the config scan -/

theorem scanConfig_cons (b : Bool) (l : Str) (rest : List Str) :
    scanConfig b (l :: rest) =
      if isOriginHeader l then scanConfig true rest
      else if b && isUrlLine l then some (TrimSpace (TrimPrefix (TrimSpace l) urlKey))
      else if isSectionHeader l then scanConfig false rest
      else scanConfig b rest := rfl

theorem isSectionHeader_of_isOriginHeader {l : Str} (h : isOriginHeader l = true) :
    isSectionHeader l = true := by
  unfold isOriginHeader at h
  obtain ⟨t, ht⟩ := (HasPrefix_iff _ _).1 h
  unfold isSectionHeader
  rw [ht]
  rfl

theorem not_isSectionHeader_of_isUrlLine {l : Str} (h : isUrlLine l = true) :
    isSectionHeader l = false := by
  unfold isUrlLine at h
  obtain ⟨t, ht⟩ := (HasPrefix_iff _ _).1 h
  unfold isSectionHeader
  rw [ht]
  rfl

theorem UrlBeforeHeader_nil : ¬ UrlBeforeHeader [] := by
  rintro ⟨mid, ul, post, h, -⟩
  simp at h

theorem UrlBeforeHeader_cons (l : Str) (rest : List Str) :
    UrlBeforeHeader (l :: rest) ↔
      isUrlLine l = true ∨ (isSectionHeader l = false ∧ UrlBeforeHeader rest) := by
  constructor
  · rintro ⟨mid, ul, post, h, hmid, hul⟩
    cases mid with
    | nil =>
      simp only [List.nil_append, List.cons.injEq] at h
      left
      rw [h.1]
      exact hul
    | cons m mid' =>
      simp only [List.cons_append, List.cons.injEq] at h
      right
      refine ⟨?_, mid', ul, post, h.2, fun x hx => hmid x (by simp [hx]), hul⟩
      rw [h.1]
      exact hmid m (by simp)
  · rintro (h | ⟨h, mid, ul, post, hr, hmid, hul⟩)
    · exact ⟨[], l, rest, rfl, by simp, h⟩
    · refine ⟨l :: mid, ul, post, by simp [hr], ?_, hul⟩
      intro x hx
      rcases List.mem_cons.1 hx with rfl | hx
      · exact h
      · exact hmid x hx

theorem HasOriginEntry_nil : ¬ HasOriginEntry [] := by
  rintro ⟨pre, hdr, rest, h, -⟩
  simp at h

theorem HasOriginEntry_cons (l : Str) (rest : List Str) :
    HasOriginEntry (l :: rest) ↔
      (isOriginHeader l = true ∧ UrlBeforeHeader rest) ∨ HasOriginEntry rest := by
  constructor
  · rintro ⟨pre, hdr, r, h, hh, hu⟩
    cases pre with
    | nil =>
      simp only [List.nil_append, List.cons.injEq] at h
      left
      rw [h.1, h.2]
      exact ⟨hh, hu⟩
    | cons p pre' =>
      simp only [List.cons_append, List.cons.injEq] at h
      right
      exact ⟨pre', hdr, r, h.2, hh, hu⟩
  · rintro (⟨hh, hu⟩ | ⟨pre, hdr, r, h, hh, hu⟩)
    · exact ⟨[], l, rest, rfl, hh, hu⟩
    · exact ⟨l :: pre, hdr, r, by simp [h], hh, hu⟩

/-- The scan returns a value exactly when, from its current state, an entry of the
origin section is reachable. -/
theorem scanConfig_isSome_iff (lines : List Str) : ∀ b : Bool,
    (scanConfig b lines).isSome = true ↔
      (b = true ∧ UrlBeforeHeader lines) ∨ HasOriginEntry lines := by
  induction lines with
  | nil =>
    intro b
    simp [scanConfig, UrlBeforeHeader_nil, HasOriginEntry_nil]
  | cons l rest ih =>
    intro b
    rw [scanConfig_cons, UrlBeforeHeader_cons, HasOriginEntry_cons]
    by_cases ho : isOriginHeader l = true
    · have hs := isSectionHeader_of_isOriginHeader ho
      have hu : isUrlLine l = false := by
        by_contra hc
        have := not_isSectionHeader_of_isUrlLine (Bool.eq_true_of_not_eq_false hc)
        rw [hs] at this
        exact absurd this (by decide)
      simp only [ho, if_true, ih true, hs, hu]
      simp
    · have ho' : isOriginHeader l = false := Bool.eq_false_iff.2 ho
      by_cases hu : isUrlLine l = true
      · have hs := not_isSectionHeader_of_isUrlLine hu
        cases b with
        | true => simp [ho', hu]
        | false => simp [ho', hu, hs, ih false]
      · have hu' : isUrlLine l = false := Bool.eq_false_iff.2 hu
        by_cases hs : isSectionHeader l = true
        · simp [ho', hu', hs, ih false]
        · have hs' : isSectionHeader l = false := Bool.eq_false_iff.2 hs
          simp [ho', hu', hs', ih b]

theorem scanConfig_append_of_none (pre : List Str) : ∀ b : Bool, scanConfig b pre = none →
    ∃ b', ∀ rest, scanConfig b (pre ++ rest) = scanConfig b' rest := by
  induction pre with
  | nil => intro b _; exact ⟨b, fun _ => rfl⟩
  | cons l pre ih =>
    intro b h
    rw [scanConfig_cons] at h
    by_cases ho : isOriginHeader l = true
    · rw [if_pos ho] at h
      obtain ⟨b', hb'⟩ := ih true h
      exact ⟨b', fun rest => by rw [List.cons_append, scanConfig_cons, if_pos ho, hb']⟩
    · rw [if_neg ho] at h
      by_cases hu : (b && isUrlLine l) = true
      · rw [if_pos hu] at h
        exact absurd h (by simp)
      · rw [if_neg hu] at h
        by_cases hs : isSectionHeader l = true
        · rw [if_pos hs] at h
          obtain ⟨b', hb'⟩ := ih false h
          exact ⟨b', fun rest => by
            rw [List.cons_append, scanConfig_cons, if_neg ho, if_neg hu, if_pos hs, hb']⟩
        · rw [if_neg hs] at h
          obtain ⟨b', hb'⟩ := ih b h
          exact ⟨b', fun rest => by
            rw [List.cons_append, scanConfig_cons, if_neg ho, if_neg hu, if_neg hs, hb']⟩

theorem scanConfig_skip (mid rest : List Str)
    (hmid : ∀ l ∈ mid, isSectionHeader l = false ∧ isUrlLine l = false) :
    scanConfig true (mid ++ rest) = scanConfig true rest := by
  induction mid with
  | nil => rfl
  | cons l mid ih =>
    have hl := hmid l (by simp)
    have ho : isOriginHeader l = false := by
      by_contra hc
      have := isSectionHeader_of_isOriginHeader (Bool.eq_true_of_not_eq_false hc)
      rw [hl.1] at this
      exact absurd this (by decide)
    rw [List.cons_append, scanConfig_cons]
    simp only [ho, hl.1, hl.2, Bool.and_false, Bool.false_eq_true, if_false]
    exact ih (fun x hx => hmid x (by simp [hx]))

/-- The value of the first `url = ` line of the origin section is what the scan
returns. -/
theorem scanConfig_origin_entry (pre mid post : List Str) (hdr ul v : Str)
    (hpre : scanConfig false pre = none) (hhdr : isOriginHeader hdr = true)
    (hmid : ∀ l ∈ mid, isSectionHeader l = false ∧ isUrlLine l = false)
    (hul : TrimSpace ul = urlKey ++ v) :
    scanConfig false (pre ++ hdr :: (mid ++ ul :: post)) = some (TrimSpace v) := by
  obtain ⟨b', hb'⟩ := scanConfig_append_of_none pre false hpre
  rw [hb', scanConfig_cons, if_pos hhdr, scanConfig_skip mid _ hmid, scanConfig_cons]
  have ho : isOriginHeader ul = false := by
    unfold isOriginHeader
    rw [hul]
    rfl
  have hu : isUrlLine ul = true := by
    unfold isUrlLine
    rw [hul]
    exact HasPrefix_append _ _
  simp only [ho, hu, Bool.false_eq_true, if_false, Bool.and_self, if_true, hul,
    TrimPrefix_append]

/-! ## Lemmas on `net/url` -/

theorem LastIndexByte_eq_none (s : Str) (c : Char) (h : c ∉ s) : LastIndexByte s c = none := by
  induction s with
  | nil => rfl
  | cons d ds ih =>
    have hd : ¬ d = c := fun e => h (by simp [e])
    have := ih (fun hm => h (by simp [hm]))
    simp [LastIndexByte, this, hd]

theorem LastIndexByte_append_cons (s t : Str) (c : Char) (h : c ∉ t) :
    LastIndexByte (s ++ c :: t) c = some s.length := by
  induction s with
  | nil => simp [LastIndexByte, LastIndexByte_eq_none t c h]
  | cons d ds ih => simp [LastIndexByte, ih]

theorem IndexByte_eq_none (s : Str) (c : Char) (h : c ∉ s) : IndexByte s c = none := by
  induction s with
  | nil => rfl
  | cons d ds ih =>
    have hd : ¬ d = c := fun e => h (by simp [e])
    have := ih (fun hm => h (by simp [hm]))
    simp [IndexByte, this, hd]

theorem takeWhile_ne_append (s t : Str) (x : Char) (h : x ∉ s) :
    (s ++ t).takeWhile (fun c => c != x) = s ++ t.takeWhile (fun c => c != x) :=
  List.takeWhile_append_of_pos (fun a ha => by
    have : a ≠ x := fun e => h (e ▸ ha)
    simpa using this)

theorem dropWhile_ne_append (s t : Str) (x : Char) (h : x ∉ s) :
    (s ++ t).dropWhile (fun c => c != x) = t.dropWhile (fun c => c != x) :=
  List.dropWhile_append_of_pos (fun a ha => by
    have : a ≠ x := fun e => h (e ▸ ha)
    simpa using this)

theorem takeWhile_ne_append_cons (s t : Str) (x : Char) (h : x ∉ s) :
    (s ++ x :: t).takeWhile (fun c => c != x) = s := by
  rw [takeWhile_ne_append s _ x h]
  simp

theorem dropWhile_ne_append_cons (s t : Str) (x : Char) (h : x ∉ s) :
    (s ++ x :: t).dropWhile (fun c => c != x) = x :: t := by
  rw [dropWhile_ne_append s _ x h]
  simp

theorem ascii_cases (P : Char → Prop) (h : ∀ n < 128, P (Char.ofNat n)) (c : Char)
    (hc : c.toNat < 128) : P c := by
  have := h c.toNat hc
  rwa [Char.ofNat_toNat] at this

theorem hostChar_ascii : ∀ n < 128, hostChar (Char.ofNat n) = true →
    (shouldEscape (Char.ofNat n) .encodeHost = false ∧ plainChar (Char.ofNat n) = true ∧
      Char.ofNat n ≠ '/' ∧ Char.ofNat n ≠ ':' ∧ Char.ofNat n ≠ '@' ∧ Char.ofNat n ≠ '#' ∧
      Char.ofNat n ≠ '?' ∧ Char.ofNat n ≠ '[' ∧ Char.ofNat n ≠ ']') := by
  decide

theorem isDigit_ascii : ∀ n < 128, isDigit (Char.ofNat n) = true →
    (shouldEscape (Char.ofNat n) .encodeHost = false ∧ plainChar (Char.ofNat n) = true ∧
      Char.ofNat n ≠ '/' ∧ Char.ofNat n ≠ ':' ∧ Char.ofNat n ≠ '@' ∧ Char.ofNat n ≠ '#' ∧
      Char.ofNat n ≠ '?' ∧ Char.ofNat n ≠ '[' ∧ Char.ofNat n ≠ ']') := by
  decide

theorem plainChar_of_ge {c : Char} (h : 0x80 ≤ c.toNat) : plainChar c = true := by
  unfold plainChar
  have h1 : ¬ c.toNat < 0x20 := by omega
  have h2 : ¬ c.toNat = 0x7f := by omega
  have h3 : c ≠ '%' := by
    intro e
    rw [e] at h
    exact absurd h (by decide)
  simp [h1, h2, h3]

theorem ne_of_ge {c : Char} (h : 0x80 ≤ c.toNat) (d : Char) (hd : d.toNat < 0x80) : c ≠ d := by
  intro e
  rw [e] at h
  omega

theorem AuthChar_of_hostChar {c : Char} (h : hostChar c = true) : AuthChar c ∧ c ≠ ':' := by
  by_cases hc : c.toNat < 128
  · have := ascii_cases (fun c => hostChar c = true →
      (shouldEscape c .encodeHost = false ∧ plainChar c = true ∧
      c ≠ '/' ∧ c ≠ ':' ∧ c ≠ '@' ∧ c ≠ '#' ∧ c ≠ '?' ∧ c ≠ '[' ∧ c ≠ ']')) hostChar_ascii c hc h
    exact ⟨⟨fun _ => this.1, this.2.1, this.2.2.1, this.2.2.2.2.1, this.2.2.2.2.2.1,
      this.2.2.2.2.2.2.1, this.2.2.2.2.2.2.2.1, this.2.2.2.2.2.2.2.2⟩, this.2.2.2.1⟩
  · have hge : 0x80 ≤ c.toNat := by omega
    exact ⟨⟨fun h' => absurd h' hc, plainChar_of_ge hge, ne_of_ge hge _ (by decide),
      ne_of_ge hge _ (by decide), ne_of_ge hge _ (by decide), ne_of_ge hge _ (by decide),
      ne_of_ge hge _ (by decide), ne_of_ge hge _ (by decide)⟩, ne_of_ge hge _ (by decide)⟩

theorem isDigit_lt {c : Char} (h : isDigit c = true) : c.toNat < 128 := by
  unfold isDigit at h
  simp only [Bool.and_eq_true, decide_eq_true_eq] at h
  have : c.toNat ≤ ('9' : Char).toNat := h.2
  have e : ('9' : Char).toNat = 57 := rfl
  omega

theorem AuthChar_of_isDigit {c : Char} (h : isDigit c = true) : AuthChar c ∧ c ≠ ':' := by
  have hc := isDigit_lt h
  have := ascii_cases (fun c => isDigit c = true →
      (shouldEscape c .encodeHost = false ∧ plainChar c = true ∧
      c ≠ '/' ∧ c ≠ ':' ∧ c ≠ '@' ∧ c ≠ '#' ∧ c ≠ '?' ∧ c ≠ '[' ∧ c ≠ ']')) isDigit_ascii c hc h
  exact ⟨⟨fun _ => this.1, this.2.1, this.2.2.1, this.2.2.2.2.1, this.2.2.2.2.2.1,
      this.2.2.2.2.2.2.1, this.2.2.2.2.2.2.2.1, this.2.2.2.2.2.2.2.2⟩, this.2.2.2.1⟩

theorem AuthChar_colon : AuthChar ':' :=
  ⟨fun _ => by decide, by decide, by decide, by decide, by decide, by decide, by decide,
    by decide⟩

theorem ne_percent_of_plainChar {c : Char} (h : plainChar c = true) : c ≠ '%' := by
  intro e
  rw [e] at h
  exact absurd h (by decide)

theorem unescapeCheck_eq_none (mode : Encoding) (s : Str)
    (hp : ∀ c ∈ s, c ≠ '%')
    (hh : mode = .encodeHost ∨ mode = .encodeZone →
      ∀ c ∈ s, c.toNat < 0x80 → shouldEscape c .encodeHost = false) :
    unescapeCheck mode s = none := by
  induction s with
  | nil => rfl
  | cons c rest ih =>
    have hc : c ≠ '%' := hp c (by simp)
    rw [unescapeCheck.eq_4 mode c rest (fun _ _ _ h _ => hc h) hc]
    have ih' := ih (fun x hx => hp x (by simp [hx])) (fun hm x hx => hh hm x (by simp [hx]))
    rw [ih']
    by_cases hm : mode = .encodeHost ∨ mode = .encodeZone
    · by_cases hlt : c.toNat < 0x80
      · have := hh hm c (by simp) hlt
        simp [this]
      · simp [hlt]
    · have h1 : ¬ mode = .encodeHost := fun e => hm (Or.inl e)
      have h2 : ¬ mode = .encodeZone := fun e => hm (Or.inr e)
      simp [h1, h2]

theorem unescapeDecode_eq_self (mode : Encoding) (s : Str) (hp : ∀ c ∈ s, c ≠ '%')
    (hm : mode ≠ .encodeQueryComponent) : unescapeDecode mode s = s := by
  induction s with
  | nil => rfl
  | cons c rest ih =>
    have hc : c ≠ '%' := hp c (by simp)
    rw [unescapeDecode.eq_3 mode c rest (fun _ _ _ h _ => hc h)]
    rw [ih (fun x hx => hp x (by simp [hx]))]
    simp [hm]

theorem unescape_eq_self (mode : Encoding) (s : Str) (hp : ∀ c ∈ s, c ≠ '%')
    (hh : mode = .encodeHost ∨ mode = .encodeZone →
      ∀ c ∈ s, c.toNat < 0x80 → shouldEscape c .encodeHost = false)
    (hm : mode ≠ .encodeQueryComponent) : unescape s mode = .ok s := by
  unfold unescape
  rw [unescapeCheck_eq_none mode s hp hh, unescapeDecode_eq_self mode s hp hm]

theorem AuthChar_authority (h n : Str) (hh : ∀ c ∈ h, hostChar c = true)
    (hn : ∀ c ∈ n, isDigit c = true) : ∀ c ∈ h ++ ':' :: n, AuthChar c := by
  intro c hc
  rcases List.mem_append.1 hc with hc | hc
  · exact (AuthChar_of_hostChar (hh c hc)).1
  · rcases List.mem_cons.1 hc with rfl | hc
    · exact AuthChar_colon
    · exact (AuthChar_of_isDigit (hn c hc)).1

theorem validOptionalPort_digits (n : Str) (hn : ∀ c ∈ n, isDigit c = true) :
    validOptionalPort (':' :: n) = true := by
  simp only [validOptionalPort, beq_self_eq_true, Bool.true_and, List.all_eq_true]
  intro c hc
  exact hn c hc

/-- The host parse of `h:n` returns it unchanged. -/
theorem parseHost_host_port (h n : Str) (hne : h ≠ []) (hh : ∀ c ∈ h, hostChar c = true)
    (hn : ∀ c ∈ n, isDigit c = true) : parseHost (h ++ ':' :: n) = .ok (h ++ ':' :: n) := by
  have hA := AuthChar_authority h n hh hn
  have hcolon : ':' ∉ n := fun hm => (AuthChar_of_isDigit (hn _ hm)).2 rfl
  have hpre : HasPrefix (h ++ ':' :: n) "[".toList = false := by
    cases h with
    | nil => exact absurd rfl hne
    | cons a t =>
      have ha : a ≠ '[' := (hA a (by simp)).ne_open
      have : ¬ ('[' = a) := fun e => ha e.symm
      simp [HasPrefix, List.isPrefixOf, this]
  have hun : unescape (h ++ ':' :: n) .encodeHost = .ok (h ++ ':' :: n) :=
    unescape_eq_self _ _ (fun c hc => ne_percent_of_plainChar (hA c hc).plain)
      (fun _ c hc => (hA c hc).host) (by decide)
  unfold parseHost
  rw [hpre, LastIndexByte_append_cons h n ':' hcolon]
  simp only [Bool.false_eq_true, if_false, List.drop_left, validOptionalPort_digits n hn,
    Bool.not_true, hun]

theorem parseAuthority_host_port (h n : Str) (hne : h ≠ []) (hh : ∀ c ∈ h, hostChar c = true)
    (hn : ∀ c ∈ n, isDigit c = true) :
    parseAuthority (h ++ ':' :: n) = .ok (h ++ ':' :: n) := by
  have hA := AuthChar_authority h n hh hn
  unfold parseAuthority
  rw [LastIndexByte_eq_none _ '@' (fun hm => (hA _ hm).ne_at rfl)]
  exact parseHost_host_port h n hne hh hn

theorem SplitHostPort_host_port (h n : Str) (hne : h ≠ []) (hh : ∀ c ∈ h, hostChar c = true)
    (hn : ∀ c ∈ n, isDigit c = true) : SplitHostPort (h ++ ':' :: n) = .ok (h, n) := by
  have hA := AuthChar_authority h n hh hn
  have hcolon : ':' ∉ n := fun hm => (AuthChar_of_isDigit (hn _ hm)).2 rfl
  have hcolon' : ':' ∉ h := fun hm => (AuthChar_of_hostChar (hh _ hm)).2 rfl
  have hhead : ¬ (h ++ ':' :: n).head? = some '[' := by
    cases h with
    | nil => exact absurd rfl hne
    | cons a t =>
      have ha : a ≠ '[' := (hA a (by simp)).ne_open
      simpa using ha
  unfold SplitHostPort
  rw [LastIndexByte_append_cons h n ':' hcolon]
  simp only [hhead, if_false, List.take_left, IndexByte_eq_none h ':' hcolon',
    IndexByte_eq_none _ '[' (fun hm => (hA _ hm).ne_open rfl),
    IndexByte_eq_none _ ']' (fun hm => (hA _ hm).ne_close rfl), Option.isSome_none,
    Bool.false_eq_true]
  simp


theorem getScheme_ssh (r : Str) : getScheme (sshScheme ++ r) = .ok ("ssh".toList, '/' :: '/' :: r) :=
  rfl

theorem stringContainsCTLByte_eq_false (s : Str) (h : ∀ c ∈ s, plainChar c = true) :
    stringContainsCTLByte s = false := by
  unfold stringContainsCTLByte
  rw [List.any_eq_false]
  intro c hc
  have := h c hc
  unfold plainChar at this
  simp only [Bool.and_eq_true, Bool.not_eq_true'] at this
  simp [this.1]

/-- The part of a text `url.Parse` keeps as the path when the text is what follows
the authority: the text up to its first `?`, or without its last character when
that is its only `?`. -/
theorem questionCut (a tail : Str) (ha : '?' ∉ a) (hlast : a ≠ [] ∧ a.getLast? ≠ some '?') :
    ∃ tail2, (if HasSuffix (a ++ tail) "?".toList && Count (a ++ tail) '?' == 1
        then (a ++ tail).take ((a ++ tail).length - 1) else (Cut (a ++ tail) '?').1) = a ++ tail2 ∧
      ∀ c ∈ tail2, c ∈ tail := by
  by_cases hc : (HasSuffix (a ++ tail) "?".toList && Count (a ++ tail) '?' == 1) = true
  · rw [if_pos hc]
    have htail : tail ≠ [] := by
      intro e
      subst e
      simp only [Bool.and_eq_true] at hc
      have h1 := hc.1
      unfold HasSuffix at h1
      rw [List.isSuffixOf_iff_suffix] at h1
      obtain ⟨t, ht⟩ := h1
      have : (a ++ []).getLast? = some '?' := by
        rw [← ht]
        simp
      rw [List.append_nil] at this
      exact hlast.2 this
    refine ⟨tail.dropLast, ?_, fun c hc => List.mem_of_mem_dropLast hc⟩
    rw [← List.dropLast_eq_take, List.dropLast_append_of_ne_nil _ htail]
  · rw [if_neg hc]
    refine ⟨tail.takeWhile (fun c => c != '?'), ?_, fun c hc => List.takeWhile_subset _ hc⟩
    simp only [Cut]
    exact takeWhile_ne_append a tail '?' ha


theorem plainChar_ssh_prefix (h n : Str) (hh : ∀ c ∈ h, hostChar c = true)
    (hn : ∀ c ∈ n, isDigit c = true) :
    ∀ c ∈ sshScheme ++ (h ++ ':' :: n), plainChar c = true := by
  intro c hc
  rcases List.mem_append.1 hc with hc | hc
  · have hs : ∀ c ∈ sshScheme, plainChar c = true := by decide
    exact hs c hc
  · exact (AuthChar_authority h n hh hn c hc).plain

/-- The generic parse of `ssh://h:n/tail`, before the fragment is looked at, has the
host `h:n`. -/
theorem urlParseNoFragment_ssh (h n tail : Str) (hne : h ≠ [])
    (hh : ∀ c ∈ h, hostChar c = true) (hn : ∀ c ∈ n, isDigit c = true)
    (ht : ∀ c ∈ tail, plainChar c = true) :
    urlParseNoFragment (sshScheme ++ (h ++ ':' :: n) ++ '/' :: tail) = .ok (h ++ ':' :: n) := by
  have hA := AuthChar_authority h n hh hn
  have hctl : stringContainsCTLByte (sshScheme ++ (h ++ ':' :: n) ++ '/' :: tail) = false := by
    apply stringContainsCTLByte_eq_false
    intro c hc
    rcases List.mem_append.1 hc with hc | hc
    · exact plainChar_ssh_prefix h n hh hn c hc
    · rcases List.mem_cons.1 hc with rfl | hc
      · decide
      · exact ht c hc
  have hstar : ¬ sshScheme ++ (h ++ ':' :: n) ++ '/' :: tail = "*".toList := by
    intro e
    have := congrArg List.head? e
    revert this
    simp [sshScheme]
  have hq : '?' ∉ '/' :: '/' :: (h ++ ':' :: n) ++ ['/'] := by
    intro hm
    have : '?' ∈ h ++ ':' :: n := by simpa using hm
    exact (hA _ this).ne_quest rfl
  have hl : ('/' :: '/' :: (h ++ ':' :: n) ++ ['/']).getLast? ≠ some '?' := by
    rw [List.getLast?_concat]
    decide
  obtain ⟨tail2, hrest, htail2⟩ := questionCut ('/' :: '/' :: (h ++ ':' :: n) ++ ['/']) tail hq
    ⟨by simp, hl⟩
  have hscheme : getScheme (sshScheme ++ (h ++ ':' :: n) ++ '/' :: tail) =
      .ok ("ssh".toList, '/' :: '/' :: (h ++ ':' :: n) ++ ['/'] ++ tail) := by
    rw [List.append_assoc, getScheme_ssh]
    simp
  have hslash : '/' ∉ h ++ ':' :: n := fun hm => (hA _ hm).ne_slash rfl
  unfold urlParseNoFragment
  rw [hctl, if_neg (by simp), if_neg hstar, hscheme]
  simp only [hrest]
  have e1 : '/' :: '/' :: (h ++ ':' :: n) ++ ['/'] ++ tail2 =
      '/' :: '/' :: ((h ++ ':' :: n) ++ '/' :: tail2) := by simp
  rw [e1]
  have p1 : HasPrefix ('/' :: '/' :: ((h ++ ':' :: n) ++ '/' :: tail2)) "/".toList = true := rfl
  have p2 : HasPrefix ('/' :: '/' :: ((h ++ ':' :: n) ++ '/' :: tail2)) "//".toList = true := by
    simp [HasPrefix, List.isPrefixOf]
  have hpath : unescape ('/' :: tail2) .encodePath = .ok ('/' :: tail2) :=
    unescape_eq_self _ _ (fun c hc => by
      rcases List.mem_cons.1 hc with rfl | hc
      · decide
      · exact ne_percent_of_plainChar (ht c (htail2 c hc))) (by simp) (by decide)
  simp only [p1, p2, Bool.not_true, Bool.false_and, Bool.false_eq_true, if_false, Bool.and_true,
    List.drop_succ_cons, List.drop_zero, takeWhile_ne_append_cons _ _ '/' hslash,
    dropWhile_ne_append_cons _ _ '/' hslash, parseAuthority_host_port h n hne hh hn, hpath]
  rw [if_pos (Bool.or_eq_true_iff.2 (Or.inl (by decide)))]


/-- The Go `url.Parse` of `ssh://h:n/tail` has the host `h:n`. -/
theorem urlParseHost_ssh (h n tail : Str) (hne : h ≠ [])
    (hh : ∀ c ∈ h, hostChar c = true) (hn : ∀ c ∈ n, isDigit c = true)
    (ht : ∀ c ∈ tail, plainChar c = true) :
    urlParseHost (sshScheme ++ (h ++ ':' :: n) ++ '/' :: tail) = .ok (h ++ ':' :: n) := by
  have hA := AuthChar_authority h n hh hn
  have hhash : '#' ∉ sshScheme ++ (h ++ ':' :: n) ++ ['/'] := by
    intro hm
    have : '#' ∈ h ++ ':' :: n := by simpa [sshScheme] using hm
    exact (hA _ this).ne_hash rfl
  have e : sshScheme ++ (h ++ ':' :: n) ++ '/' :: tail =
      (sshScheme ++ (h ++ ':' :: n) ++ ['/']) ++ tail := by simp
  have hu : (Cut (sshScheme ++ (h ++ ':' :: n) ++ '/' :: tail) '#').1 =
      sshScheme ++ (h ++ ':' :: n) ++ '/' :: tail.takeWhile (fun c => c != '#') := by
    simp only [Cut]
    rw [e, takeWhile_ne_append _ _ '#' hhash]
    simp
  have hf : (Cut (sshScheme ++ (h ++ ':' :: n) ++ '/' :: tail) '#').2.1 =
      (tail.dropWhile (fun c => c != '#')).drop 1 := by
    simp only [Cut]
    rw [e, dropWhile_ne_append _ _ '#' hhash]
  unfold urlParseHost
  simp only [hu, hf]
  rw [urlParseNoFragment_ssh h n _ hne hh hn
    (fun c hc => ht c (List.takeWhile_subset _ hc))]
  simp only
  split
  · rfl
  · rw [unescape_eq_self _ _ (fun c hc => ne_percent_of_plainChar
      (ht c (List.dropWhile_subset _ (List.mem_of_mem_drop hc)))) (by simp) (by decide)]

/-- The domain of `ssh://h:n/tail` is `h`. -/
theorem parseDomain_ssh (h n tail : Str) (hne : h ≠ [])
    (hh : ∀ c ∈ h, hostChar c = true) (hn : ∀ c ∈ n, isDigit c = true)
    (ht : ∀ c ∈ tail, plainChar c = true) :
    parseDomain (sshScheme ++ (h ++ ':' :: n) ++ '/' :: tail) = .ok h := by
  unfold parseDomain
  rw [urlParseHost_ssh h n tail hne hh hn ht]
  simp only [SplitHostPort_host_port h n hne hh hn]

/-! ## Lemmas on `parseRepoInfo` -/

theorem matchSegment_append (run rest : Str) (hne : run ≠ []) (hrun : '/' ∉ run) :
    matchSegment (run ++ '/' :: rest) = some (run, rest) := by
  unfold matchSegment
  simp only [takeWhile_ne_append_cons _ _ '/' hrun, dropWhile_ne_append_cons _ _ '/' hrun,
    if_neg hne]

/-- The pattern of `parseRepoInfo` matches `ssh://auth/P/R` followed by nothing, a dot
or a slash at its start, with the submatches `P` and `R`. -/
theorem matchHere_ssh (auth P R tail : Str) (hauth : auth ≠ []) (hauth2 : '/' ∉ auth)
    (hP : P ≠ []) (hP2 : '/' ∉ P) (hR : R ≠ []) (hR2 : '/' ∉ R) (hR3 : '.' ∉ R)
    (htail : tail.head? = none ∨ tail.head? = some '.' ∨ tail.head? = some '/') :
    matchHere (sshScheme ++ auth ++ '/' :: (P ++ '/' :: (R ++ tail))) = some (P, R) := by
  unfold matchHere
  rw [List.append_assoc, HasPrefix_append, if_pos rfl, List.drop_left,
    matchSegment_append auth _ hauth hauth2]
  simp only [matchSegment_append P _ hP hP2]
  have hrun : (R ++ tail).takeWhile (fun c => c != '/' && c != '.') = R := by
    rw [List.takeWhile_append_of_pos (fun a ha => by
      have h1 : a ≠ '/' := fun e => hR2 (e ▸ ha)
      have h2 : a ≠ '.' := fun e => hR3 (e ▸ ha)
      simp [h1, h2])]
    cases tail with
    | nil => simp
    | cons t ts =>
      have : t = '.' ∨ t = '/' := by simpa using htail
      rcases this with rfl | rfl <;> simp
  rw [hrun, if_neg hR]

theorem parseRepoInfo_ssh (auth P R tail : Str) (hauth : auth ≠ []) (hauth2 : '/' ∉ auth)
    (hP : P ≠ []) (hP2 : '/' ∉ P) (hR : R ≠ []) (hR2 : '/' ∉ R) (hR3 : '.' ∉ R)
    (htail : tail.head? = none ∨ tail.head? = some '.' ∨ tail.head? = some '/') :
    parseRepoInfo (sshScheme ++ auth ++ '/' :: (P ++ '/' :: (R ++ tail))) = .ok (P, R) := by
  have hm := matchHere_ssh auth P R tail hauth hauth2 hP hP2 hR hR2 hR3 htail
  have hf : FindStringSubmatch (sshScheme ++ auth ++ '/' :: (P ++ '/' :: (R ++ tail))) =
      some (P, R) := by
    have e : sshScheme ++ auth ++ '/' :: (P ++ '/' :: (R ++ tail)) =
        's' :: ("sh://".toList ++ auth ++ '/' :: (P ++ '/' :: (R ++ tail))) := rfl
    rw [e] at hm ⊢
    rw [FindStringSubmatch, hm]
  unfold parseRepoInfo
  rw [hf]

/-! ## Lemmas on `path/filepath` -/

theorem joinSegs_nil : joinSegs [] = [] := rfl

theorem joinSegs_singleton (s : Str) : joinSegs [s] = s := by
  simp [joinSegs, List.intercalate]

theorem joinSegs_cons_cons (s t : Str) (ss : List Str) :
    joinSegs (s :: t :: ss) = s ++ Separator :: joinSegs (t :: ss) := by
  simp [joinSegs, List.intercalate]

theorem joinSegs_append_singleton (segs : List Str) (s : Str) (h : segs ≠ []) :
    joinSegs (segs ++ [s]) = joinSegs segs ++ Separator :: s := by
  induction segs with
  | nil => exact absurd rfl h
  | cons a rest ih =>
    cases rest with
    | nil => simp [joinSegs_cons_cons, joinSegs_singleton]
    | cons b rest =>
      have := ih (by simp)
      rw [List.cons_append, List.cons_append, joinSegs_cons_cons, ← List.cons_append, this,
        joinSegs_cons_cons]
      simp

theorem validName_iff (s : Str) :
    validName s = true ↔ s ≠ [] ∧ Separator ∉ s ∧ s ≠ ['.'] ∧ s ≠ ['.', '.'] := by
  simp [validName, and_assoc]

theorem cleanLoop_nil (rooted : Bool) (n : Nat) (out : Str) (dotdot : Nat) :
    cleanLoop rooted n [] out dotdot = out := by
  cases n <;> rfl

/-- More fuel than bytes left changes nothing. -/
theorem cleanLoop_fuel (rooted : Bool) (n : Nat) : ∀ (m : Nat) (path out : Str) (dotdot : Nat),
    path.length ≤ n → path.length ≤ m → 
    cleanLoop rooted n path out dotdot = cleanLoop rooted m path out dotdot := by
  induction n with
  | zero =>
    intro m path out dotdot hn _
    have : path = [] := List.length_eq_zero.1 (Nat.le_zero.1 hn)
    subst this
    rw [cleanLoop_nil, cleanLoop_nil]
  | succ n ih =>
    intro m path out dotdot hn hm
    cases path with
    | nil => rw [cleanLoop_nil, cleanLoop_nil]
    | cons c rest =>
      cases m with
      | zero => simp at hm
      | succ m =>
        have hr : rest.length ≤ n := by simpa using hn
        have hr' : rest.length ≤ m := by simpa using hm
        have ht : rest.tail.length ≤ n := by simp; omega
        have ht' : rest.tail.length ≤ m := by simp; omega
        have hd : ((c :: rest).dropWhile (fun b => b != Separator)).length ≤ rest.length ∨
            c = Separator := by
          by_cases hc : c = Separator
          · exact Or.inr hc
          · left
            have e : (c :: rest).dropWhile (fun b => b != Separator) =
                rest.dropWhile (fun b => b != Separator) := by
              simp [List.dropWhile_cons, hc]
            rw [e]
            exact (List.dropWhile_sublist _).length_le
        simp only [cleanLoop]
        split
        · exact ih m _ _ _ hr hr'
        · split
          · exact ih m _ _ _ hr hr'
          · split
            · split
              · exact ih m _ _ _ ht ht'
              · split
                · exact ih m _ _ _ ht ht'
                · exact ih m _ _ _ ht ht'
            · rename_i hc _ _
              rcases hd with hd | hd
              · exact ih m _ _ _ (by omega) (by omega)
              · exact absurd hd hc


theorem cleanLoop_succ_cons (rooted : Bool) (n : Nat) (c : Char) (rest out : Str)
    (dotdot : Nat) :
    cleanLoop rooted (n + 1) (c :: rest) out dotdot =
      if c = Separator then cleanLoop rooted n rest out dotdot
      else if c = '.' ∧ (rest = [] ∨ rest.head? = some Separator) then
        cleanLoop rooted n rest out dotdot
      else if c = '.' ∧ rest.head? = some '.' ∧
          (rest.tail = [] ∨ rest.tail.head? = some Separator) then
        if out.length > dotdot then
          cleanLoop rooted n rest.tail
            (out.take (backtrackLoop out dotdot (out.length - 1))) dotdot
        else if !rooted then
          cleanLoop rooted n rest.tail
            ((if out.length > 0 then out ++ [Separator] else out) ++ ['.', '.'])
            ((if out.length > 0 then out ++ [Separator] else out) ++ ['.', '.']).length
        else cleanLoop rooted n rest.tail out dotdot
      else
        cleanLoop rooted n ((c :: rest).dropWhile (fun b => b != Separator))
          ((if (rooted && out.length != 1) || (!rooted && out.length != 0)
              then out ++ [Separator] else out) ++
            (c :: rest).takeWhile (fun b => b != Separator))
          dotdot := rfl

/-- A separator in front is skipped. -/
theorem cleanLoop_sep (rooted : Bool) (n : Nat) (rest out : Str) (dotdot : Nat)
    (hn : (Separator :: rest).length ≤ n) :
    cleanLoop rooted n (Separator :: rest) out dotdot = cleanLoop rooted n rest out dotdot := by
  cases n with
  | zero => simp at hn
  | succ n =>
    have hr : rest.length ≤ n := by simpa using hn
    rw [cleanLoop_succ_cons, if_pos rfl]
    exact cleanLoop_fuel rooted n (n + 1) rest out dotdot hr (by omega)

/-- A name in front, followed by a separator or by nothing, is copied to the output,
after a separator unless the output is the root alone. -/
theorem cleanLoop_name (n : Nat) (s rest out : Str) (dotdot : Nat)
    (hs : validName s = true) (hrest : rest.head? = none ∨ rest.head? = some Separator)
    (hn : (s ++ rest).length ≤ n) :
    cleanLoop true n (s ++ rest) out dotdot =
      cleanLoop true n rest ((if out.length != 1 then out ++ [Separator] else out) ++ s)
        dotdot := by
  obtain ⟨hne, hsep, hdot, hdotdot⟩ := (validName_iff s).1 hs
  have htake : (s ++ rest).takeWhile (fun b => b != Separator) = s := by
    rw [takeWhile_ne_append s rest Separator hsep]
    cases rest with
    | nil => simp
    | cons r rs =>
      have : r = Separator := by simpa using hrest
      subst this
      simp
  have hdrop : (s ++ rest).dropWhile (fun b => b != Separator) = rest := by
    rw [dropWhile_ne_append s rest Separator hsep]
    cases rest with
    | nil => simp
    | cons r rs =>
      have : r = Separator := by simpa using hrest
      subst this
      simp
  cases n with
  | zero =>
    have : s = [] := by
      have := Nat.le_zero.1 hn
      simp at this
      exact this.1
    exact absurd this hne
  | succ n =>
    cases s with
    | nil => exact absurd rfl hne
    | cons c t =>
      have hc : c ≠ Separator := fun e => hsep (by simp [e])
      have hr : rest.length ≤ n := by
        simp at hn
        omega
      have h1 : ¬ (c = '.' ∧ (t ++ rest = [] ∨ (t ++ rest).head? = some Separator)) := by
        rintro ⟨rfl, h⟩
        cases t with
        | nil => exact hdot rfl
        | cons d t' =>
          have : d = Separator := by simpa using h
          exact hsep (by simp [this])
      have h2 : ¬ (c = '.' ∧ (t ++ rest).head? = some '.' ∧
          ((t ++ rest).tail = [] ∨ (t ++ rest).tail.head? = some Separator)) := by
        rintro ⟨rfl, h, h'⟩
        cases t with
        | nil =>
          rcases hrest with hr0 | hr0
          · rw [List.nil_append, hr0] at h
            exact absurd h (by simp)
          · rw [List.nil_append, hr0] at h
            exact absurd h (by decide)
        | cons d t' =>
          have hd : d = '.' := by simpa using h
          subst hd
          cases t' with
          | nil => exact hdotdot rfl
          | cons e t2 =>
            have : e = Separator := by simpa using h'
            exact hsep (by simp [this])
      rw [List.cons_append] at htake hdrop ⊢
      rw [cleanLoop_succ_cons, if_neg hc, if_neg h1, if_neg h2, htake, hdrop]
      simp only [Bool.true_and, Bool.not_true, Bool.false_and, Bool.or_false]
      exact cleanLoop_fuel true n (n + 1) rest _ dotdot hr (by omega)


theorem absPath_nil : absPath [] = [Separator] := rfl

theorem absPath_length_ne_one (segs : List Str) (h : segs ≠ [])
    (hv : ∀ s ∈ segs, validName s = true) : ((absPath segs).length != 1) = true := by
  cases segs with
  | nil => exact absurd rfl h
  | cons a rest =>
    have ha := ((validName_iff a).1 (hv a (by simp))).1
    have : 0 < a.length := List.length_pos.2 ha
    cases rest with
    | nil =>
      simp only [absPath, joinSegs_singleton, List.length_cons, bne_iff_ne]
      omega
    | cons b rest =>
      simp only [absPath, joinSegs_cons_cons, List.length_cons, List.length_append, bne_iff_ne]
      omega

theorem absPath_append_singleton (segs : List Str) (s : Str)
    (hv : ∀ s ∈ segs, validName s = true) :
    (if (absPath segs).length != 1 then absPath segs ++ [Separator] else absPath segs) ++ s =
      absPath (segs ++ [s]) := by
  by_cases h : segs = []
  · subst h
    simp [absPath, joinSegs_singleton, joinSegs_nil]
  · rw [if_pos (absPath_length_ne_one segs h hv)]
    simp [absPath, joinSegs_append_singleton segs s h]

/-- The loop of `Clean` copies a run of names joined by separators. -/
theorem cleanLoop_names (segs : List Str) : ∀ (n : Nat) (done : List Str) (tail : Str),
    segs ≠ [] → (∀ s ∈ segs, validName s = true) → (∀ s ∈ done, validName s = true) →
    (tail.head? = none ∨ tail.head? = some Separator) →
    (joinSegs segs ++ tail).length ≤ n →
    cleanLoop true n (joinSegs segs ++ tail) (absPath done) 1 =
      cleanLoop true n tail (absPath (done ++ segs)) 1 := by
  induction segs with
  | nil => intro _ _ _ h; exact absurd rfl h
  | cons a rest ih =>
    intro n done tail _ hv hd ht hn
    have ha := hv a (by simp)
    cases rest with
    | nil =>
      rw [joinSegs_singleton] at hn ⊢
      rw [cleanLoop_name n a tail _ 1 ha ht hn, absPath_append_singleton done a hd]
    | cons b rest =>
      rw [joinSegs_cons_cons, List.append_assoc] at hn ⊢
      rw [List.cons_append] at hn ⊢
      have hn2 : (Separator :: (joinSegs (b :: rest) ++ tail)).length ≤ n := by
        rw [List.length_append] at hn
        omega
      have hn3 : (joinSegs (b :: rest) ++ tail).length ≤ n := by
        rw [List.length_cons] at hn2
        omega
      rw [cleanLoop_name n a (Separator :: (joinSegs (b :: rest) ++ tail)) _ 1 ha (Or.inr rfl) hn, absPath_append_singleton done a hd,
        cleanLoop_sep true n _ _ 1 hn2,
        ih n (done ++ [a]) tail (by simp) (fun s hs => hv s (by simp [hs]))
          (fun s hs => by
            rcases List.mem_append.1 hs with hs | hs
            · exact hd s hs
            · rw [List.mem_singleton.1 hs]
              exact ha) ht hn3]
      simp

/-- A clean absolute path followed by `tail` is cleaned as `tail` is after it. -/
theorem Clean_absPath_append (segs : List Str) (tail : Str)
    (hv : ∀ s ∈ segs, validName s = true)
    (ht : tail.head? = none ∨ tail.head? = some Separator) :
    Clean (absPath segs ++ tail) =
      if cleanLoop true (absPath segs ++ tail).length tail (absPath segs) 1 = [] then ['.']
      else cleanLoop true (absPath segs ++ tail).length tail (absPath segs) 1 := by
  have e : absPath segs ++ tail = Separator :: (joinSegs segs ++ tail) := rfl
  unfold Clean
  rw [if_neg (by rw [e]; simp)]
  have hr : ((absPath segs ++ tail).head? = some Separator) := by rw [e]; rfl
  simp only [hr, decide_True, if_true]
  have hl : (joinSegs segs ++ tail).length ≤ (absPath segs ++ tail).length + 1 := by
    rw [e, List.length_cons]
    omega
  have hl2 : tail.length ≤ (absPath segs ++ tail).length + 1 := by
    rw [List.length_append]
    omega
  have hl3 : tail.length ≤ (absPath segs ++ tail).length := by
    rw [List.length_append]
    omega
  have key : cleanLoop true ((absPath segs ++ tail).length + 1) (absPath segs ++ tail).tail
      [Separator] 1 = cleanLoop true (absPath segs ++ tail).length tail (absPath segs) 1 := by
    have e2 : (absPath segs ++ tail).tail = joinSegs segs ++ tail := by rw [e]; rfl
    rw [e2]
    by_cases hs : segs = []
    · subst hs
      rw [joinSegs_nil, List.nil_append]
      exact cleanLoop_fuel true _ _ tail _ 1 hl2 hl3
    · have := cleanLoop_names segs _ [] tail hs hv (by simp) ht hl
      rw [absPath_nil, List.nil_append] at this
      rw [this]
      exact cleanLoop_fuel true _ _ tail _ 1 hl2 hl3
  rw [key]

theorem absPath_ne_nil (segs : List Str) : absPath segs ≠ [] := by
  simp [absPath]

/-- A clean absolute path is left as it is by `Clean`. -/
theorem Clean_absPath (segs : List Str) (hv : ∀ s ∈ segs, validName s = true) :
    Clean (absPath segs) = absPath segs := by
  have := Clean_absPath_append segs [] hv (Or.inl rfl)
  rw [List.append_nil, cleanLoop_nil, if_neg (absPath_ne_nil segs)] at this
  exact this


theorem validName_dotGit : validName dotGit = true := by decide

/-- Joining a name to a clean absolute path adds the name. -/
theorem Join_absPath_name (segs : List Str) (name : Str)
    (hv : ∀ s ∈ segs, validName s = true) (hn : validName name = true) :
    Join [absPath segs, name] = absPath (segs ++ [name]) := by
  have e : Join [absPath segs, name] = Clean (absPath segs ++ Separator :: name) := by
    simp [Join, absPath_ne_nil, List.intercalate]
  rw [e, Clean_absPath_append segs (Separator :: name) hv (Or.inr rfl)]
  have hl : (Separator :: name).length ≤ (absPath segs ++ Separator :: name).length := by
    rw [List.length_append]
    omega
  have hl2 : (name ++ []).length ≤ (absPath segs ++ Separator :: name).length := by
    rw [List.append_nil, List.length_append, List.length_cons]
    omega
  have key : cleanLoop true (absPath segs ++ Separator :: name).length (Separator :: name)
      (absPath segs) 1 = absPath (segs ++ [name]) := by
    rw [cleanLoop_sep true _ name _ 1 hl]
    have := cleanLoop_name _ name [] (absPath segs) 1 hn (Or.inl rfl) hl2
    rw [List.append_nil] at this
    rw [this, cleanLoop_nil, absPath_append_singleton segs name hv]
  rw [key, if_neg (absPath_ne_nil _)]

/-- Joining `.` to a clean absolute path changes nothing. -/
theorem Join_absPath_dot (segs : List Str) (hv : ∀ s ∈ segs, validName s = true) :
    Join [absPath segs, ['.']] = absPath segs := by
  have e : Join [absPath segs, ['.']] = Clean (absPath segs ++ [Separator, '.']) := by
    simp [Join, absPath_ne_nil, List.intercalate]
  rw [e, Clean_absPath_append segs [Separator, '.'] hv (Or.inr rfl)]
  have hl : ([Separator, '.'] : Str).length ≤ (absPath segs ++ [Separator, '.']).length := by
    rw [List.length_append]
    omega
  have key : cleanLoop true (absPath segs ++ [Separator, '.']).length [Separator, '.']
      (absPath segs) 1 = absPath segs := by
    rw [cleanLoop_sep true _ ['.'] _ 1 hl]
    have h2 : (absPath segs ++ [Separator, '.']).length =
        ((absPath segs).length + 1) + 1 := by
      rw [List.length_append]
      rfl
    rw [h2, cleanLoop_succ_cons, if_neg (by decide), if_pos ⟨rfl, Or.inl rfl⟩, cleanLoop_nil]
  rw [key, if_neg (absPath_ne_nil _)]

theorem rdropWhile_append_of_pos {p : Char → Bool} (a s : Str) (h : ∀ c ∈ s, p c = true) :
    (a ++ s).rdropWhile p = a.rdropWhile p := by
  induction s using List.reverseRecOn with
  | nil => simp
  | append_singleton l x ih =>
    rw [← List.append_assoc, List.rdropWhile_concat_pos _ _ _ (h x (by simp))]
    exact ih (fun c hc => h c (by simp [hc]))

/-- The directory of a clean absolute path is the path without its last name. -/
theorem Dir_absPath (segs : List Str) (name : Str)
    (hv : ∀ s ∈ segs, validName s = true) (hn : validName name = true) :
    Dir (absPath (segs ++ [name])) = absPath segs := by
  obtain ⟨-, hsep, -, -⟩ := (validName_iff name).1 hn
  have hp : ∀ c ∈ name, (fun c => c != Separator) c = true := by
    intro c hc
    have : c ≠ Separator := fun e => hsep (e ▸ hc)
    simpa using this
  unfold Dir
  rw [← absPath_append_singleton segs name hv, rdropWhile_append_of_pos _ name hp]
  by_cases h : segs = []
  · subst h
    have : Clean [Separator] = [Separator] := by decide
    simpa [absPath_nil] using this
  · rw [if_pos (absPath_length_ne_one segs h hv),
      List.rdropWhile_concat_neg _ _ _ (by simp),
      Clean_absPath_append segs [Separator] hv (Or.inr rfl)]
    have hl : ([Separator] : Str).length ≤ (absPath segs ++ [Separator]).length := by
      rw [List.length_append]
      omega
    rw [cleanLoop_sep true _ [] _ 1 hl, cleanLoop_nil, if_neg (absPath_ne_nil _)]


theorem relLoop_nil (n : Nat) (targ : Str) : relLoop n [] targ = ([], [], targ) := by
  cases n with
  | zero => rfl
  | succ n => simp [relLoop]

theorem relLoop_succ (n : Nat) (base targ : Str) :
    relLoop (n + 1) base targ =
      if base ≠ [] ∧ targ ≠ [] then
        if targ.takeWhile (fun c => c != Separator) ≠ base.takeWhile (fun c => c != Separator) then
          (base.takeWhile (fun c => c != Separator), base, targ)
        else
          relLoop n ((base.dropWhile (fun c => c != Separator)).drop 1)
            ((targ.dropWhile (fun c => c != Separator)).drop 1)
      else ([], base, targ) := rfl

/-- More fuel than bytes left in `base` changes nothing. -/
theorem relLoop_fuel (n : Nat) : ∀ (m : Nat) (base targ : Str),
    base.length ≤ n → base.length ≤ m → relLoop n base targ = relLoop m base targ := by
  induction n with
  | zero =>
    intro m base targ hn _
    have : base = [] := List.length_eq_zero.1 (Nat.le_zero.1 hn)
    subst this
    rw [relLoop_nil, relLoop_nil]
  | succ n ih =>
    intro m base targ hn hm
    cases base with
    | nil => rw [relLoop_nil, relLoop_nil]
    | cons c rest =>
      cases m with
      | zero => simp at hm
      | succ m =>
        have hd : (((c :: rest).dropWhile (fun b => b != Separator)).drop 1).length ≤
            rest.length := by
          rw [List.length_drop]
          have := (List.dropWhile_sublist (fun b => b != Separator) (l := c :: rest)).length_le
          rw [List.length_cons] at this
          omega
        have hr : rest.length ≤ n := by simpa using hn
        have hr2 : rest.length ≤ m := by simpa using hm
        rw [relLoop_succ, relLoop_succ]
        split
        · split
          · rfl
          · exact ih m _ _ (by omega) (by omega)
        · rfl

theorem takeWhile_joinSegs_cons (r : Str) (rest : List Str) (hr : validName r = true) :
    (joinSegs (r :: rest)).takeWhile (fun c => c != Separator) = r := by
  obtain ⟨-, hsep, -, -⟩ := (validName_iff r).1 hr
  cases rest with
  | nil =>
    have := takeWhile_ne_append r [] Separator hsep
    simpa [joinSegs_singleton] using this
  | cons t ts =>
    rw [joinSegs_cons_cons]
    exact takeWhile_ne_append_cons r _ Separator hsep

theorem dropWhile_joinSegs_cons (r : Str) (rest : List Str) (hr : validName r = true) :
    ((joinSegs (r :: rest)).dropWhile (fun c => c != Separator)).drop 1 = joinSegs rest := by
  obtain ⟨-, hsep, -, -⟩ := (validName_iff r).1 hr
  cases rest with
  | nil =>
    have := dropWhile_ne_append r [] Separator hsep
    simp only [List.append_nil, List.dropWhile_nil] at this
    rw [joinSegs_singleton, this]
    rfl
  | cons t ts =>
    rw [joinSegs_cons_cons, dropWhile_ne_append_cons r _ Separator hsep]
    rfl

theorem joinSegs_ne_nil (segs : List Str) (h : segs ≠ [])
    (hv : ∀ s ∈ segs, validName s = true) : joinSegs segs ≠ [] := by
  cases segs with
  | nil => exact absurd rfl h
  | cons a rest =>
    have ha := ((validName_iff a).1 (hv a (by simp))).1
    cases rest with
    | nil => rw [joinSegs_singleton]; exact ha
    | cons b rest => rw [joinSegs_cons_cons]; simp [ha]

/-- The loop of `Rel` on a run of names and the same run followed by further names
consumes the run and leaves the further names. -/
theorem relLoop_names (rs : List Str) : ∀ (n : Nat) (ps : List Str),
    (∀ s ∈ rs, validName s = true) → (∀ s ∈ ps, validName s = true) → ps ≠ [] →
    (joinSegs rs).length ≤ n →
    relLoop n (joinSegs rs) (joinSegs (rs ++ ps)) = ([], [], joinSegs ps) := by
  induction rs with
  | nil =>
    intro n ps _ _ _ _
    rw [joinSegs_nil, relLoop_nil, List.nil_append]
  | cons r rest ih =>
    intro n ps hv hp hne hn
    have hr := hv r (by simp)
    have hb : joinSegs (r :: rest) ≠ [] := joinSegs_ne_nil _ (by simp) hv
    have ht : joinSegs (r :: rest ++ ps) ≠ [] := joinSegs_ne_nil _ (by simp) (fun s hs => by
      rcases List.mem_append.1 hs with hs | hs
      · exact hv s hs
      · exact hp s hs)
    cases n with
    | zero =>
      exact absurd (List.length_eq_zero.1 (Nat.le_zero.1 hn)) hb
    | succ n =>
      have hlen : (joinSegs rest).length ≤ n := by
        have e := dropWhile_joinSegs_cons r rest hr
        have h1 := (List.dropWhile_sublist (fun b => b != Separator)
          (l := joinSegs (r :: rest))).length_le
        have h2 : (joinSegs rest).length =
            ((joinSegs (r :: rest)).dropWhile (fun c => c != Separator)).length - 1 := by
          rw [← e, List.length_drop]
        have h3 : 0 < (joinSegs (r :: rest)).length := List.length_pos.2 hb
        omega
      rw [relLoop_succ, if_pos ⟨hb, ht⟩, List.cons_append, takeWhile_joinSegs_cons r rest hr,
        takeWhile_joinSegs_cons r (rest ++ ps) hr, if_neg (by simp),
        dropWhile_joinSegs_cons r rest hr, dropWhile_joinSegs_cons r (rest ++ ps) hr]
      exact ih n ps (fun s hs => hv s (by simp [hs])) hp hne hlen

theorem joinSegs_append (rs ps : List Str) (hr : rs ≠ []) (hp : ps ≠ []) :
    joinSegs (rs ++ ps) = joinSegs rs ++ Separator :: joinSegs ps := by
  induction rs with
  | nil => exact absurd rfl hr
  | cons a rest ih =>
    cases rest with
    | nil =>
      cases ps with
      | nil => exact absurd rfl hp
      | cons p ps => simp [joinSegs_cons_cons, joinSegs_singleton]
    | cons b rest =>
      have := ih (by simp)
      rw [List.cons_append, List.cons_append, joinSegs_cons_cons, ← List.cons_append, this,
        joinSegs_cons_cons]
      simp

theorem absPath_append_ne (rs ps : List Str) (hp : ps ≠ [])
    (hvp : ∀ s ∈ ps, validName s = true) : absPath (rs ++ ps) ≠ absPath rs := by
  intro e
  have hps := joinSegs_ne_nil ps hp hvp
  by_cases hr : rs = []
  · subst hr
    simp only [absPath, List.nil_append, joinSegs_nil, List.cons.injEq, true_and] at e
    exact hps e
  · simp only [absPath, joinSegs_append rs ps hr hp, List.cons.injEq, true_and] at e
    have := congrArg List.length e
    simp at this

/-- The path of a descendant relative to its ancestor is the names in between. -/
theorem Rel_absPath (rs ps : List Str) (hvr : ∀ s ∈ rs, validName s = true)
    (hvp : ∀ s ∈ ps, validName s = true) (hp : ps ≠ []) :
    Rel (absPath rs) (absPath (rs ++ ps)) = .ok (joinSegs ps) := by
  have hv : ∀ s ∈ rs ++ ps, validName s = true := fun s hs => by
    rcases List.mem_append.1 hs with hs | hs
    · exact hvr s hs
    · exact hvp s hs
  have hloop : relLoop ((absPath rs).length + 1) (absPath rs) (absPath (rs ++ ps)) =
      ([], [], joinSegs ps) := by
    rw [relLoop_succ, if_pos ⟨absPath_ne_nil _, absPath_ne_nil _⟩]
    have e1 : ∀ x : List Str, (absPath x).takeWhile (fun c => c != Separator) = [] := by
      intro x
      simp [absPath]
    have e2 : ∀ x : List Str, ((absPath x).dropWhile (fun c => c != Separator)).drop 1 =
        joinSegs x := by
      intro x
      simp [absPath]
    rw [e1, e1, if_neg (by simp), e2, e2]
    exact relLoop_names rs _ ps hvr hvp hp (by simp [absPath])
  unfold Rel
  simp only [Clean_absPath rs hvr, Clean_absPath (rs ++ ps) hv]
  rw [if_neg (absPath_append_ne rs ps hp hvp)]
  have hdot : ¬ absPath rs = ['.'] := by simp [absPath, Separator]
  simp only [if_neg hdot, hloop]
  simp [absPath]

/-- A path relative to itself is `.`. -/
theorem Rel_self (base : Str) : Rel base base = .ok ['.'] := by
  unfold Rel
  simp

/-! ## Lemmas on the remote URL, the relative path and `main` -/

theorem sshRemote_eq (h n P R suffix : Str) :
    sshRemote h n P R suffix = sshScheme ++ (h ++ ':' :: n) ++ '/' :: (P ++ '/' :: (R ++ suffix)) := by
  unfold sshRemote
  simp only [List.append_assoc]
  rfl

theorem plainChar_path (P R suffix : Str) (hP : ∀ c ∈ P, plainChar c = true)
    (hR : ∀ c ∈ R, plainChar c = true) (hs : ∀ c ∈ suffix, plainChar c = true) :
    ∀ c ∈ P ++ '/' :: (R ++ suffix), plainChar c = true := by
  intro c hc
  rcases List.mem_append.1 hc with hc | hc
  · exact hP c hc
  · rcases List.mem_cons.1 hc with rfl | hc
    · decide
    · rcases List.mem_append.1 hc with hc | hc
      · exact hR c hc
      · exact hs c hc

/-- Both extractions on `ssh://h:n/P/R` followed by `suffix`, which is empty or starts
with a dot or a slash. -/
theorem parse_sshRemote (h n P R suffix : Str)
    (hh : h ≠ []) (hhc : ∀ c ∈ h, hostChar c = true) (hn : ∀ c ∈ n, isDigit c = true)
    (hP : P ≠ []) (hP2 : '/' ∉ P) (hPc : ∀ c ∈ P, plainChar c = true)
    (hR : R ≠ []) (hR2 : '/' ∉ R) (hR3 : '.' ∉ R) (hRc : ∀ c ∈ R, plainChar c = true)
    (hs : suffix.head? = none ∨ suffix.head? = some '.' ∨ suffix.head? = some '/')
    (hsc : ∀ c ∈ suffix, plainChar c = true) :
    parseDomain (sshRemote h n P R suffix) = .ok h ∧
      parseRepoInfo (sshRemote h n P R suffix) = .ok (P, R) := by
  have hA := AuthChar_authority h n hhc hn
  rw [sshRemote_eq]
  refine ⟨parseDomain_ssh h n _ hh hhc hn (plainChar_path P R suffix hPc hRc hsc), ?_⟩
  exact parseRepoInfo_ssh (h ++ ':' :: n) P R suffix (by simp)
    (fun hm => (hA _ hm).ne_slash rfl) hP hP2 hR hR2 hR3 hs

/-- The config reader returns the first `url = ` value of the origin section,
trimmed. -/
theorem parseRemoteURL_of_FirstOriginURL (w : World) (configPath data v : Str)
    (hread : w.readFile configPath = some data)
    (hentry : FirstOriginURL (Split data '\n') v) :
    parseRemoteURL w configPath = .ok (TrimSpace v) := by
  obtain ⟨pre, hdr, mid, ul, post, hlines, hpre, hhdr, hmid, hul⟩ := hentry
  unfold parseRemoteURL parseRemoteURLText
  rw [hread]
  simp only [hlines, scanConfig_origin_entry pre mid post hdr ul v hpre hhdr hmid hul]

theorem TrimSpace_sshRemote_git (h n P R : Str) :
    TrimSpace (sshRemote h n P R ".git".toList) = sshRemote h n P R ".git".toList := by
  have hl : noLeadingSpace (sshRemote h n P R ".git".toList) = true := by
    rw [sshRemote_eq]
    rfl
  have ht : noTrailingSpace (sshRemote h n P R ".git".toList) = true := by
    unfold sshRemote
    exact noTrailingSpace_append _ _ (by decide) (by decide)
  have := TrimSpace_pad [] _ [] hl ht (by simp) (by simp)
  simpa using this

theorem findGitDirLoop_congr (w w2 : World) (hstat : w2.stat = w.stat) (n : Nat) :
    ∀ dir, findGitDirLoop w2 n dir = findGitDirLoop w n dir := by
  induction n with
  | zero => intro dir; rfl
  | succ n ih =>
    intro dir
    simp only [findGitDirLoop, hstat, ih]

theorem Abs_congr (w w2 : World) (hcwd : w2.getwd = w.getwd) (path : Str) :
    Abs w2 path = Abs w path := by
  simp only [Abs, hcwd]

theorem findGitDir_congr (w w2 : World) (hcwd : w2.getwd = w.getwd) (hstat : w2.stat = w.stat)
    (start : Str) : findGitDir w2 start = findGitDir w start := by
  simp only [findGitDir, Abs_congr w w2 hcwd, findGitDirLoop_congr w w2 hstat]

theorem resolveRelativePath_congr (w w2 : World) (hcwd : w2.getwd = w.getwd)
    (hstat : w2.stat = w.stat) (optR : Bool) (gitDir filePath : Str) :
    resolveRelativePath w2 optR gitDir filePath = resolveRelativePath w optR gitDir filePath := by
  simp only [resolveRelativePath, Abs_congr w w2 hcwd, hstat, hcwd]

theorem deliver_congr (w w2 : World) (hgoos : w2.goos = w.goos) (hstart : w2.startOK = w.startOK)
    (optN : Bool) (url : Str) : deliver w2 optN url = deliver w optN url := by
  simp only [deliver, openBrowser, hgoos, hstart]

theorem resolveBranch_master (w : World) (gitDir : Str) :
    resolveBranch w true gitDir = .ok masterRef := rfl

theorem finalURL_master (base rel : Str) : finalURL base rel masterRef = base ++ rel := by
  simp [finalURL]

theorem resolveRelativePath_root (w : World) (gitDir filePath : Str) :
    resolveRelativePath w true gitDir filePath = .ok [] := rfl

/-- What a run of `main` that returns has computed. -/
theorem main_done (w : World) (optM optR optN : Bool) (args : List Str) (e : Effects)
    (h : main w optM optR optN args = Outcome.done e) :
    ∃ gitDir remoteURL domain project repoName branch rel,
      findGitDir w ".".toList = some (.ok gitDir) ∧
      parseRemoteURL w (Join [gitDir, "config".toList]) = .ok remoteURL ∧
      parseRepoInfo remoteURL = .ok (project, repoName) ∧
      parseDomain remoteURL = .ok domain ∧
      resolveBranch w optM gitDir = .ok branch ∧
      resolveRelativePath w optR gitDir (filePathOf args) = .ok rel ∧
      e = deliver w optN (finalURL (baseURL domain project repoName) rel branch) := by
  unfold main at h
  split at h
  · exact absurd h (by simp)
  · exact absurd h (by simp)
  · rename_i gitDir hg
    split at h
    · exact absurd h (by simp)
    · rename_i remoteURL hr
      split at h
      · exact absurd h (by simp)
      · rename_i project repoName hp
        split at h
        · exact absurd h (by simp)
        · rename_i domain hd
          split at h
          · exact absurd h (by simp)
          · rename_i branch hb
            split at h
            · exact absurd h (by simp)
            · rename_i rel hrel
              exact ⟨gitDir, remoteURL, domain, project, repoName, branch, rel, hg, hr, hp, hd,
                hb, hrel, (Outcome.done.inj h).symm⟩

theorem gitDir_absPath (rs : List Str) (hrs : ∀ s ∈ rs, validName s = true) :
    Join [absPath rs, dotGit] = absPath (rs ++ [dotGit]) :=
  Join_absPath_name rs dotGit hrs validName_dotGit

theorem workdir_absPath (rs : List Str) (hrs : ∀ s ∈ rs, validName s = true) :
    Dir (Join [absPath rs, dotGit]) = absPath rs := by
  rw [gitDir_absPath rs hrs]
  exact Dir_absPath rs dotGit hrs validName_dotGit

theorem joinSegs_ne_dot (ds : List Str) (hds : ∀ s ∈ ds, validName s = true) (hne : ds ≠ []) :
    joinSegs ds ≠ ['.'] := by
  cases ds with
  | nil => exact absurd rfl hne
  | cons a rest =>
    obtain ⟨ha, -, hdot, -⟩ := (validName_iff a).1 (hds a (by simp))
    cases rest with
    | nil => rw [joinSegs_singleton]; exact hdot
    | cons b rest =>
      rw [joinSegs_cons_cons]
      intro e
      have := congrArg List.length e
      simp only [List.length_append, List.length_cons, List.length_nil] at this
      have : 0 < a.length := List.length_pos.2 ha
      omega

/-- The relative path when no path argument is given and the working directory is
the repository root or below it. -/
theorem resolveRelativePath_implicit (w : World) (rs ds : List Str)
    (hrs : ∀ s ∈ rs, validName s = true) (hds : ∀ s ∈ ds, validName s = true)
    (hcwd : w.getwd = some (absPath (rs ++ ds))) :
    resolveRelativePath w false (Join [absPath rs, dotGit]) [] =
      .ok (if ds = [] then [] else '/' :: joinSegs ds) := by
  unfold resolveRelativePath
  simp only [Bool.not_false, if_true, ne_eq, not_true_eq_false, if_false, hcwd,
    workdir_absPath rs hrs]
  by_cases hd : ds = []
  · subst hd
    rw [List.append_nil, Rel_self]
    simp
  · rw [Rel_absPath rs ds hrs hds hd]
    simp only [if_neg (joinSegs_ne_dot ds hds hd), if_neg hd]
    rfl

/-! ## The claims -/

/-- C1 (URL builder).  Whenever the earlier stages of `main` give the host `h`, the
project `p`, the repository name `r`, the branch `b` and the relative path `rel`, the
URL `main` delivers is `https://h/projects/p/repos/r/browse` followed by `rel`, as it
is, and, when `b` is not `refs/heads/master`, by `?at=` and the query-escaped `b`. -/
theorem main_final_url (w : World) (optM optR optN : Bool) (args : List Str)
    (gitDir remoteURL h p r b rel : Str)
    (hgit : findGitDir w ".".toList = some (.ok gitDir))
    (hremote : parseRemoteURL w (Join [gitDir, "config".toList]) = .ok remoteURL)
    (hrepo : parseRepoInfo remoteURL = .ok (p, r))
    (hdomain : parseDomain remoteURL = .ok h)
    (hbranch : resolveBranch w optM gitDir = .ok b)
    (hpath : resolveRelativePath w optR gitDir (filePathOf args) = .ok rel) :
    main w optM optR optN args = Outcome.done (deliver w optN
      (if b = "refs/heads/master".toList then
        "https://".toList ++ h ++ "/projects/".toList ++ p ++ "/repos/".toList ++ r ++
          "/browse".toList ++ rel
      else
        "https://".toList ++ h ++ "/projects/".toList ++ p ++ "/repos/".toList ++ r ++
          "/browse".toList ++ rel ++ "?at=".toList ++ QueryEscape b)) := by
  unfold main
  simp only [hgit, hremote, hrepo, hdomain, hbranch, hpath]
  unfold finalURL baseURL masterRef
  by_cases hb : b = "refs/heads/master".toList
  · rw [if_neg (not_not.2 hb), if_pos hb]
  · rw [if_pos hb, if_neg hb]

/-- Witness of C1: in the example repository, from `/repo/src` on the branch
`refs/heads/dev`, with `-n`. -/
theorem main_final_url_witness :
    main (exampleWorld "/repo/src".toList "ssh://git.example.com:7999/ABC/proj.git".toList
      (some "ref: refs/heads/dev\n".toList)) false false true [] =
      Outcome.done
        { stdout := [("URL: https://git.example.com/projects/ABC/repos/proj/browse/src" ++
            "?at=refs%2Fheads%2Fdev").toList],
          stderr := [], started := [] } :=
  main_final_url (exampleWorld "/repo/src".toList "ssh://git.example.com:7999/ABC/proj.git".toList
      (some "ref: refs/heads/dev\n".toList)) false false true [] "/repo/.git".toList
    "ssh://git.example.com:7999/ABC/proj.git".toList "git.example.com".toList "ABC".toList
    "proj".toList "refs/heads/dev".toList "/src".toList (by decide) (by decide) (by decide)
    (by decide) (by decide) (by decide)

/-- C2, amended (end-to-end pipeline).  In a repository with root `/rs...` whose
config has, as the first entry of its origin section, `url = ssh://h:n/P/R.git`
(`h` non-empty and made of characters `url.Parse` accepts in a host name, `n` decimal
digits, `P` non-empty without `/`, `R` non-empty without `/` and `.`, both free of
ASCII control characters and `%`) and whose HEAD is `ref: B` followed by white space
(`B` non-empty, without white space at its end), a run without `-m` and `-r` and
without path argument from the directory `/rs.../ds...` delivers
`https://h/projects/P/repos/R/browse`, followed by `/` and the names `ds` joined by
`/` when there is one, and by `?at=` and the query-escaped `B` when `B` is not
`refs/heads/master`. -/
theorem main_end_to_end (w : World) (optN : Bool) (rs ds : List Str)
    (h n P R B ws cfg : Str)
    (hrs : ∀ s ∈ rs, validName s = true) (hds : ∀ s ∈ ds, validName s = true)
    (hh : h ≠ []) (hhc : ∀ c ∈ h, hostChar c = true) (hn : ∀ c ∈ n, isDigit c = true)
    (hP : P ≠ []) (hP2 : '/' ∉ P) (hPc : ∀ c ∈ P, plainChar c = true)
    (hR : R ≠ []) (hR2 : '/' ∉ R) (hR3 : '.' ∉ R) (hRc : ∀ c ∈ R, plainChar c = true)
    (hB : B ≠ []) (hB2 : noTrailingSpace B = true) (hws : ∀ c ∈ ws, isSpace c = true)
    (hgit : findGitDir w ".".toList = some (.ok (Join [absPath rs, dotGit])))
    (hcwd : w.getwd = some (absPath (rs ++ ds)))
    (hcfg : w.readFile (Join [Join [absPath rs, dotGit], "config".toList]) = some cfg)
    (hentry : FirstOriginURL (Split cfg '\n') (sshRemote h n P R ".git".toList))
    (hhead : w.readFile (Join [Join [absPath rs, dotGit], "HEAD".toList]) =
      some ("ref: ".toList ++ B ++ ws)) :
    main w false false optN [] = Outcome.done (deliver w optN
      ("https://".toList ++ h ++ "/projects/".toList ++ P ++ "/repos/".toList ++ R ++
        "/browse".toList ++ (if ds = [] then [] else "/".toList ++ joinSegs ds) ++
        (if B = "refs/heads/master".toList then [] else "?at=".toList ++ QueryEscape B))) := by
  have hremote := parseRemoteURL_of_FirstOriginURL w _ cfg _ hcfg hentry
  rw [TrimSpace_sshRemote_git] at hremote
  obtain ⟨hdomain, hrepo⟩ := parse_sshRemote h n P R ".git".toList hh hhc hn hP hP2 hPc hR hR2 hR3
    hRc (Or.inr (Or.inl rfl)) (by decide)
  have hbranch : resolveBranch w false (Join [absPath rs, dotGit]) = .ok B := by
    unfold resolveBranch getCurrentBranch
    simp only [Bool.false_eq_true, if_false, hhead]
    have hb := getCurrentBranchText_ref B ws hB hB2 hws
    unfold refPrefix at hb
    rw [hb]
  have hpath := resolveRelativePath_implicit w rs ds hrs hds hcwd
  unfold main
  simp only [hgit, hremote, hrepo, hdomain, hbranch, filePathOf, hpath]
  unfold finalURL baseURL masterRef
  by_cases hb : B = "refs/heads/master".toList
  · rw [if_neg (not_not.2 hb), if_pos hb, List.append_nil]
    rfl
  · rw [if_pos hb, if_neg hb]
    simp only [List.append_assoc]
    rfl

/-- Witness of C2, amended: the two runs of the specification.  In the example
repository `/repo` with the remote `ssh://git.example.com:7999/ABC/proj.git`: on
`refs/heads/master` from `/repo/src` the URL is
`https://git.example.com/projects/ABC/repos/proj/browse/src`; on `refs/heads/dev`
from `/repo` with `-n` the line printed is
`URL: https://git.example.com/projects/ABC/repos/proj/browse?at=refs%2Fheads%2Fdev`. -/
theorem main_end_to_end_witness :
    main (exampleWorld "/repo/src".toList "ssh://git.example.com:7999/ABC/proj.git".toList
        (some "ref: refs/heads/master\n".toList)) false false false [] =
      Outcome.done
        { stdout :=
            ["Opening: https://git.example.com/projects/ABC/repos/proj/browse/src".toList],
          stderr := [],
          started := [["xdg-open".toList,
            "https://git.example.com/projects/ABC/repos/proj/browse/src".toList]] } ∧
    main (exampleWorld "/repo".toList "ssh://git.example.com:7999/ABC/proj.git".toList
        (some "ref: refs/heads/dev\n".toList)) false false true [] =
      Outcome.done
        { stdout := [("URL: https://git.example.com/projects/ABC/repos/proj/browse" ++
            "?at=refs%2Fheads%2Fdev").toList],
          stderr := [], started := [] } :=
  ⟨main_end_to_end (exampleWorld "/repo/src".toList "ssh://git.example.com:7999/ABC/proj.git".toList
      (some "ref: refs/heads/master\n".toList)) false ["repo".toList] ["src".toList]
      "git.example.com".toList "7999".toList "ABC".toList "proj".toList
      "refs/heads/master".toList "\n".toList
      (exampleConfig "ssh://git.example.com:7999/ABC/proj.git".toList)
      (by decide) (by decide) (by decide) (by decide) (by decide) (by decide) (by decide)
      (by decide) (by decide) (by decide) (by decide) (by decide) (by decide) (by decide)
      (by decide) (by decide) (by decide) (by decide)
      ⟨["[core]".toList, "\tbare = false".toList], "[remote \"origin\"]".toList, [],
        "\turl = ssh://git.example.com:7999/ABC/proj.git".toList,
        ["\tfetch = +refs/heads/*:refs/remotes/origin/*".toList, "[branch \"master\"]".toList,
          "\tremote = origin".toList, []],
        by decide, by decide, by decide, by decide, by decide⟩
      (by decide),
    main_end_to_end (exampleWorld "/repo".toList "ssh://git.example.com:7999/ABC/proj.git".toList
      (some "ref: refs/heads/dev\n".toList)) true ["repo".toList] []
      "git.example.com".toList "7999".toList "ABC".toList "proj".toList
      "refs/heads/dev".toList "\n".toList
      (exampleConfig "ssh://git.example.com:7999/ABC/proj.git".toList)
      (by decide) (by decide) (by decide) (by decide) (by decide) (by decide) (by decide)
      (by decide) (by decide) (by decide) (by decide) (by decide) (by decide) (by decide)
      (by decide) (by decide) (by decide) (by decide)
      ⟨["[core]".toList, "\tbare = false".toList], "[remote \"origin\"]".toList, [],
        "\turl = ssh://git.example.com:7999/ABC/proj.git".toList,
        ["\tfetch = +refs/heads/*:refs/remotes/origin/*".toList, "[branch \"master\"]".toList,
          "\tremote = origin".toList, []],
        by decide, by decide, by decide, by decide, by decide⟩
      (by decide)⟩

/-- C2 as stated fails: the host `git@example.com` has no `/` and no `:`, and with the
remote `ssh://git@example.com:7999/ABC/proj.git` the URL delivered is on the host
`example.com`, not on `git@example.com`; and with the project `100%`, which has no
`/`, the run ends in `Invalid remote URL`. -/
theorem main_end_to_end_counterexample :
    ("git@example.com".toList ≠ [] ∧ '/' ∉ "git@example.com".toList ∧
      ':' ∉ "git@example.com".toList) ∧
    main (exampleWorld "/repo/src".toList "ssh://git@example.com:7999/ABC/proj.git".toList
        (some "ref: refs/heads/master".toList)) false false true [] =
      Outcome.done
        { stdout := ["URL: https://example.com/projects/ABC/repos/proj/browse/src".toList],
          stderr := [], started := [] } ∧
    main (exampleWorld "/repo/src".toList "ssh://git@example.com:7999/ABC/proj.git".toList
        (some "ref: refs/heads/master".toList)) false false true [] ≠
      Outcome.done
        { stdout :=
            ["URL: https://git@example.com/projects/ABC/repos/proj/browse/src".toList],
          stderr := [], started := [] } ∧
    ('/' ∉ "100%".toList ∧
      main (exampleWorld "/repo/src".toList "ssh://git.example.com:7999/100%/proj.git".toList
        (some "ref: refs/heads/master".toList)) false false true [] =
      Outcome.fatal (Fatal.invalidRemoteURL (Error.url (UrlError.escape "%/p".toList)))) := by
  decide

/-- C3, amended (remote URL parsing).  For every non-empty host `h` made of characters
that `url.Parse` accepts in a host name (ASCII letters and digits, the signs
``-_.~!$&'()*+,;=<>"`` and characters outside ASCII), every port `n` of decimal
digits, every non-empty project `P` without `/` and every non-empty repository name
`R` without `/` and `.`, both free of ASCII control characters and of `%`: on
`ssh://h:n/P/R.git`, and on `ssh://h:n/P/R`, `parseDomain` returns `h` and
`parseRepoInfo` returns `(P, R)`. -/
theorem parse_ssh_remote (h n P R : Str)
    (hh : h ≠ []) (hhc : ∀ c ∈ h, hostChar c = true) (hn : ∀ c ∈ n, isDigit c = true)
    (hP : P ≠ []) (hP2 : '/' ∉ P) (hPc : ∀ c ∈ P, plainChar c = true)
    (hR : R ≠ []) (hR2 : '/' ∉ R) (hR3 : '.' ∉ R) (hRc : ∀ c ∈ R, plainChar c = true) :
    (parseDomain ("ssh://".toList ++ h ++ ":".toList ++ n ++ "/".toList ++ P ++ "/".toList ++
        R ++ ".git".toList) = .ok h ∧
      parseRepoInfo ("ssh://".toList ++ h ++ ":".toList ++ n ++ "/".toList ++ P ++ "/".toList ++
        R ++ ".git".toList) = .ok (P, R)) ∧
    (parseDomain ("ssh://".toList ++ h ++ ":".toList ++ n ++ "/".toList ++ P ++ "/".toList ++
        R) = .ok h ∧
      parseRepoInfo ("ssh://".toList ++ h ++ ":".toList ++ n ++ "/".toList ++ P ++ "/".toList ++
        R) = .ok (P, R)) := by
  constructor
  · exact parse_sshRemote h n P R ".git".toList hh hhc hn hP hP2 hPc hR hR2 hR3 hRc
      (Or.inr (Or.inl rfl)) (by decide)
  · have := parse_sshRemote h n P R [] hh hhc hn hP hP2 hPc hR hR2 hR3 hRc
      (Or.inl rfl) (by simp)
    simpa [sshRemote] using this

/-- Witness of C3: `ssh://example.com:7999/TEAM/myrepo.git` gives the host
`example.com`, the project `TEAM` and the repository name `myrepo`. -/
theorem parse_ssh_remote_witness :
    parseDomain "ssh://example.com:7999/TEAM/myrepo.git".toList = .ok "example.com".toList ∧
      parseRepoInfo "ssh://example.com:7999/TEAM/myrepo.git".toList =
        .ok ("TEAM".toList, "myrepo".toList) :=
  (parse_ssh_remote "example.com".toList "7999".toList "TEAM".toList "myrepo".toList
    (by decide) (by decide) (by decide) (by decide) (by decide) (by decide) (by decide)
    (by decide) (by decide) (by decide)).1

/-- C3 as stated fails: the host `git@example.com` has no `/` and no `:`, yet
`parseDomain` returns `example.com`; the host `my host` is rejected by `url.Parse`;
and with the project `100%` the URL is rejected as a whole, so `parseDomain` fails. -/
theorem parse_ssh_remote_counterexample :
    ("git@example.com".toList ≠ [] ∧ '/' ∉ "git@example.com".toList ∧
      ':' ∉ "git@example.com".toList ∧
      parseDomain "ssh://git@example.com:7999/TEAM/myrepo.git".toList =
        .ok "example.com".toList ∧
      parseDomain "ssh://git@example.com:7999/TEAM/myrepo.git".toList ≠
        .ok "git@example.com".toList) ∧
    parseDomain "ssh://my host:7999/TEAM/myrepo.git".toList =
      .error (Error.url (UrlError.invalidHost " ".toList)) ∧
    ('/' ∉ "100%".toList ∧ parseDomain "ssh://example.com:7999/100%/myrepo.git".toList =
      .error (Error.url (UrlError.escape "%/m".toList))) := by
  decide

/-- C4 (config reader, success value).  When the lines of the config file are: lines
`pre` on which the scan returns nothing, a line that once trimmed starts with
`[remote "origin"]`, lines that start neither with `[` nor with `url = `, and a line
that once trimmed is `url = ` followed by `v`, then `parseRemoteURL` returns `v`
without the white space around it. -/
theorem parseRemoteURL_first_origin_url (w : World) (configPath data v : Str)
    (hread : w.readFile configPath = some data)
    (hentry : FirstOriginURL (Split data '\n') v) :
    parseRemoteURL w configPath = .ok (TrimSpace v) :=
  parseRemoteURL_of_FirstOriginURL w configPath data v hread hentry

/-- Witness of C4: the header `[remote "origin"]` followed by
`url = ssh://host:7999/PROJ/repo.git` gives exactly `ssh://host:7999/PROJ/repo.git`. -/
theorem parseRemoteURL_first_origin_url_witness :
    parseRemoteURL
      { getwd := none, stat := fun _ => StatResult.notExist,
        readFile := fun _ =>
          some "[core]\n\tbare = false\n[remote \"origin\"]\n\turl = ssh://host:7999/PROJ/repo.git\n".toList,
        goos := [], startOK := false } "/repo/.git/config".toList =
      .ok "ssh://host:7999/PROJ/repo.git".toList :=
  parseRemoteURL_first_origin_url _ "/repo/.git/config".toList _
    "ssh://host:7999/PROJ/repo.git".toList rfl
    ⟨["[core]".toList, "\tbare = false".toList], "[remote \"origin\"]".toList, [],
      "\turl = ssh://host:7999/PROJ/repo.git".toList, [[]], by decide, by decide, by decide,
      by decide, by decide⟩

/-- C5 (config reader, failure).  On the text of a config file, `parseRemoteURL` fails
with `no origin remote found` exactly when no line that once trimmed starts with
`url = ` has, as its nearest preceding line starting with `[`, a line starting with
`[remote "origin"]`.  A `url = ` entry before the origin header, and one in the
section `[remote "upstream"]` after an origin section without entry, are not
returned. -/
theorem parseRemoteURLText_fails_iff (data : Str) :
    (parseRemoteURLText data = .error Error.noOriginRemote ↔
      ¬ HasOriginEntry (Split data '\n')) ∧
    parseRemoteURLText "url = ssh://h:1/P/early\n[remote \"origin\"]\n\tfetch = x\n".toList =
      .error Error.noOriginRemote ∧
    parseRemoteURLText
      "[remote \"origin\"]\n\tfetch = x\n[remote \"upstream\"]\n\turl = ssh://h:1/P/up\n".toList =
      .error Error.noOriginRemote := by
  refine ⟨?_, by decide, by decide⟩
  have h := scanConfig_isSome_iff (Split data '\n') false
  unfold parseRemoteURLText
  cases hs : scanConfig false (Split data '\n') with
  | none =>
    rw [hs] at h
    simp only [Option.isSome_none, Bool.false_eq_true, false_and, false_or, false_iff] at h
    simp [h]
  | some u =>
    rw [hs] at h
    simp only [Option.isSome_some, Bool.false_eq_true, false_and, false_or, true_iff] at h
    simp [h]

/-- C6 (branch resolver, success).  When the HEAD file holds `ref: ` followed by a
non-empty ref path `r` without white space at its end, and then any white space
(a newline, say), `getCurrentBranch` returns exactly `r`; that `r` has no white
space at its front is not needed. -/
theorem getCurrentBranch_symbolic_ref (w : World) (headPath r ws : Str) (hne : r ≠ [])
    (htrail : noTrailingSpace r = true) (hws : ∀ c ∈ ws, isSpace c = true)
    (hread : w.readFile headPath = some ("ref: ".toList ++ r ++ ws)) :
    getCurrentBranch w headPath = .ok r := by
  unfold getCurrentBranch
  rw [hread]
  exact getCurrentBranchText_ref r ws hne htrail hws

/-- Witness of C6: the content `ref: refs/heads/feature/x` and a newline gives
`refs/heads/feature/x`. -/
theorem getCurrentBranch_symbolic_ref_witness :
    getCurrentBranch (exampleWorld "/repo".toList [] (some "ref: refs/heads/feature/x\n".toList))
      "/repo/.git/HEAD".toList = .ok "refs/heads/feature/x".toList :=
  getCurrentBranch_symbolic_ref _ "/repo/.git/HEAD".toList "refs/heads/feature/x".toList
    "\n".toList (by decide) (by decide) (by decide) rfl

/-- C7 (forced default branch).  With `-m` the branch is `refs/heads/master` whatever
HEAD is; the run is the same in two worlds that differ only in the content, or the
readability, of files other than `.git/config`, so HEAD is not read and an
unreadable or detached HEAD causes no failure; and the URL delivered is the base
URL followed by the relative path, without `?at=` suffix. -/
theorem main_forced_master (w w2 : World) (optR optN : Bool) (args : List Str)
    (hcwd : w2.getwd = w.getwd) (hstat : w2.stat = w.stat) (hgoos : w2.goos = w.goos)
    (hstart : w2.startOK = w.startOK)
    (hcfg : ∀ gitDir, findGitDir w ".".toList = some (.ok gitDir) →
      w2.readFile (Join [gitDir, "config".toList]) =
        w.readFile (Join [gitDir, "config".toList])) :
    main w2 true optR optN args = main w true optR optN args ∧
    (∀ gitDir, resolveBranch w true gitDir = .ok "refs/heads/master".toList) ∧
    (∀ e, main w true optR optN args = Outcome.done e →
      ∃ gitDir remoteURL domain project repoName rel,
        findGitDir w ".".toList = some (.ok gitDir) ∧
        parseRemoteURL w (Join [gitDir, "config".toList]) = .ok remoteURL ∧
        parseRepoInfo remoteURL = .ok (project, repoName) ∧
        parseDomain remoteURL = .ok domain ∧
        resolveRelativePath w optR gitDir (filePathOf args) = .ok rel ∧
        e = deliver w optN ("https://".toList ++ domain ++ "/projects/".toList ++ project ++
          "/repos/".toList ++ repoName ++ "/browse".toList ++ rel)) := by
  refine ⟨?_, fun _ => rfl, ?_⟩
  · unfold main
    rw [findGitDir_congr w w2 hcwd hstat]
    cases hg : findGitDir w ".".toList with
    | none => rfl
    | some r =>
      cases r with
      | error e => rfl
      | ok gitDir =>
        have hc : parseRemoteURL w2 (Join [gitDir, "config".toList]) =
            parseRemoteURL w (Join [gitDir, "config".toList]) := by
          unfold parseRemoteURL
          rw [hcfg gitDir hg]
        simp only [hc, resolveBranch_master, resolveRelativePath_congr w w2 hcwd hstat,
          deliver_congr w w2 hgoos hstart]
  · intro e he
    obtain ⟨gitDir, remoteURL, domain, project, repoName, branch, rel, hg, hr, hp, hd, hb,
      hrel, rfl⟩ := main_done w true optR optN args e he
    rw [resolveBranch_master] at hb
    have hb2 : branch = masterRef := (Except.ok.inj hb).symm
    subst hb2
    exact ⟨gitDir, remoteURL, domain, project, repoName, rel, hg, hr, hp, hd, hrel, by
      rw [finalURL_master]; rfl⟩

/-- Witness of C7: the example repository with a detached HEAD and with a HEAD that
cannot be read. -/
theorem main_forced_master_witness :
    main (exampleWorld "/repo/src".toList "ssh://git.example.com:7999/ABC/proj.git".toList none)
        true false true [] =
      main (exampleWorld "/repo/src".toList "ssh://git.example.com:7999/ABC/proj.git".toList
        (some "4b825dc642cb6eb9a060e54bf8d69288fbee4904\n".toList)) true false true [] :=
  (main_forced_master
    (exampleWorld "/repo/src".toList "ssh://git.example.com:7999/ABC/proj.git".toList
      (some "4b825dc642cb6eb9a060e54bf8d69288fbee4904\n".toList))
    (exampleWorld "/repo/src".toList "ssh://git.example.com:7999/ABC/proj.git".toList none)
    false true [] rfl rfl rfl rfl (fun gitDir hg => by
      have e : findGitDir (exampleWorld "/repo/src".toList
          "ssh://git.example.com:7999/ABC/proj.git".toList
          (some "4b825dc642cb6eb9a060e54bf8d69288fbee4904\n".toList)) ".".toList =
          some (.ok "/repo/.git".toList) := by decide
      rw [e] at hg
      have hgd : gitDir = "/repo/.git".toList := (Except.ok.inj (Option.some.inj hg)).symm
      subst hgd
      decide)).1

/-- C8 (root mode).  With `-r` the relative path is empty for every path argument and
every working directory; the run does not depend on the arguments; and the URL
delivered is the base URL followed only by `?at=` and the escaped branch when the
branch is not `refs/heads/master`. -/
theorem main_root_mode (w : World) (optM optN : Bool) (args args2 : List Str) :
    (∀ gitDir filePath, resolveRelativePath w true gitDir filePath = .ok []) ∧
    main w optM true optN args = main w optM true optN args2 ∧
    (∀ e, main w optM true optN args = Outcome.done e →
      ∃ gitDir remoteURL domain project repoName branch,
        findGitDir w ".".toList = some (.ok gitDir) ∧
        parseRemoteURL w (Join [gitDir, "config".toList]) = .ok remoteURL ∧
        parseRepoInfo remoteURL = .ok (project, repoName) ∧
        parseDomain remoteURL = .ok domain ∧
        resolveBranch w optM gitDir = .ok branch ∧
        e = deliver w optN
          (if branch = "refs/heads/master".toList then
            "https://".toList ++ domain ++ "/projects/".toList ++ project ++
              "/repos/".toList ++ repoName ++ "/browse".toList
          else
            "https://".toList ++ domain ++ "/projects/".toList ++ project ++
              "/repos/".toList ++ repoName ++ "/browse".toList ++ "?at=".toList ++
              QueryEscape branch)) := by
  refine ⟨fun _ _ => rfl, ?_, ?_⟩
  · unfold main
    simp only [resolveRelativePath_root]
  · intro e he
    obtain ⟨gitDir, remoteURL, domain, project, repoName, branch, rel, hg, hr, hp, hd, hb,
      hrel, rfl⟩ := main_done w optM true optN args e he
    rw [resolveRelativePath_root] at hrel
    have hrel2 : rel = [] := (Except.ok.inj hrel).symm
    subst hrel2
    refine ⟨gitDir, remoteURL, domain, project, repoName, branch, hg, hr, hp, hd, hb, ?_⟩
    unfold finalURL baseURL masterRef
    by_cases hbm : branch = "refs/heads/master".toList
    · rw [if_neg (not_not.2 hbm), if_pos hbm, List.append_nil]
    · rw [if_pos hbm, if_neg hbm, List.append_nil]

/-- C9 (file mode).  For a repository root `/rs...` and an explicit path argument that
exists and whose absolute form is the root followed by the names `ps`, at least
one, the relative path is `/` followed by the names `ps` joined by the separator. -/
theorem resolveRelativePath_file_mode (w : World) (rs ps : List Str) (filePath : Str)
    (hrs : ∀ s ∈ rs, validName s = true) (hps : ∀ s ∈ ps, validName s = true)
    (hne : ps ≠ []) (harg : filePath ≠ [])
    (hexists : w.stat (Clean filePath) ≠ StatResult.notExist)
    (habs : Abs w (Clean filePath) = .ok (absPath (rs ++ ps))) :
    resolveRelativePath w false (Join [absPath rs, dotGit]) filePath =
      .ok ("/".toList ++ joinSegs ps) := by
  unfold resolveRelativePath
  simp only [Bool.not_false, if_true, ne_eq, harg, not_false_eq_true, if_neg hexists, habs,
    workdir_absPath rs hrs, Rel_absPath rs ps hrs hps hne]
  rfl

/-- Witness of C9: in the example repository, from `/repo/src`, the argument `a.go`
gives `/src/a.go`. -/
theorem resolveRelativePath_file_mode_witness :
    resolveRelativePath (exampleWorld "/repo/src".toList [] none) false "/repo/.git".toList
      "a.go".toList = .ok "/src/a.go".toList :=
  resolveRelativePath_file_mode (exampleWorld "/repo/src".toList [] none) ["repo".toList]
    ["src".toList, "a.go".toList] "a.go".toList (by decide) (by decide) (by decide) (by decide)
    (by decide) (by decide)

/-- C10, amended (nonexistent path).  Without `-r`, for every `-m` and `-n`, inside a
repository with a valid origin remote and a branch that resolves: if the first
argument is not empty and `os.Stat` on its cleaned form reports that it does not
exist, the run ends in `Path does not exist locally`, so nothing is printed or
opened. -/
theorem main_path_not_found (w : World) (optM optN : Bool) (a : Str) (rest : List Str)
    (gitDir remoteURL project repoName domain branch : Str)
    (ha : a ≠ []) (hstat : w.stat (Clean a) = StatResult.notExist)
    (hgit : findGitDir w ".".toList = some (.ok gitDir))
    (hremote : parseRemoteURL w (Join [gitDir, "config".toList]) = .ok remoteURL)
    (hrepo : parseRepoInfo remoteURL = .ok (project, repoName))
    (hdomain : parseDomain remoteURL = .ok domain)
    (hbranch : resolveBranch w optM gitDir = .ok branch) :
    main w optM false optN (a :: rest) = Outcome.fatal (Fatal.pathDoesNotExist (Clean a)) := by
  have hp : resolveRelativePath w false gitDir (filePathOf (a :: rest)) =
      .error (Fatal.pathDoesNotExist (Clean a)) := by
    unfold resolveRelativePath filePathOf
    simp only [Bool.not_false, if_true, ne_eq, ha, not_false_eq_true, hstat]
  unfold main
  simp only [hgit, hremote, hrepo, hdomain, hbranch, hp]

/-- Witness of C10, amended: in the example repository the argument `nonexistent`. -/
theorem main_path_not_found_witness :
    main (exampleWorld "/repo".toList "ssh://git.example.com:7999/ABC/proj.git".toList
      (some "ref: refs/heads/dev\n".toList)) false false true ["nonexistent".toList] =
      Outcome.fatal (Fatal.pathDoesNotExist "nonexistent".toList) :=
  main_path_not_found (exampleWorld "/repo".toList "ssh://git.example.com:7999/ABC/proj.git".toList
      (some "ref: refs/heads/dev\n".toList)) false true "nonexistent".toList []
    "/repo/.git".toList "ssh://git.example.com:7999/ABC/proj.git".toList "ABC".toList
    "proj".toList "git.example.com".toList "refs/heads/dev".toList (by decide) (by decide)
    (by decide) (by decide) (by decide) (by decide) (by decide)

/-- C10 as stated fails: with `-r`, in the example repository, the argument
`nonexistent` does not exist, and the URL is printed all the same. -/
theorem main_path_not_found_counterexample :
    (exampleWorld "/repo".toList "ssh://git.example.com:7999/ABC/proj.git".toList
      (some "ref: refs/heads/master\n".toList)).stat (Clean "nonexistent".toList) =
      StatResult.notExist ∧
    main (exampleWorld "/repo".toList "ssh://git.example.com:7999/ABC/proj.git".toList
      (some "ref: refs/heads/master\n".toList)) false true true ["nonexistent".toList] =
      Outcome.done
        { stdout := ["URL: https://git.example.com/projects/ABC/repos/proj/browse".toList],
          stderr := [], started := [] } := by
  decide

/-! ## More lemmas on `parseRepoInfo` -/

theorem matchSegment_eq_some {s run rest : Str} (h : matchSegment s = some (run, rest)) :
    run ≠ [] ∧ '/' ∉ run ∧ s = run ++ '/' :: rest := by
  unfold matchSegment at h
  have hsplit := List.takeWhile_append_dropWhile (fun c => c != '/') s
  cases hd : s.dropWhile (fun c => c != '/') with
  | nil =>
    rw [hd] at h
    exact absurd h (by simp)
  | cons x xs =>
    rw [hd] at h
    simp only at h
    by_cases hr : s.takeWhile (fun c => c != '/') = []
    · rw [if_pos hr] at h
      exact absurd h (by simp)
    · rw [if_neg hr] at h
      have h1 := Option.some.inj h
      have hrun : s.takeWhile (fun c => c != '/') = run := congrArg Prod.fst h1
      have hrest : xs = rest := congrArg Prod.snd h1
      have hx : x = '/' := by
        have := List.head_dropWhile_not (fun c => c != '/') s (by rw [hd]; simp)
        simpa [hd] using this
      refine ⟨hrun ▸ hr, ?_, ?_⟩
      · intro hm
        rw [← hrun] at hm
        have := List.mem_takeWhile_imp hm
        simp at this
      · rw [← hsplit, hd, hrun, hx, hrest]

theorem takeWhile_repo (s : Str) :
    (∀ c ∈ s.takeWhile (fun c => c != '/' && c != '.'), c ≠ '/' ∧ c ≠ '.') ∧
    ∃ tail, s = s.takeWhile (fun c => c != '/' && c != '.') ++ tail ∧
      (tail.head? = none ∨ tail.head? = some '.' ∨ tail.head? = some '/') := by
  constructor
  · intro c hc
    have := List.mem_takeWhile_imp hc
    simpa using this
  · refine ⟨s.dropWhile (fun c => c != '/' && c != '.'),
      (List.takeWhile_append_dropWhile _ s).symm, ?_⟩
    cases hd : s.dropWhile (fun c => c != '/' && c != '.') with
    | nil => exact Or.inl rfl
    | cons x xs =>
      have := List.head_dropWhile_not (fun c => c != '/' && c != '.') s (by rw [hd]; simp)
      simp only [hd, List.head_cons] at this
      by_cases hx : x = '/'
      · exact Or.inr (Or.inr (by simp [hx]))
      · have hx2 : x = '.' := by simpa [hx] using this
        exact Or.inr (Or.inl (by simp [hx2]))

/-- What a match of the pattern at the start of a string says of the string and of
the submatches. -/
theorem matchHere_eq_some {s P R : Str} (h : matchHere s = some (P, R)) :
    ∃ auth tail, s = sshScheme ++ auth ++ '/' :: (P ++ '/' :: (R ++ tail)) ∧
      auth ≠ [] ∧ '/' ∉ auth ∧ P ≠ [] ∧ '/' ∉ P ∧ R ≠ [] ∧ '/' ∉ R ∧ '.' ∉ R ∧
      (tail.head? = none ∨ tail.head? = some '.' ∨ tail.head? = some '/') := by
  unfold matchHere at h
  by_cases hp : HasPrefix s sshScheme = true
  · rw [if_pos hp] at h
    obtain ⟨t, ht⟩ := (HasPrefix_iff _ _).1 hp
    subst ht
    rw [List.drop_left] at h
    cases h1 : matchSegment t with
    | none =>
      rw [h1] at h
      exact absurd h (by simp)
    | some r1 =>
      obtain ⟨auth, afterHost⟩ := r1
      rw [h1] at h
      simp only at h
      obtain ⟨ha, ha2, hte⟩ := matchSegment_eq_some h1
      cases h2 : matchSegment afterHost with
      | none =>
        rw [h2] at h
        exact absurd h (by simp)
      | some r2 =>
        obtain ⟨project, afterProject⟩ := r2
        rw [h2] at h
        simp only at h
        obtain ⟨hP, hP2, hae⟩ := matchSegment_eq_some h2
        by_cases hr : afterProject.takeWhile (fun c => c != '/' && c != '.') = []
        · rw [if_pos hr] at h
          exact absurd h (by simp)
        · rw [if_neg hr] at h
          have h3 := Option.some.inj h
          have e1 : project = P := congrArg Prod.fst h3
          have e2 : afterProject.takeWhile (fun c => c != '/' && c != '.') = R :=
            congrArg Prod.snd h3
          obtain ⟨hmem, tail, htail, hhead⟩ := takeWhile_repo afterProject
          rw [e2] at hmem htail
          subst e1
          refine ⟨auth, tail, ?_, ha, ha2, hP, hP2, e2 ▸ hr, fun hm => (hmem _ hm).1 rfl,
            fun hm => (hmem _ hm).2 rfl, hhead⟩
          rw [hte, hae, htail]
          simp
  · rw [if_neg hp] at h
    exact absurd h (by simp)

theorem FindStringSubmatch_eq_some {s : Str} {m : Str × Str}
    (h : FindStringSubmatch s = some m) : ∃ pre t, s = pre ++ t ∧ matchHere t = some m := by
  induction s with
  | nil => exact absurd h (by simp [FindStringSubmatch])
  | cons c cs ih =>
    rw [FindStringSubmatch] at h
    cases hm : matchHere (c :: cs) with
    | some m2 =>
      rw [hm] at h
      exact ⟨[], c :: cs, rfl, by rw [hm]; exact h⟩
    | none =>
      rw [hm] at h
      obtain ⟨pre, t, hs, ht⟩ := ih h
      exact ⟨c :: pre, t, by rw [hs]; rfl, ht⟩

theorem matchHere_nil : matchHere [] = none := rfl

theorem FindStringSubmatch_isSome_of_suffix (pre t : Str) (m : Str × Str)
    (h : matchHere t = some m) : (FindStringSubmatch (pre ++ t)).isSome = true := by
  induction pre with
  | nil =>
    cases t with
    | nil => exact absurd h (by simp [matchHere_nil])
    | cons c cs =>
      rw [List.nil_append, FindStringSubmatch, h]
      rfl
  | cons p pre ih =>
    rw [List.cons_append, FindStringSubmatch]
    cases matchHere (p :: (pre ++ t)) with
    | some m2 => rfl
    | none => exact ih

theorem FindStringSubmatch_eq_none_iff (s : Str) :
    FindStringSubmatch s = none ↔ ¬ HasRepoPattern s := by
  constructor
  · rintro h ⟨pre, auth, P, c, rest, hs, ha, ha2, hP, hP2, hc, hc2⟩
    obtain ⟨-, tail, htail, hhead⟩ := takeWhile_repo (c :: rest)
    have hne : (c :: rest).takeWhile (fun c => c != '/' && c != '.') ≠ [] := by
      simp [List.takeWhile_cons, hc, hc2]
    have hmem := (takeWhile_repo (c :: rest)).1
    have hm := matchHere_ssh auth P ((c :: rest).takeWhile (fun c => c != '/' && c != '.'))
      tail ha ha2 hP hP2 hne (fun hm => (hmem _ hm).1 rfl) (fun hm => (hmem _ hm).2 rfl) hhead
    rw [← htail] at hm
    have := FindStringSubmatch_isSome_of_suffix pre _ _ hm
    have e : pre ++ (sshScheme ++ auth ++ '/' :: (P ++ '/' :: c :: rest)) = s := by
      rw [hs]
      simp [sshScheme]
    rw [e, h] at this
    exact absurd this (by simp)
  · intro h
    cases hf : FindStringSubmatch s with
    | none => rfl
    | some m =>
      exfalso
      obtain ⟨P, R⟩ := m
      obtain ⟨pre, t, hs, ht⟩ := FindStringSubmatch_eq_some hf
      obtain ⟨auth, tail, hte, ha, ha2, hP, hP2, hR, hR2, hR3, -⟩ := matchHere_eq_some ht
      cases R with
      | nil => exact hR rfl
      | cons c R2 =>
        exact h ⟨pre, auth, P, c, R2 ++ tail, by rw [hs, hte]; simp [sshScheme], ha, ha2, hP,
          hP2, fun e => hR2 (by simp [e]), fun e => hR3 (by simp [e])⟩

theorem parseRepoInfo_eq_ok {s P R : Str} (h : parseRepoInfo s = .ok (P, R)) :
    FindStringSubmatch s = some (P, R) := by
  unfold parseRepoInfo at h
  cases hf : FindStringSubmatch s with
  | none =>
    rw [hf] at h
    exact absurd h (by simp)
  | some m =>
    rw [hf] at h
    obtain ⟨p, r⟩ := m
    simp only [Except.ok.injEq, Prod.mk.injEq] at h
    rw [h.1, h.2]

theorem parseRepoInfo_of_not_HasRepoPattern (s : Str) (h : ¬ HasRepoPattern s) :
    parseRepoInfo s = .error (Error.unsupportedRemoteFormat s) := by
  unfold parseRepoInfo
  rw [(FindStringSubmatch_eq_none_iff s).2 h]

/-- Strings that `parseRepoInfo` rejects: a path of one segment, an empty project, a
repository segment that starts with a dot, and another scheme. -/
theorem parseRepoInfo_rejects :
    parseRepoInfo "ssh://h:1/P".toList = .error (Error.unsupportedRemoteFormat "ssh://h:1/P".toList) ∧
    parseRepoInfo "ssh://h:1//R.git".toList =
      .error (Error.unsupportedRemoteFormat "ssh://h:1//R.git".toList) ∧
    parseRepoInfo "ssh://h:1/P/.git".toList =
      .error (Error.unsupportedRemoteFormat "ssh://h:1/P/.git".toList) ∧
    parseRepoInfo "https://h/P/R.git".toList =
      .error (Error.unsupportedRemoteFormat "https://h/P/R.git".toList) :=
  ⟨parseRepoInfo_of_not_HasRepoPattern _ ((FindStringSubmatch_eq_none_iff _).1 (by decide)),
    parseRepoInfo_of_not_HasRepoPattern _ ((FindStringSubmatch_eq_none_iff _).1 (by decide)),
    parseRepoInfo_of_not_HasRepoPattern _ ((FindStringSubmatch_eq_none_iff _).1 (by decide)),
    parseRepoInfo_of_not_HasRepoPattern _ ((FindStringSubmatch_eq_none_iff _).1 (by decide))⟩

/-- C11 fails on the code.  The pattern of `parseRepoInfo` has no anchors, so the
three remote URLs the claim names are accepted where the error
`unsupported remote URL format` is required: a path of three segments gives its
first two, the repository segment `my.repo.git` is cut to `my`, and text before
`ssh://` is skipped.  With the remote `ssh://git.example.com:7999/ABC/my.repo.git`
the run prints a URL of the repository `my`. -/
theorem parseRepoInfo_unanchored :
    parseRepoInfo "ssh://h:1/a/b/c".toList = .ok ("a".toList, "b".toList) ∧
    parseRepoInfo "ssh://h:1/P/my.repo.git".toList = .ok ("P".toList, "my".toList) ∧
    parseRepoInfo "see ssh://h:1/P/R.git".toList = .ok ("P".toList, "R".toList) ∧
    main (exampleWorld "/repo".toList "ssh://git.example.com:7999/ABC/my.repo.git".toList
        (some "ref: refs/heads/master\n".toList)) false false true [] =
      Outcome.done
        { stdout := ["URL: https://git.example.com/projects/ABC/repos/my/browse".toList],
          stderr := [], started := [] } := by
  decide

theorem parseRepoInfo_ok_invariant (s project repoName : Str)
    (h : parseRepoInfo s = .ok (project, repoName)) :
    project ≠ [] ∧ repoName ≠ [] ∧ '/' ∉ project ∧ '/' ∉ repoName ∧ '.' ∉ repoName := by
  obtain ⟨pre, t, -, ht⟩ := FindStringSubmatch_eq_some (parseRepoInfo_eq_ok h)
  obtain ⟨auth, tail, -, -, -, hP, hP2, hR, hR2, hR3, -⟩ := matchHere_eq_some ht
  exact ⟨hP, hR, hP2, hR2, hR3⟩

/-- C15 (RepoInfo invariant).  Whenever `parseRepoInfo` succeeds, the project and the
repository name it returns are non-empty, the project has no `/` and the
repository name has neither `/` nor `.`. -/
theorem parseRepoInfo_invariant (s project repoName : Str)
    (h : parseRepoInfo s = .ok (project, repoName)) :
    project ≠ [] ∧ repoName ≠ [] ∧ '/' ∉ project ∧ '/' ∉ repoName ∧ '.' ∉ repoName :=
  parseRepoInfo_ok_invariant s project repoName h

/-- Witness of C15: `ssh://example.com:7999/TEAM/my.repo.git`, of which `TEAM` and `my`
are returned. -/
theorem parseRepoInfo_invariant_witness :
    parseRepoInfo "ssh://example.com:7999/TEAM/my.repo.git".toList =
      .ok ("TEAM".toList, "my".toList) ∧
    "TEAM".toList ≠ [] ∧ "my".toList ≠ [] ∧ '/' ∉ "TEAM".toList ∧ '/' ∉ "my".toList ∧
      '.' ∉ "my".toList :=
  ⟨by decide, parseRepoInfo_invariant "ssh://example.com:7999/TEAM/my.repo.git".toList
    "TEAM".toList "my".toList (by decide)⟩

/-! ## More lemmas on `strings` -/

theorem noTrailingSpace_TrimSpace (s : Str) : noTrailingSpace (TrimSpace s) = true := by
  unfold noTrailingSpace TrimSpace
  cases h : ((s.dropWhile isSpace).rdropWhile isSpace).getLast? with
  | none => rfl
  | some c =>
    have hne : (s.dropWhile isSpace).rdropWhile isSpace ≠ [] := by
      intro e
      rw [e] at h
      exact absurd h (by simp)
    have := List.rdropWhile_last_not isSpace (s.dropWhile isSpace) hne
    rw [List.getLast?_eq_getLast _ hne] at h
    rw [Option.some.inj h] at this
    simpa using this

theorem noLeadingSpace_TrimSpace (s : Str) : noLeadingSpace (TrimSpace s) = true := by
  unfold noLeadingSpace TrimSpace
  cases h : ((s.dropWhile isSpace).rdropWhile isSpace).head? with
  | none => rfl
  | some c =>
    obtain ⟨t, ht⟩ := List.rdropWhile_prefix isSpace (l := s.dropWhile isSpace)
    have hne : s.dropWhile isSpace ≠ [] := by
      intro e
      rw [e] at h
      simp at h
    have h2 : (s.dropWhile isSpace).head? = some c := by
      rw [← ht, List.head?_append_of_ne_nil _ (by intro e; rw [e] at h; simp at h)]
      exact h
    have := List.head_dropWhile_not isSpace s hne
    rw [List.head?_eq_head hne] at h2
    rw [Option.some.inj h2] at this
    simpa using this

/-- After a prefix that ends in white space, a trimmed string goes on with a
non-empty text that does not end in white space. -/
theorem rest_of_TrimSpace (s pre v : Str) (hlast : noTrailingSpace pre = false)
    (h : TrimSpace s = pre ++ v) : v ≠ [] ∧ noTrailingSpace v = true := by
  have ht := noTrailingSpace_TrimSpace s
  rw [h] at ht
  have hv : v ≠ [] := by
    intro e
    rw [e, List.append_nil, hlast] at ht
    exact absurd ht (by decide)
  refine ⟨hv, ?_⟩
  unfold noTrailingSpace at ht ⊢
  rw [List.getLast?_append_of_ne_nil _ hv] at ht
  exact ht

theorem TrimSpace_ne_nil (s : Str) (hne : s ≠ []) (hlast : noTrailingSpace s = true) :
    TrimSpace s ≠ [] := by
  unfold TrimSpace
  intro e
  rw [List.rdropWhile_eq_nil_iff] at e
  have hd : s.dropWhile isSpace ≠ [] := by
    intro e2
    rw [List.dropWhile_eq_nil_iff] at e2
    have := e2 _ (List.getLast_mem hne)
    unfold noTrailingSpace at hlast
    rw [List.getLast?_eq_getLast _ hne] at hlast
    simp only [Bool.not_eq_true'] at hlast
    rw [hlast] at this
    exact absurd this (by decide)
  obtain ⟨t, ht⟩ := List.dropWhile_suffix isSpace (l := s)
  have hl : s.getLast? = (s.dropWhile isSpace).getLast? := by
    conv_lhs => rw [← ht]
    exact List.getLast?_append_of_ne_nil _ hd
  have := e _ (List.getLast_mem hd)
  unfold noTrailingSpace at hlast
  rw [hl, List.getLast?_eq_getLast _ hd] at hlast
  simp only [Bool.not_eq_true'] at hlast
  rw [hlast] at this
  exact absurd this (by decide)

theorem getCurrentBranchText_eq_ok {data r : Str} (h : getCurrentBranchText data = .ok r) :
    TrimSpace data = refPrefix ++ r := by
  unfold getCurrentBranchText at h
  by_cases hp : HasPrefix (TrimSpace data) refPrefix = true
  · simp only [hp, if_true, Except.ok.injEq] at h
    obtain ⟨t, ht⟩ := (HasPrefix_iff _ _).1 hp
    rw [ht, TrimPrefix_append] at h
    rw [ht, h]
  · simp only [hp, if_false] at h
    exact absurd h (by simp)

/-- The ref `getCurrentBranch` returns is not empty and does not end in white
space. -/
theorem getCurrentBranchText_ok_trailing (data r : Str)
    (h : getCurrentBranchText data = .ok r) : r ≠ [] ∧ noTrailingSpace r = true :=
  rest_of_TrimSpace data refPrefix r (by decide) (getCurrentBranchText_eq_ok h)

theorem getCurrentBranchText_of_not_prefix (data : Str)
    (h : HasPrefix (TrimSpace data) "ref: ".toList = false) :
    getCurrentBranchText data = .error Error.couldNotParseHead := by
  unfold getCurrentBranchText refPrefix
  simp only [h, Bool.false_eq_true, if_false]

/-- A run in which the branch cannot be resolved ends in a fatal error. -/
theorem main_fatal_of_branch_error (w : World) (optM optR optN : Bool) (args : List Str)
    (gitDir : Str) (f0 : Fatal) (hgit : findGitDir w ".".toList = some (.ok gitDir))
    (hb : resolveBranch w optM gitDir = .error f0) :
    ∃ f, main w optM optR optN args = Outcome.fatal f := by
  unfold main
  simp only [hgit]
  cases parseRemoteURL w (Join [gitDir, "config".toList]) with
  | error e => exact ⟨_, rfl⟩
  | ok remoteURL =>
    simp only
    cases parseRepoInfo remoteURL with
    | error e => exact ⟨_, rfl⟩
    | ok pr =>
      obtain ⟨project, repoName⟩ := pr
      simp only
      cases parseDomain remoteURL with
      | error e => exact ⟨_, rfl⟩
      | ok domain =>
        simp only [hb]
        exact ⟨_, rfl⟩

theorem scanConfig_eq_some {lines : List Str} {u : Str} : ∀ {b : Bool},
    scanConfig b lines = some u →
    ∃ line v, line ∈ lines ∧ TrimSpace line = urlKey ++ v ∧ u = TrimSpace v := by
  induction lines with
  | nil => intro b h; exact absurd h (by simp [scanConfig])
  | cons l rest ih =>
    intro b h
    rw [scanConfig_cons] at h
    by_cases ho : isOriginHeader l = true
    · rw [if_pos ho] at h
      obtain ⟨line, v, hm, h1, h2⟩ := ih h
      exact ⟨line, v, by simp [hm], h1, h2⟩
    · rw [if_neg ho] at h
      by_cases hu : (b && isUrlLine l) = true
      · rw [if_pos hu] at h
        have hul : isUrlLine l = true := by
          simp only [Bool.and_eq_true] at hu
          exact hu.2
        obtain ⟨v, hv⟩ := (HasPrefix_iff _ _).1 hul
        refine ⟨l, v, by simp, hv, ?_⟩
        rw [hv, TrimPrefix_append] at h
        exact (Option.some.inj h).symm
      · rw [if_neg hu] at h
        by_cases hs : isSectionHeader l = true
        · rw [if_pos hs] at h
          obtain ⟨line, v, hm, h1, h2⟩ := ih h
          exact ⟨line, v, by simp [hm], h1, h2⟩
        · rw [if_neg hs] at h
          obtain ⟨line, v, hm, h1, h2⟩ := ih h
          exact ⟨line, v, by simp [hm], h1, h2⟩

/-- The URL the config reader returns is not empty and has no white space around
it. -/
theorem parseRemoteURLText_ok_trimmed (data u : Str) (h : parseRemoteURLText data = .ok u) :
    u ≠ [] ∧ noLeadingSpace u = true ∧ noTrailingSpace u = true := by
  unfold parseRemoteURLText at h
  cases hs : scanConfig false (Split data '\n') with
  | none =>
    rw [hs] at h
    exact absurd h (by simp)
  | some u2 =>
    rw [hs] at h
    simp only [Except.ok.injEq] at h
    subst h
    obtain ⟨line, v, -, hl, hu⟩ := scanConfig_eq_some hs
    obtain ⟨hv, hv2⟩ := rest_of_TrimSpace line urlKey v (by decide) hl
    rw [hu]
    exact ⟨TrimSpace_ne_nil v hv hv2, noLeadingSpace_TrimSpace v, noTrailingSpace_TrimSpace v⟩

/-- A line that is `url =` between white space is not a `url = ` line. -/
theorem isUrlLine_empty_value (ws1 ws2 : Str) (h1 : ∀ c ∈ ws1, isSpace c = true)
    (h2 : ∀ c ∈ ws2, isSpace c = true) : isUrlLine (ws1 ++ ("url =".toList ++ ws2)) = false := by
  unfold isUrlLine
  rw [TrimSpace_pad ws1 "url =".toList ws2 (by decide) (by decide) h1 h2]
  decide

/-- C13, amended (detached or unparseable HEAD).  When the content of the HEAD file,
once the white space around it is removed, does not start with `ref: `,
`getCurrentBranch` fails with `could not parse HEAD`, and a run without `-m` ends
in a fatal error: no URL is produced. -/
theorem getCurrentBranch_unparseable (w : World) (optR optN : Bool) (args : List Str)
    (gitDir data : Str) (hgit : findGitDir w ".".toList = some (.ok gitDir))
    (hread : w.readFile (Join [gitDir, "HEAD".toList]) = some data)
    (hpre : HasPrefix (TrimSpace data) "ref: ".toList = false) :
    getCurrentBranch w (Join [gitDir, "HEAD".toList]) = .error Error.couldNotParseHead ∧
    ∃ f, main w false optR optN args = Outcome.fatal f := by
  have hb : getCurrentBranch w (Join [gitDir, "HEAD".toList]) =
      .error Error.couldNotParseHead := by
    unfold getCurrentBranch
    rw [hread]
    exact getCurrentBranchText_of_not_prefix data hpre
  refine ⟨hb, main_fatal_of_branch_error w false optR optN args gitDir
    (Fatal.couldNotDetermineBranch Error.couldNotParseHead) hgit ?_⟩
  unfold resolveBranch
  simp only [Bool.false_eq_true, if_false, hb]

/-- Witness of C13, amended: the example repository with a detached HEAD, the commit
id `4b825dc642cb6eb9a060e54bf8d69288fbee4904`. -/
theorem getCurrentBranch_unparseable_witness :
    getCurrentBranch (exampleWorld "/repo/src".toList
        "ssh://git.example.com:7999/ABC/proj.git".toList
        (some "4b825dc642cb6eb9a060e54bf8d69288fbee4904\n".toList)) "/repo/.git/HEAD".toList =
      .error Error.couldNotParseHead ∧
    ∃ f, main (exampleWorld "/repo/src".toList "ssh://git.example.com:7999/ABC/proj.git".toList
        (some "4b825dc642cb6eb9a060e54bf8d69288fbee4904\n".toList)) false false true [] =
      Outcome.fatal f :=
  getCurrentBranch_unparseable _ false true [] "/repo/.git".toList
    "4b825dc642cb6eb9a060e54bf8d69288fbee4904\n".toList (by decide) (by decide) (by decide)

/-- C13 as stated fails: the content ` ref: refs/heads/dev`, with a space in front,
does not start with `ref: `, yet `getCurrentBranch` succeeds and the URL is
printed. -/
theorem getCurrentBranch_unparseable_counterexample :
    HasPrefix " ref: refs/heads/dev\n".toList "ref: ".toList = false ∧
    getCurrentBranch (exampleWorld "/repo".toList "ssh://git.example.com:7999/ABC/proj.git".toList
        (some " ref: refs/heads/dev\n".toList)) "/repo/.git/HEAD".toList =
      .ok "refs/heads/dev".toList ∧
    main (exampleWorld "/repo".toList "ssh://git.example.com:7999/ABC/proj.git".toList
        (some " ref: refs/heads/dev\n".toList)) false false true [] =
      Outcome.done
        { stdout := [("URL: https://git.example.com/projects/ABC/repos/proj/browse" ++
            "?at=refs%2Fheads%2Fdev").toList],
          stderr := [], started := [] } := by
  decide

/-- A ref returned by `getCurrentBranch` is never empty and never ends in white
space. -/
theorem getCurrentBranch_ok_trailing (w : World) (headPath r : Str)
    (h : getCurrentBranch w headPath = .ok r) : r ≠ [] ∧ noTrailingSpace r = true := by
  unfold getCurrentBranch at h
  cases hr : w.readFile headPath with
  | none =>
    rw [hr] at h
    exact absurd h (by simp)
  | some data =>
    rw [hr] at h
    exact getCurrentBranchText_ok_trailing data r h

/-- C14 fails on the code: on the content `ref:  refs/heads/x`, with two spaces after
the colon, `getCurrentBranch` succeeds and returns ` refs/heads/x`, which starts
with a space, and the URL printed ends in `?at=+refs%2Fheads%2Fx`. -/
theorem getCurrentBranch_leading_space :
    getCurrentBranch (exampleWorld "/repo".toList "ssh://git.example.com:7999/ABC/proj.git".toList
        (some "ref:  refs/heads/x\n".toList)) "/repo/.git/HEAD".toList =
      .ok " refs/heads/x".toList ∧
    noLeadingSpace " refs/heads/x".toList = false ∧
    main (exampleWorld "/repo".toList "ssh://git.example.com:7999/ABC/proj.git".toList
        (some "ref:  refs/heads/x\n".toList)) false false true [] =
      Outcome.done
        { stdout := [("URL: https://git.example.com/projects/ABC/repos/proj/browse" ++
            "?at=+refs%2Fheads%2Fx").toList],
          stderr := [], started := [] } := by
  decide

/-- C19 (the URL of the config reader is trimmed).  Whenever `parseRemoteURL`
succeeds on a config text, the URL it returns is not empty and neither starts nor
ends with white space; a line that is only `url =`, with white space before or
after it, is not taken as an entry. -/
theorem parseRemoteURL_trimmed (w : World) (configPath u : Str)
    (h : parseRemoteURL w configPath = .ok u) :
    (u ≠ [] ∧ noLeadingSpace u = true ∧ noTrailingSpace u = true) ∧
    ∀ ws1 ws2 : Str, (∀ c ∈ ws1, isSpace c = true) → (∀ c ∈ ws2, isSpace c = true) →
      isUrlLine (ws1 ++ ("url =".toList ++ ws2)) = false := by
  refine ⟨?_, isUrlLine_empty_value⟩
  unfold parseRemoteURL at h
  cases hr : w.readFile configPath with
  | none =>
    rw [hr] at h
    exact absurd h (by simp)
  | some data =>
    rw [hr] at h
    exact parseRemoteURLText_ok_trimmed data u h

/-- Witness of C19: in the example config the entry `url = ` with a blank value comes
first and is passed over; the URL of the next entry is returned without the
spaces around it. -/
theorem parseRemoteURL_trimmed_witness :
    parseRemoteURL
      { getwd := none, stat := fun _ => StatResult.notExist,
        readFile := fun _ =>
          some "[remote \"origin\"]\n\turl = \t\n\turl =   ssh://host:7999/PROJ/repo.git  \n".toList,
        goos := [], startOK := false } "/repo/.git/config".toList =
      .ok "ssh://host:7999/PROJ/repo.git".toList ∧
    "ssh://host:7999/PROJ/repo.git".toList ≠ [] ∧
    noLeadingSpace "ssh://host:7999/PROJ/repo.git".toList = true ∧
    noTrailingSpace "ssh://host:7999/PROJ/repo.git".toList = true :=
  ⟨by decide, (parseRemoteURL_trimmed
      { getwd := none, stat := fun _ => StatResult.notExist,
        readFile := fun _ =>
          some "[remote \"origin\"]\n\turl = \t\n\turl =   ssh://host:7999/PROJ/repo.git  \n".toList,
        goos := [], startOK := false } "/repo/.git/config".toList
      "ssh://host:7999/PROJ/repo.git".toList (by decide)).1⟩

/-! ## File mode and implicit mode -/

/-- From the directory `/segs...`, the argument `.` has the directory itself as its
absolute form. -/
theorem Abs_dot (w : World) (segs : List Str) (hv : ∀ s ∈ segs, validName s = true)
    (hcwd : w.getwd = some (absPath segs)) :
    Abs w (Clean ['.']) = .ok (absPath segs) := by
  have hc : Clean ['.'] = ['.'] := by decide
  have hi : IsAbs ['.'] = false := by decide
  rw [hc]
  unfold Abs
  simp only [hi, Bool.false_eq_true, if_false, hcwd, Join_absPath_dot segs hv]

/-- File mode on an argument whose absolute form is the repository root. -/
theorem resolveRelativePath_file_root (w : World) (rs : List Str) (filePath : Str)
    (hrs : ∀ s ∈ rs, validName s = true) (harg : filePath ≠ [])
    (hexists : w.stat (Clean filePath) ≠ StatResult.notExist)
    (habs : Abs w (Clean filePath) = .ok (absPath rs)) :
    resolveRelativePath w false (Join [absPath rs, dotGit]) filePath = .ok "/.".toList := by
  unfold resolveRelativePath
  simp only [Bool.not_false, if_true, ne_eq, harg, not_false_eq_true, if_neg hexists, habs,
    workdir_absPath rs hrs, Rel_self]
  rfl

/-- File mode on an argument whose absolute form is below the repository root. -/
theorem resolveRelativePath_file_below (w : World) (rs ps : List Str) (filePath : Str)
    (hrs : ∀ s ∈ rs, validName s = true) (hps : ∀ s ∈ ps, validName s = true)
    (hne : ps ≠ []) (harg : filePath ≠ [])
    (hexists : w.stat (Clean filePath) ≠ StatResult.notExist)
    (habs : Abs w (Clean filePath) = .ok (absPath (rs ++ ps))) :
    resolveRelativePath w false (Join [absPath rs, dotGit]) filePath =
      .ok ('/' :: joinSegs ps) := by
  unfold resolveRelativePath
  simp only [Bool.not_false, if_true, ne_eq, harg, not_false_eq_true, if_neg hexists, habs,
    workdir_absPath rs hrs, Rel_absPath rs ps hrs hps hne]
  rfl

/-- C20 (file mode against implicit mode on the same directory).  For a repository
root `/rs...` and the current directory `/rs.../ds...`, an explicit argument that
exists and whose absolute form is the current directory, as `.` is, gives the
relative path of the run without argument when the directory is not the root; at
the root the run without argument gives the empty path and the argument gives
`/.`. -/
theorem resolveRelativePath_file_vs_implicit (w : World) (rs ds : List Str) (filePath : Str)
    (hrs : ∀ s ∈ rs, validName s = true) (hds : ∀ s ∈ ds, validName s = true)
    (hcwd : w.getwd = some (absPath (rs ++ ds))) (harg : filePath ≠ [])
    (hexists : w.stat (Clean filePath) ≠ StatResult.notExist)
    (habs : Abs w (Clean filePath) = .ok (absPath (rs ++ ds))) :
    Abs w (Clean ".".toList) = .ok (absPath (rs ++ ds)) ∧
    (ds ≠ [] →
      resolveRelativePath w false (Join [absPath rs, dotGit]) filePath =
        resolveRelativePath w false (Join [absPath rs, dotGit]) [] ∧
      resolveRelativePath w false (Join [absPath rs, dotGit]) [] = .ok ('/' :: joinSegs ds)) ∧
    (ds = [] →
      resolveRelativePath w false (Join [absPath rs, dotGit]) [] = .ok [] ∧
      resolveRelativePath w false (Join [absPath rs, dotGit]) filePath = .ok "/.".toList) := by
  have hv : ∀ s ∈ rs ++ ds, validName s = true := fun s hs => by
    rcases List.mem_append.1 hs with hs | hs
    · exact hrs s hs
    · exact hds s hs
  have himp := resolveRelativePath_implicit w rs ds hrs hds hcwd
  refine ⟨Abs_dot w (rs ++ ds) hv hcwd, ?_, ?_⟩
  · intro hne
    rw [if_neg hne] at himp
    rw [himp]
    exact ⟨resolveRelativePath_file_below w rs ds filePath hrs hds hne harg hexists habs, rfl⟩
  · intro he
    subst he
    rw [if_pos rfl] at himp
    rw [List.append_nil] at habs
    exact ⟨himp, resolveRelativePath_file_root w rs filePath hrs harg hexists habs⟩

/-- Witness of C20: in the example repository the argument `.` gives `/src` from
`/repo/src`, as no argument does; from `/repo` it gives `/.` and the URL ends in
`/browse/.`, where no argument gives the empty path. -/
theorem resolveRelativePath_file_vs_implicit_witness :
    (resolveRelativePath (exampleWorld "/repo/src".toList [] none) false "/repo/.git".toList
        ".".toList =
      resolveRelativePath (exampleWorld "/repo/src".toList [] none) false "/repo/.git".toList [] ∧
     resolveRelativePath (exampleWorld "/repo/src".toList [] none) false "/repo/.git".toList [] =
      .ok "/src".toList) ∧
    (resolveRelativePath (exampleWorld "/repo".toList [] none) false "/repo/.git".toList [] =
      .ok [] ∧
     resolveRelativePath (exampleWorld "/repo".toList [] none) false "/repo/.git".toList
        ".".toList = .ok "/.".toList) ∧
    main (exampleWorld "/repo".toList "ssh://git.example.com:7999/ABC/proj.git".toList
        (some "ref: refs/heads/master\n".toList)) false false true [".".toList] =
      Outcome.done
        { stdout := ["URL: https://git.example.com/projects/ABC/repos/proj/browse/.".toList],
          stderr := [], started := [] } :=
  ⟨(resolveRelativePath_file_vs_implicit (exampleWorld "/repo/src".toList [] none)
      ["repo".toList] ["src".toList] ".".toList (by decide) (by decide) (by decide) (by decide)
      (by decide) (by decide)).2.1 (by decide),
   (resolveRelativePath_file_vs_implicit (exampleWorld "/repo".toList [] none)
      ["repo".toList] [] ".".toList (by decide) (by decide) (by decide) (by decide)
      (by decide) (by decide)).2.2 rfl,
   by decide⟩

/-! ## The segments of the relative path -/

theorem Split_ne_nil (s : Str) (sep : Char) : Split s sep ≠ [] := by
  induction s with
  | nil => simp [Split]
  | cons c cs ih =>
    unfold Split
    split
    · simp
    · split
      · rename_i h
        exact absurd h ih
      · simp

theorem Split_sep_cons (s : Str) (sep : Char) : Split (sep :: s) sep = [] :: Split s sep := by
  rw [Split, if_pos rfl]

theorem Split_of_not_mem (s : Str) (sep : Char) (h : sep ∉ s) : Split s sep = [s] := by
  induction s with
  | nil => rfl
  | cons c cs ih =>
    have hc : c ≠ sep := fun e => h (by simp [e])
    have hcs : sep ∉ cs := fun e => h (by simp [e])
    rw [Split, if_neg hc, ih hcs]

theorem Split_append_sep (s t : Str) (sep : Char) (h : sep ∉ s) :
    Split (s ++ sep :: t) sep = s :: Split t sep := by
  induction s with
  | nil => exact Split_sep_cons t sep
  | cons c cs ih =>
    have hc : c ≠ sep := fun e => h (by simp [e])
    have hcs : sep ∉ cs := fun e => h (by simp [e])
    rw [List.cons_append, Split, if_neg hc, ih hcs]

/-- Splitting joined names gives the names back. -/
theorem Split_joinSegs (ps : List Str) (hps : ∀ s ∈ ps, validName s = true) (hne : ps ≠ []) :
    Split (joinSegs ps) Separator = ps := by
  induction ps with
  | nil => exact absurd rfl hne
  | cons a rest ih =>
    obtain ⟨-, hsep, -, -⟩ := (validName_iff a).1 (hps a (by simp))
    cases rest with
    | nil => rw [joinSegs_singleton, Split_of_not_mem a _ hsep]
    | cons b rest =>
      rw [joinSegs_cons_cons, Split_append_sep a _ _ hsep,
        ih (fun s hs => hps s (List.mem_cons_of_mem _ hs)) (by simp)]

theorem hasDotDot_joinSegs (ps : List Str) (hps : ∀ s ∈ ps, validName s = true) (hne : ps ≠ []) :
    hasDotDot ('/' :: joinSegs ps) = false := by
  unfold hasDotDot
  have e : Split ('/' :: joinSegs ps) Separator = [] :: ps := by
    rw [show ('/' : Char) = Separator from rfl, Split_sep_cons, Split_joinSegs ps hps hne]
  rw [e]
  simp only [List.contains_eq_any_beq, List.any_eq_false, List.mem_cons, beq_iff_eq]
  intro x hx
  rcases hx with hx | hx
  · rw [hx]
    decide
  · exact fun e => ((validName_iff x).1 (hps x hx)).2.2.2 e.symm

/-- A relative path that is resolved is empty or starts with `/`. -/
theorem resolveRelativePath_head (w : World) (optR : Bool) (gitDir filePath rel : Str)
    (h : resolveRelativePath w optR gitDir filePath = .ok rel) :
    rel = [] ∨ rel.head? = some '/' := by
  unfold resolveRelativePath at h
  cases optR with
  | true =>
    simp only [Bool.not_true, Bool.false_eq_true, if_false] at h
    injection h with h
    exact Or.inl h.symm
  | false =>
    simp only [Bool.not_false, if_true] at h
    by_cases hf : filePath = []
    · simp only [hf, ne_eq, not_true_eq_false, if_false] at h
      generalize Rel (Dir gitDir) _ = res at h
      cases res with
      | error e =>
        injection h with h
        exact Or.inl h.symm
      | ok r =>
        simp only at h
        by_cases hd : r = ['.']
        · rw [if_pos hd] at h
          injection h with h
          exact Or.inl h.symm
        · rw [if_neg hd] at h
          injection h with h
          exact Or.inr (by rw [← h]; rfl)
    · simp only [ne_eq, hf, not_false_eq_true, if_true] at h
      by_cases hex : w.stat (Clean filePath) = StatResult.notExist
      · rw [if_pos hex] at h
        exact absurd h (by simp)
      · rw [if_neg hex] at h
        generalize Rel (Dir gitDir) _ = res at h
        cases res with
        | error e => exact absurd h (by simp)
        | ok r =>
          injection h with h
          exact Or.inr (by rw [← h]; rfl)

/-- A relative path resolved for a target in the repository or below it has no `..`
segment. -/
theorem resolveRelativePath_inside (w : World) (optR : Bool) (rs ps : List Str)
    (filePath rel : Str) (hrs : ∀ s ∈ rs, validName s = true)
    (hps : ∀ s ∈ ps, validName s = true)
    (hcwd : filePath = [] → w.getwd = some (absPath (rs ++ ps)))
    (habs : filePath ≠ [] → Abs w (Clean filePath) = .ok (absPath (rs ++ ps)))
    (h : resolveRelativePath w optR (Join [absPath rs, dotGit]) filePath = .ok rel) :
    hasDotDot rel = false := by
  cases optR with
  | true =>
    have : rel = [] := by
      unfold resolveRelativePath at h
      simp only [Bool.not_true, Bool.false_eq_true, if_false] at h
      injection h with h
      exact h.symm
    rw [this]
    decide
  | false =>
    by_cases hf : filePath = []
    · subst hf
      rw [resolveRelativePath_implicit w rs ps hrs hps (hcwd rfl)] at h
      injection h with h
      rw [← h]
      by_cases hp : ps = []
      · rw [if_pos hp]
        decide
      · rw [if_neg hp]
        exact hasDotDot_joinSegs ps hps hp
    · by_cases hex : w.stat (Clean filePath) = StatResult.notExist
      · unfold resolveRelativePath at h
        simp only [Bool.not_false, if_true, ne_eq, hf, not_false_eq_true, hex] at h
        exact absurd h (by simp)
      · by_cases hp : ps = []
        · subst hp
          have ha := habs hf
          rw [List.append_nil] at ha
          rw [resolveRelativePath_file_root w rs filePath hrs hf hex ha] at h
          injection h with h
          rw [← h]
          decide
        · rw [resolveRelativePath_file_below w rs ps filePath hrs hps hp hf hex (habs hf)] at h
          injection h with h
          rw [← h]
          exact hasDotDot_joinSegs ps hps hp

/-! ## The normal form of `Clean` and the repository locator -/

/-- The backtracking of `Clean` over a last name that follows a separator stops at
the separator. -/
theorem backtrackLoop_name (B name : Str) (hB : B ≠ []) (hsep : Separator ∉ name) :
    ∀ k, k ≤ name.length →
      backtrackLoop (B ++ Separator :: name) 1 (B.length + k) = B.length := by
  have hpos : 0 < B.length := List.length_pos.2 hB
  intro k
  induction k with
  | zero =>
    intro _
    obtain ⟨m, hm⟩ : ∃ m, B.length = m + 1 := ⟨B.length - 1, by omega⟩
    rw [Nat.add_zero, hm, backtrackLoop]
    have : (B ++ Separator :: name).getD (m + 1) Separator = Separator := by
      rw [← hm, List.getD_eq_getElem?_getD, List.getElem?_append_right (Nat.le_refl _)]
      simp
    rw [if_neg (fun h => h.2 this)]
  | succ k ih =>
    intro hk
    rw [← Nat.add_assoc, backtrackLoop]
    have hlt : k < name.length := hk
    have hget : (B ++ Separator :: name).getD (B.length + k + 1) Separator = name[k] := by
      rw [List.getD_eq_getElem?_getD, List.getElem?_append_right (by omega)]
      have : B.length + k + 1 - B.length = k + 1 := by omega
      rw [this, List.getElem?_cons_succ, List.getElem?_eq_getElem hlt]
      rfl
    have hne : name[k] ≠ Separator := fun e => hsep (e ▸ List.getElem_mem hlt)
    rw [if_pos ⟨by omega, by rw [hget]; exact hne⟩]
    exact ih (by omega)

/-- The backtracking of `Clean` over a single name after the root stops at the
root. -/
theorem backtrackLoop_root (name : Str) (hsep : Separator ∉ name) :
    ∀ k, k < name.length → backtrackLoop (Separator :: name) 1 (k + 1) = 1 := by
  intro k
  induction k with
  | zero =>
    intro _
    rw [backtrackLoop, if_neg (fun h => absurd h.1 (by omega))]
  | succ k ih =>
    intro hk
    rw [backtrackLoop]
    have hget : (Separator :: name).getD (k + 1 + 1) Separator = name[k + 1] := by
      rw [List.getD_eq_getElem?_getD, List.getElem?_cons_succ, List.getElem?_eq_getElem hk]
      rfl
    have hne : name[k + 1] ≠ Separator := fun e => hsep (e ▸ List.getElem_mem hk)
    rw [if_pos ⟨by omega, by rw [hget]; exact hne⟩]
    exact ih (by omega)

/-- The `..` step of `Clean` on a clean absolute path removes its last name. -/
theorem backtrack_absPath (segs : List Str) (name : Str)
    (hv : ∀ s ∈ segs, validName s = true) (hn : validName name = true) :
    (absPath (segs ++ [name])).take
      (backtrackLoop (absPath (segs ++ [name])) 1 ((absPath (segs ++ [name])).length - 1)) =
      absPath segs := by
  obtain ⟨hne, hsep, -, -⟩ := (validName_iff name).1 hn
  have hpos : 0 < name.length := List.length_pos.2 hne
  by_cases h : segs = []
  · subst h
    have e : absPath ([] ++ [name]) = Separator :: name := by
      simp [absPath, joinSegs_singleton]
    rw [e]
    have hl : (Separator :: name).length - 1 = (name.length - 1) + 1 := by
      rw [List.length_cons]
      omega
    rw [hl, backtrackLoop_root name hsep (name.length - 1) (by omega)]
    rfl
  · have e : absPath (segs ++ [name]) = absPath segs ++ Separator :: name := by
      simp [absPath, joinSegs_append_singleton segs name h]
    rw [e]
    have hl : (absPath segs ++ Separator :: name).length - 1 =
        (absPath segs).length + name.length := by
      rw [List.length_append, List.length_cons]
      omega
    rw [hl, backtrackLoop_name (absPath segs) name (absPath_ne_nil segs) hsep name.length
      (Nat.le_refl _)]
    simp

theorem takeWhile_eq_nil_cases (p : Char → Bool) (l : Str) (h : l.takeWhile p = []) :
    l = [] ∨ ∃ x, l.head? = some x ∧ p x = false := by
  cases l with
  | nil => exact Or.inl rfl
  | cons x xs =>
    refine Or.inr ⟨x, rfl, ?_⟩
    by_contra hx
    rw [List.takeWhile_cons_of_pos (by simpa using hx)] at h
    exact absurd h (by simp)

/-- The path element the loop of `Clean` copies is a name. -/
theorem validName_takeWhile (c : Char) (rest : Str) (hc : c ≠ Separator)
    (hdot : ¬ (c = '.' ∧ (rest = [] ∨ rest.head? = some Separator)))
    (hdd : ¬ (c = '.' ∧ rest.head? = some '.' ∧
      (rest.tail = [] ∨ rest.tail.head? = some Separator))) :
    validName ((c :: rest).takeWhile (fun b => b != Separator)) = true := by
  have hp : (fun b => b != Separator) c = true := by simpa using hc
  have hnil : ∀ l : Str, l.takeWhile (fun b => b != Separator) = [] →
      l = [] ∨ l.head? = some Separator := by
    intro l hl
    rcases takeWhile_eq_nil_cases _ l hl with h | ⟨x, hx, hpx⟩
    · exact Or.inl h
    · have : x = Separator := by simpa using hpx
      exact Or.inr (this ▸ hx)
  rw [@List.takeWhile_cons_of_pos _ (fun b => b != Separator) c rest hp, validName_iff]
  refine ⟨by simp, ?_, ?_, ?_⟩
  · intro hmem
    rcases List.mem_cons.1 hmem with h | h
    · exact hc h.symm
    · have := List.mem_takeWhile_imp h
      simp at this
  · intro e
    injection e with e1 e2
    exact hdot ⟨e1, hnil rest e2⟩
  · intro e
    injection e with e1 e2
    cases rest with
    | nil => simp at e2
    | cons r rs =>
      by_cases hr : (fun b => b != Separator) r = true
      · rw [@List.takeWhile_cons_of_pos _ (fun b => b != Separator) r rs hr] at e2
        injection e2 with e3 e4
        exact hdd ⟨e1, by rw [e3]; rfl, hnil rs e4⟩
      · rw [@List.takeWhile_cons_of_neg _ (fun b => b != Separator) r rs hr] at e2
        exact absurd e2 (by simp)

/-- The loop of `Clean` on an absolute path keeps the output a clean absolute
path. -/
theorem cleanLoop_rooted (n : Nat) : ∀ (path : Str) (done : List Str),
    path.length ≤ n → (∀ s ∈ done, validName s = true) →
    ∃ segs : List Str, (∀ s ∈ segs, validName s = true) ∧
      cleanLoop true n path (absPath done) 1 = absPath segs := by
  induction n with
  | zero =>
    intro path done _ hd
    exact ⟨done, hd, rfl⟩
  | succ n ih =>
    intro path done hn hd
    cases path with
    | nil => exact ⟨done, hd, rfl⟩
    | cons c rest =>
      have hr : rest.length ≤ n := by simpa using hn
      have hrt : rest.tail.length ≤ n := by
        rw [List.length_tail]
        omega
      rw [cleanLoop_succ_cons]
      by_cases hc : c = Separator
      · rw [if_pos hc]
        exact ih rest done hr hd
      · rw [if_neg hc]
        by_cases hdot : c = '.' ∧ (rest = [] ∨ rest.head? = some Separator)
        · rw [if_pos hdot]
          exact ih rest done hr hd
        · rw [if_neg hdot]
          by_cases hdd : c = '.' ∧ rest.head? = some '.' ∧
              (rest.tail = [] ∨ rest.tail.head? = some Separator)
          · rw [if_pos hdd]
            by_cases hlen : (absPath done).length > 1
            · rw [if_pos hlen]
              rcases List.eq_nil_or_concat done with h | ⟨init, last, h⟩
              · subst h
                simp [absPath, joinSegs_nil] at hlen
              · rw [List.concat_eq_append] at h
                subst h
                have hi : ∀ s ∈ init, validName s = true :=
                  fun s hs => hd s (List.mem_append_left _ hs)
                rw [backtrack_absPath init last hi (hd last (by simp))]
                exact ih rest.tail init hrt hi
            · rw [if_neg hlen]
              simp only [Bool.not_true, Bool.false_eq_true, if_false]
              exact ih rest.tail done hrt hd
          · rw [if_neg hdd]
            have hname := validName_takeWhile c rest hc hdot hdd
            have hout : (if (true && (absPath done).length != 1) ||
                (!true && (absPath done).length != 0) then absPath done ++ [Separator]
                else absPath done) ++ (c :: rest).takeWhile (fun b => b != Separator) =
                absPath (done ++ [(c :: rest).takeWhile (fun b => b != Separator)]) := by
              rw [← absPath_append_singleton done _ hd]
              simp
            rw [hout]
            refine ih _ _ ?_ ?_
            · have hp : (fun b => b != Separator) c = true := by simpa using hc
              rw [@List.dropWhile_cons_of_pos _ (fun b => b != Separator) c rest hp]
              exact Nat.le_trans (List.Sublist.length_le (List.dropWhile_sublist _)) hr
            · intro s hs
              rcases List.mem_append.1 hs with hs | hs
              · exact hd s hs
              · rw [List.mem_singleton.1 hs]
                exact hname

/-- The cleaned form of an absolute path is the root followed by names. -/
theorem Clean_of_IsAbs (d : Str) (h : IsAbs d = true) :
    ∃ segs : List Str, (∀ s ∈ segs, validName s = true) ∧ Clean d = absPath segs := by
  cases d with
  | nil => simp [IsAbs, HasPrefix] at h
  | cons c rest =>
    have hc : c = Separator := by
      have : Separator = c := by simpa [IsAbs, HasPrefix] using h
      exact this.symm
    subst hc
    obtain ⟨segs, hv, he⟩ := cleanLoop_rooted ((Separator :: rest).length + 1) rest []
      (by simp only [List.length_cons]; omega) (by simp)
    refine ⟨segs, hv, ?_⟩
    unfold Clean
    rw [if_neg (by simp)]
    simp only [List.head?_cons, decide_True, if_true, List.tail_cons]
    rw [show ([Separator] : Str) = absPath [] from rfl, he, if_neg (absPath_ne_nil segs)]

theorem DeepestRepoRoot_unique (w : World) (segs a b : List Str)
    (ha : DeepestRepoRoot w segs a) (hb : DeepestRepoRoot w segs b) : a = b := by
  have h1 := ha.2.2 b hb.1 hb.2.1
  have h2 := hb.2.2 a ha.1 ha.2.1
  exact (List.prefix_of_prefix_length_le ha.1 hb.1 h2).eq_of_length (Nat.le_antisymm h2 h1)

/-- The loop of `findGitDir` from a clean absolute directory, with one round per
name and one more: it ends on the deepest ancestor that holds a repository, or
with the error when there is none. -/
theorem findGitDirLoop_absPath (w : World) (segs : List Str) :
    ∀ n, segs.length < n → (∀ s ∈ segs, validName s = true) →
      (∃ a, DeepestRepoRoot w segs a ∧
        findGitDirLoop w n (absPath segs) = some (.ok (absPath (a ++ [dotGit])))) ∨
      ((∀ a, a <+: segs → ¬ IsRepoRoot w a) ∧
        findGitDirLoop w n (absPath segs) = some (.error Error.notInGitRepository)) := by
  induction segs using List.reverseRecOn with
  | nil =>
    intro n hn _
    obtain ⟨m, rfl⟩ : ∃ m, n = m + 1 := ⟨n - 1, by simp at hn; omega⟩
    have hj := gitDir_absPath [] (by simp)
    rw [findGitDirLoop, hj]
    by_cases hs : w.stat (absPath ([] ++ [dotGit])) = StatResult.dir
    · rw [if_pos hs]
      refine Or.inl ⟨[], ⟨List.prefix_refl _, hs, ?_⟩, rfl⟩
      intro b hb _
      rw [List.prefix_nil.1 hb]
    · rw [if_neg hs]
      have hd : Dir (absPath []) = absPath [] := by decide
      rw [if_pos hd]
      refine Or.inr ⟨?_, rfl⟩
      intro a ha
      rw [List.prefix_nil.1 ha]
      exact hs
  | append_singleton init x ih =>
    intro n hn hv
    have hi : ∀ s ∈ init, validName s = true := fun s hs => hv s (List.mem_append_left _ hs)
    have hx : validName x = true := hv x (by simp)
    obtain ⟨m, rfl⟩ : ∃ m, n = m + 1 := ⟨n - 1, by omega⟩
    have hm : init.length < m := by
      rw [List.length_append, List.length_singleton] at hn
      omega
    have hj := gitDir_absPath (init ++ [x]) hv
    rw [findGitDirLoop, hj]
    by_cases hs : w.stat (absPath (init ++ [x] ++ [dotGit])) = StatResult.dir
    · rw [if_pos hs]
      exact Or.inl ⟨init ++ [x], ⟨List.prefix_refl _, hs, fun b hb _ => hb.length_le⟩, rfl⟩
    · rw [if_neg hs, Dir_absPath init x hi hx,
        if_neg (fun e => absPath_append_ne init [x] (by simp) (by simpa using hx) e.symm)]
      have hpre : ∀ b, b <+: init ++ [x] → IsRepoRoot w b → b <+: init := by
        intro b hb hrb
        rcases List.prefix_concat_iff.1 (by simpa using hb) with h | h
        · rw [h] at hrb
          exact absurd hrb (by simpa [IsRepoRoot] using hs)
        · exact h
      rcases ih m hm hi with ⟨a, ⟨hap, har, hdeep⟩, hrun⟩ | ⟨hnone, hrun⟩
      · refine Or.inl ⟨a, ⟨hap.trans (List.prefix_append _ _), har, ?_⟩, hrun⟩
        intro b hb hrb
        exact hdeep b (hpre b hb hrb) hrb
      · refine Or.inr ⟨?_, hrun⟩
        intro a ha hra
        exact hnone a (hpre a ha hra) hra

/-- The number of names of a clean absolute path is below its length. -/
theorem length_lt_absPath (segs : List Str) (hv : ∀ s ∈ segs, validName s = true) :
    segs.length < (absPath segs).length + 1 := by
  have key : ∀ l : List Str, (∀ s ∈ l, validName s = true) → l.length ≤ (joinSegs l).length := by
    intro l
    induction l with
    | nil => intro _; simp
    | cons a rest ih =>
      intro hl
      have ha : 0 < a.length := List.length_pos.2 ((validName_iff a).1 (hl a (by simp))).1
      have hrest := ih (fun s hs => hl s (List.mem_cons_of_mem _ hs))
      cases rest with
      | nil =>
        rw [joinSegs_singleton]
        simpa using ha
      | cons b rest =>
        rw [joinSegs_cons_cons, List.length_append]
        simp only [List.length_cons] at hrest ⊢
        omega
  have := key segs hv
  simp only [absPath, List.length_cons]
  omega

/-- The run of `findGitDir` from an absolute directory whose cleaned form is
`/segs...`. -/
theorem findGitDir_absPath (w : World) (d : Str) (segs : List Str) (habs : IsAbs d = true)
    (hv : ∀ s ∈ segs, validName s = true) (hc : Clean d = absPath segs) :
    (∃ a, DeepestRepoRoot w segs a ∧
      findGitDir w d = some (.ok (absPath (a ++ [dotGit])))) ∨
    ((∀ a, a <+: segs → ¬ IsRepoRoot w a) ∧
      findGitDir w d = some (.error Error.notInGitRepository)) := by
  have e : findGitDir w d = findGitDirLoop w ((absPath segs).length + 1) (absPath segs) := by
    unfold findGitDir Abs
    rw [if_pos habs, hc]
  rw [e]
  exact findGitDirLoop_absPath w segs _ (length_lt_absPath segs hv) hv

/-- The properties of the locator, for the names `segs` of the cleaned start
directory. -/
theorem findGitDir_spec (w : World) (d : Str) (segs : List Str) (habs : IsAbs d = true)
    (hv : ∀ s ∈ segs, validName s = true) (hc : Clean d = absPath segs) :
    (∃ r, findGitDir w d = some r) ∧
    (∀ a, DeepestRepoRoot w segs a → findGitDir w d = some (.ok (absPath (a ++ [dotGit])))) ∧
    (∀ g, findGitDir w d = some (.ok g) →
      ∃ a, DeepestRepoRoot w segs a ∧ g = absPath (a ++ [dotGit])) ∧
    (findGitDir w d = some (.error Error.notInGitRepository) ↔
      ∀ a, a <+: segs → ¬ IsRepoRoot w a) := by
  rcases findGitDir_absPath w d segs habs hv hc with ⟨a, ha, hrun⟩ | ⟨hnone, hrun⟩
  · refine ⟨⟨_, hrun⟩, ?_, ?_, ?_⟩
    · intro b hb
      rw [DeepestRepoRoot_unique w segs b a hb ha]
      exact hrun
    · intro g hg
      rw [hrun] at hg
      injection hg with hg
      injection hg with hg
      exact ⟨a, ha, hg.symm⟩
    · constructor
      · intro h
        rw [hrun] at h
        injection h with h
        exact absurd h (by simp)
      · intro h
        exact absurd ha.2.1 (h a ha.1)
  · refine ⟨⟨_, hrun⟩, ?_, ?_, ?_⟩
    · intro b hb
      exact absurd hb.2.1 (hnone b hb.1)
    · intro g hg
      rw [hrun] at hg
      injection hg with hg
      exact absurd hg (by simp)
    · exact ⟨fun _ => hnone, fun _ => hrun⟩

/-- C17 (repository locator).  For every absolute start directory `d`, whose cleaned
form is the root followed by the names `segs`, `findGitDir` ends within its
bound of rounds; it returns `a/.git` for the deepest ancestor `a` of `d`, `d`
included, whose entry `.git` is a directory, and nothing else; it fails with
`not in a git repository` exactly when no ancestor up to the root has such an
entry. -/
theorem findGitDir_locator (w : World) (d : Str) (habs : IsAbs d = true) :
    ∃ segs : List Str, (∀ s ∈ segs, validName s = true) ∧ Clean d = absPath segs ∧
      (∃ r, findGitDir w d = some r) ∧
      (∀ a, DeepestRepoRoot w segs a →
        findGitDir w d = some (.ok (absPath (a ++ [dotGit])))) ∧
      (∀ g, findGitDir w d = some (.ok g) →
        ∃ a, DeepestRepoRoot w segs a ∧ g = absPath (a ++ [dotGit])) ∧
      (findGitDir w d = some (.error Error.notInGitRepository) ↔
        ∀ a, a <+: segs → ¬ IsRepoRoot w a) := by
  obtain ⟨segs, hv, hc⟩ := Clean_of_IsAbs d habs
  exact ⟨segs, hv, hc, findGitDir_spec w d segs habs hv hc⟩

/-- Witness of C17: in the example repository the search from `/repo/src` returns
`/repo/.git`; where `/repo/.git` is a regular file the search from `/repo/src`
fails. -/
theorem findGitDir_locator_witness :
    findGitDir (exampleWorld "/repo/src".toList [] none) "/repo/src".toList =
      some (.ok "/repo/.git".toList) ∧
    findGitDir
      { getwd := none,
        stat := fun p => if p = "/repo/.git".toList then StatResult.file else StatResult.notExist,
        readFile := fun _ => none, goos := [], startOK := false } "/repo/src".toList =
      some (.error Error.notInGitRepository) ∧
    ∃ segs : List Str, (∀ s ∈ segs, validName s = true) ∧
      Clean "/repo/src".toList = absPath segs ∧
      (∃ r, findGitDir (exampleWorld "/repo/src".toList [] none) "/repo/src".toList = some r) ∧
      (∀ a, DeepestRepoRoot (exampleWorld "/repo/src".toList [] none) segs a →
        findGitDir (exampleWorld "/repo/src".toList [] none) "/repo/src".toList =
          some (.ok (absPath (a ++ [dotGit])))) ∧
      (∀ g, findGitDir (exampleWorld "/repo/src".toList [] none) "/repo/src".toList =
          some (.ok g) →
        ∃ a, DeepestRepoRoot (exampleWorld "/repo/src".toList [] none) segs a ∧
          g = absPath (a ++ [dotGit])) ∧
      (findGitDir (exampleWorld "/repo/src".toList [] none) "/repo/src".toList =
          some (.error Error.notInGitRepository) ↔
        ∀ a, a <+: segs → ¬ IsRepoRoot (exampleWorld "/repo/src".toList [] none) a) :=
  ⟨by decide, by decide,
    findGitDir_locator (exampleWorld "/repo/src".toList [] none) "/repo/src".toList (by decide)⟩

/-! ## The port requirement -/

theorem char_le_toNat {a b : Char} (h : a ≤ b) : a.toNat ≤ b.toNat := by
  exact h

theorem unhex_lt (c : Char) : unhex c < 16 := by
  unfold unhex
  split_ifs with h1 h2 h3
  · simp only [Bool.and_eq_true, decide_eq_true_eq] at h1
    have := char_le_toNat h1.2
    have e : ('9' : Char).toNat = 57 := rfl
    have e0 : ('0' : Char).toNat = 48 := rfl
    omega
  · simp only [Bool.and_eq_true, decide_eq_true_eq] at h2
    have := char_le_toNat h2.2
    have e : ('f' : Char).toNat = 102 := rfl
    have e0 : ('a' : Char).toNat = 97 := rfl
    omega
  · simp only [Bool.and_eq_true, decide_eq_true_eq] at h3
    have := char_le_toNat h3.2
    have e : ('F' : Char).toNat = 70 := rfl
    have e0 : ('A' : Char).toNat = 65 := rfl
    omega
  · omega

theorem ofNat_ne_colon : ∀ n < 16, ∀ m < 16, 8 ≤ n → Char.ofNat (n * 16 + m) ≠ ':' := by
  decide

/-- In a host, an escape that passes the check of `unescape` never stands for a
colon: the text decoded from a host without `:` has no `:`. -/
theorem unescapeDecode_host_no_colon (n : Nat) : ∀ s : Str, s.length ≤ n → ':' ∉ s →
    unescapeCheck .encodeHost s = none → ':' ∉ unescapeDecode .encodeHost s := by
  induction n using Nat.strong_induction_on with
  | _ n ih =>
    intro s hn hs hcheck
    cases s with
    | nil => simp [unescapeDecode]
    | cons c rest =>
      have hrest : ':' ∉ rest := fun h => hs (List.mem_cons_of_mem _ h)
      have hc0 : c ≠ ':' := fun e => hs (by simp [e])
      by_cases hc : c = '%'
      · subst hc
        cases rest with
        | nil =>
          rw [unescapeCheck.eq_3 _ _ (fun _ _ _ h => by simp at h)] at hcheck
          exact absurd hcheck (by simp)
        | cons a rest1 =>
          cases rest1 with
          | nil =>
            rw [unescapeCheck.eq_3 _ _ (fun _ _ _ h => by simp at h)] at hcheck
            exact absurd hcheck (by simp)
          | cons b rest2 =>
            rw [unescapeCheck.eq_2] at hcheck
            rw [unescapeDecode.eq_2]
            split at hcheck
            · exact absurd hcheck (by simp)
            · split at hcheck
              · exact absurd hcheck (by simp)
              · rename_i h1 h2
                split at hcheck
                · exact absurd hcheck (by simp)
                · have hlen : rest2.length < n := by
                    simp only [List.length_cons] at hn
                    omega
                  have hr2 : ':' ∉ rest2 := fun h => hrest (by simp [h])
                  have ihr := ih rest2.length hlen rest2 (Nat.le_refl _) hr2 hcheck
                  have hv : Char.ofNat (unhex a * 16 + unhex b) ≠ ':' := by
                    by_cases h8 : unhex a < 8
                    · have hab : ['%', a, b] = "%25".toList := by
                        simpa [h8] using h2
                      have ha : a = '2' := by
                        have := congrArg (fun l => l.drop 1 |>.head?) hab
                        simpa using this
                      have hb : b = '5' := by
                        have := congrArg (fun l => l.drop 2 |>.head?) hab
                        simpa using this
                      subst ha hb
                      decide
                    · exact ofNat_ne_colon _ (unhex_lt a) _ (unhex_lt b) (by omega)
                  intro hm
                  rcases List.mem_cons.1 hm with h | h
                  · exact hv h.symm
                  · exact ihr h
      · rw [unescapeCheck.eq_4 _ c rest (fun _ _ _ h _ => hc h) hc] at hcheck
        rw [unescapeDecode.eq_3 _ c rest (fun _ _ _ h _ => hc h)]
        split at hcheck
        · exact absurd hcheck (by simp)
        · have hlen : rest.length < n := by
            simp only [List.length_cons] at hn
            omega
          have ihr := ih rest.length hlen rest (Nat.le_refl _) hrest hcheck
          intro hm
          rcases List.mem_cons.1 hm with h | h
          · simp only [show ¬ (Encoding.encodeHost = Encoding.encodeQueryComponent) by decide,
              and_false, if_false] at h
            exact hc0 h.symm
          · exact ihr h

theorem unescape_host_no_colon (s host : Str) (hs : ':' ∉ s)
    (h : unescape s .encodeHost = .ok host) : ':' ∉ host := by
  unfold unescape at h
  cases hc : unescapeCheck .encodeHost s with
  | some e =>
    rw [hc] at h
    exact absurd h (by simp)
  | none =>
    rw [hc] at h
    injection h with h
    rw [← h]
    exact unescapeDecode_host_no_colon s.length s (Nat.le_refl _) hs hc

theorem LastIndexByte_none_iff (s : Str) (c : Char) : LastIndexByte s c = none ↔ c ∉ s := by
  constructor
  · induction s with
    | nil => intro _; simp
    | cons d ds ih =>
      intro h
      unfold LastIndexByte at h
      cases hl : LastIndexByte ds c with
      | some j =>
        rw [hl] at h
        exact absurd h (by simp)
      | none =>
        rw [hl] at h
        by_cases hd : d = c
        · rw [if_pos hd] at h
          exact absurd h (by simp)
        · intro hm
          rcases List.mem_cons.1 hm with e | e
          · exact hd e.symm
          · exact ih hl e
  · exact LastIndexByte_eq_none s c

theorem LastIndexByte_eq_some (s : Str) (c : Char) : ∀ i, LastIndexByte s c = some i →
    ∃ pre post, s = pre ++ c :: post ∧ pre.length = i ∧ c ∉ post := by
  induction s with
  | nil => intro i h; exact absurd h (by simp [LastIndexByte])
  | cons d ds ih =>
    intro i h
    unfold LastIndexByte at h
    cases hl : LastIndexByte ds c with
    | some j =>
      rw [hl] at h
      obtain ⟨pre, post, e, hlen, hpost⟩ := ih j hl
      injection h with h
      exact ⟨d :: pre, post, by rw [e]; rfl, by rw [← h, ← hlen]; rfl, hpost⟩
    | none =>
      rw [hl] at h
      by_cases hd : d = c
      · rw [if_pos hd] at h
        injection h with h
        exact ⟨[], ds, by rw [hd]; rfl, by rw [← h]; rfl, (LastIndexByte_none_iff ds c).1 hl⟩
      · rw [if_neg hd] at h
        exact absurd h (by simp)

theorem IndexByte_lt (s : Str) (c : Char) : ∀ i, IndexByte s c = some i → i < s.length := by
  induction s with
  | nil => intro i h; exact absurd h (by simp [IndexByte])
  | cons d ds ih =>
    intro i h
    unfold IndexByte at h
    by_cases hd : d = c
    · rw [if_pos hd] at h
      injection h with h
      rw [← h]
      simp
    · rw [if_neg hd] at h
      cases hi : IndexByte ds c with
      | none =>
        rw [hi] at h
        exact absurd h (by simp)
      | some j =>
        rw [hi] at h
        simp only [Option.map_some', Option.some.injEq] at h
        have := ih j hi
        rw [List.length_cons]
        omega

theorem IndexByte_isSome (s : Str) (c : Char) (h : c ∈ s) : (IndexByte s c).isSome = true := by
  cases hi : IndexByte s c with
  | some j => rfl
  | none =>
    exfalso
    revert hi h
    induction s with
    | nil => intro h; simp at h
    | cons d ds ih =>
      intro h hi
      unfold IndexByte at hi
      by_cases hd : d = c
      · rw [if_pos hd] at hi
        exact absurd hi (by simp)
      · rw [if_neg hd] at hi
        rcases List.mem_cons.1 h with e | e
        · exact hd e.symm
        · cases hj : IndexByte ds c with
          | none => exact ih e hj
          | some j =>
            rw [hj] at hi
            exact absurd hi (by simp)

/-- The Go `net.SplitHostPort` fails on a host without colon and on a host enclosed
in brackets. -/
theorem SplitHostPort_PortLess (host : Str) (h : PortLess host) :
    ∃ e, SplitHostPort host = .error e := by
  unfold SplitHostPort
  cases hl : LastIndexByte host ':' with
  | none => exact ⟨_, rfl⟩
  | some i =>
    rcases h with h | ⟨hhead, hlast⟩
    · rw [LastIndexByte_eq_none host ':' h] at hl
      exact absurd hl (by simp)
    · simp only [hhead, if_true]
      cases hf : IndexByte host ']' with
      | none => exact ⟨_, rfl⟩
      | some fin =>
        simp only
        by_cases h1 : fin + 1 = host.length
        · rw [if_pos h1]
          exact ⟨_, rfl⟩
        · rw [if_neg h1]
          by_cases h2 : fin + 1 = i
          · rw [if_pos h2]
            by_cases h3 : (IndexByte (host.drop 1) '[').isSome = true
            · rw [if_pos h3]
              exact ⟨_, rfl⟩
            · rw [if_neg h3]
              have hlt := IndexByte_lt host ']' fin hf
              have hmem : ']' ∈ host.drop (fin + 1) := by
                have e : (host.drop (fin + 1)).getLast? = some ']' := by
                  rw [List.getLast?_drop, if_neg (by omega), hlast]
                exact List.mem_of_getLast?_eq_some e
              rw [if_pos (IndexByte_isSome _ _ hmem)]
              exact ⟨_, rfl⟩
          · rw [if_neg h2]
            by_cases h3 : (host.drop (fin + 1)).head? = some ':'
            · rw [if_pos h3]
              exact ⟨_, rfl⟩
            · rw [if_neg h3]
              exact ⟨_, rfl⟩

theorem unescapeDecode_cons_of_ne (mode : Encoding) (c : Char) (rest : Str) (hc : c ≠ '%')
    (hm : mode ≠ .encodeQueryComponent) :
    unescapeDecode mode (c :: rest) = c :: unescapeDecode mode rest := by
  rw [unescapeDecode.eq_3 mode c rest (fun _ _ _ h _ => hc h)]
  simp [hm]

theorem unescape_eq_ok (s host : Str) (mode : Encoding) (h : unescape s mode = .ok host) :
    host = unescapeDecode mode s := by
  unfold unescape at h
  cases hc : unescapeCheck mode s with
  | some e =>
    rw [hc] at h
    exact absurd h (by simp)
  | none =>
    rw [hc] at h
    injection h with h
    exact h.symm

/-- The Go `parseHost` on a text without colon gives a host without port. -/
theorem parseHost_PortLess (a host : Str) (ha : ':' ∉ a) (h : parseHost a = .ok host) :
    PortLess host := by
  unfold parseHost at h
  have hcolon := LastIndexByte_eq_none a ':' ha
  by_cases hb : HasPrefix a "[".toList = true
  · rw [if_pos hb] at h
    cases hl : LastIndexByte a ']' with
    | none =>
      rw [hl] at h
      exact absurd h (by simp)
    | some i =>
      rw [hl] at h
      simp only at h
      obtain ⟨pre, post, e, hlen, -⟩ := LastIndexByte_eq_some a ']' i hl
      by_cases hv : (!validOptionalPort (a.drop (i + 1))) = true
      · rw [if_pos hv] at h
        exact absurd h (by simp)
      · rw [if_neg hv] at h
        have hpost : post = [] := by
          have hd : a.drop (i + 1) = post := by
            rw [e, ← hlen]
            simp
          rw [hd] at hv
          cases post with
          | nil => rfl
          | cons x xs =>
            have hx : x ≠ ':' := fun ex => ha (by rw [e, ex]; simp)
            simp [validOptionalPort, hx] at hv
        subst hpost
        have hpre : pre.head? = some '[' := by
          cases pre with
          | nil =>
            rw [e] at hb
            simp [HasPrefix] at hb
          | cons x xs =>
            rw [e] at hb
            have : '[' = x := by simpa [HasPrefix] using hb
            rw [← this]
            rfl
        have htake : a.take i = pre := by
          rw [e, ← hlen]
          simp
        have hdrop : a.drop i = [']'] := by
          rw [e, ← hlen]
          simp
        rw [htake, hdrop] at h
        cases hz : Index pre "%25".toList with
        | none =>
          rw [hz] at h
          exact Or.inl (unescape_host_no_colon a host ha h)
        | some zone =>
          rw [hz] at h
          simp only at h
          cases h1 : unescape (a.take zone) .encodeHost with
          | error e1 =>
            rw [h1] at h
            exact absurd h (by simp)
          | ok host1 =>
            rw [h1] at h
            simp only at h
            cases h2 : unescape (pre.drop zone) .encodeZone with
            | error e2 =>
              rw [h2] at h
              exact absurd h (by simp)
            | ok host2 =>
              rw [h2] at h
              simp only at h
              cases h3 : unescape [']'] .encodeHost with
              | error e3 =>
                rw [h3] at h
                exact absurd h (by simp)
              | ok host3 =>
                rw [h3] at h
                injection h with h
                have e3 : host3 = [']'] := by
                  rw [unescape_eq_ok _ _ _ h3]
                  rfl
                obtain ⟨x, rfl⟩ : ∃ xs, pre = '[' :: xs := by
                  cases pre with
                  | nil => simp at hpre
                  | cons x xs =>
                    have : x = '[' := by simpa using hpre
                    exact ⟨xs, by rw [this]⟩
                have hzone : ∃ z, zone = z + 1 := by
                  cases zone with
                  | zero =>
                    rw [Index.eq_2] at hz
                    have hnp : List.isPrefixOf "%25".toList ('[' :: x) = false := by
                      simp [List.isPrefixOf]
                    rw [hnp] at hz
                    simp only [Bool.false_eq_true, if_false, Option.map_eq_some'] at hz
                    obtain ⟨k, -, hk⟩ := hz
                    omega
                  | succ z => exact ⟨z, rfl⟩
                obtain ⟨z, rfl⟩ := hzone
                have e1 : host1 = '[' :: unescapeDecode .encodeHost ((x ++ [']']).take z) := by
                  rw [unescape_eq_ok _ _ _ h1, e, List.cons_append, List.take_succ_cons,
                    unescapeDecode_cons_of_ne _ _ _ (by decide) (by decide)]
                refine Or.inr ⟨?_, ?_⟩
                · rw [← h, e1]
                  rfl
                · rw [← h, e3, List.getLast?_append]
                  rfl
  · rw [if_neg hb, hcolon] at h
    exact Or.inl (unescape_host_no_colon a host ha h)

/-- The Go `parseAuthority` on a text without colon gives a host without port. -/
theorem parseAuthority_PortLess (a host : Str) (ha : ':' ∉ a)
    (h : parseAuthority a = .ok host) : PortLess host := by
  unfold parseAuthority at h
  cases hl : LastIndexByte a '@' with
  | none =>
    rw [hl] at h
    exact parseHost_PortLess a host ha h
  | some i =>
    rw [hl] at h
    simp only at h
    cases hp : parseHost (a.drop (i + 1)) with
    | error e =>
      rw [hp] at h
      exact absurd h (by simp)
    | ok host2 =>
      rw [hp] at h
      have hd : ':' ∉ a.drop (i + 1) := fun hm => ha (List.mem_of_mem_drop hm)
      have key := parseHost_PortLess _ host2 hd hp
      have : host = host2 := by
        simp only at h
        split at h
        · exact absurd h (by simp)
        · split at h
          · split at h
            · exact absurd h (by simp)
            · injection h with h
              exact h.symm
          · split at h
            · exact absurd h (by simp)
            · split at h
              · exact absurd h (by simp)
              · injection h with h
                exact h.symm
      rw [this]
      exact key

theorem takeWhile_mono_start (p : Char → Bool) : ∀ (l1 l2 : Str), l1 <+: l2 →
    l1.takeWhile p <+: l2.takeWhile p := by
  intro l1
  induction l1 with
  | nil => intro l2 _; exact List.nil_prefix
  | cons a l1 ih =>
    intro l2 h
    cases l2 with
    | nil => simp at h
    | cons b l2 =>
      obtain ⟨hab, h2⟩ := List.cons_prefix_cons.1 h
      subst hab
      by_cases hp : p a = true
      · rw [List.takeWhile_cons_of_pos hp, List.takeWhile_cons_of_pos hp]
        exact List.cons_prefix_cons.2 ⟨rfl, ih l2 h2⟩
      · rw [List.takeWhile_cons_of_neg hp]
        exact List.nil_prefix

/-- The text before the first `/` of `h/tail` is the start of `h`. -/
theorem takeWhile_slash_start (h tail : Str) :
    (h ++ '/' :: tail).takeWhile (fun c => c != '/') <+: h := by
  induction h with
  | nil => simp
  | cons a h ih =>
    by_cases hp : (fun c => c != '/') a = true
    · rw [List.cons_append, @List.takeWhile_cons_of_pos _ (fun c => c != '/') a _ hp]
      exact List.cons_prefix_cons.2 ⟨rfl, ih⟩
    · rw [List.cons_append, @List.takeWhile_cons_of_neg _ (fun c => c != '/') a _ hp]
      exact List.nil_prefix

/-- The part of `//X` that `url.Parse` keeps once the query is cut off is `//Y` for a
start `Y` of `X`. -/
theorem questionCut_start (X : Str) :
    ∃ Y, Y <+: X ∧
      (if HasSuffix ('/' :: '/' :: X) "?".toList && Count ('/' :: '/' :: X) '?' == 1
        then ('/' :: '/' :: X).take (('/' :: '/' :: X).length - 1)
        else (Cut ('/' :: '/' :: X) '?').1) = '/' :: '/' :: Y := by
  by_cases hc : (HasSuffix ('/' :: '/' :: X) "?".toList && Count ('/' :: '/' :: X) '?' == 1) = true
  · rw [if_pos hc]
    have hX : X ≠ [] := by
      intro e
      subst e
      revert hc
      decide
    refine ⟨X.dropLast, List.dropLast_prefix X, ?_⟩
    have e : '/' :: '/' :: X = ['/', '/'] ++ X := rfl
    rw [← List.dropLast_eq_take, e, List.dropLast_append_of_ne_nil _ hX]
    rfl
  · rw [if_neg hc]
    refine ⟨X.takeWhile (fun c => c != '?'), List.takeWhile_prefix _, ?_⟩
    simp [Cut]

/-- The host `url.Parse` gives for `ssh://X`, without the fragment, is the host of
an authority that is the text before the first `/` of a start of `X`. -/
theorem urlParseNoFragment_authority (X host : Str)
    (h : urlParseNoFragment (sshScheme ++ X) = .ok host) :
    ∃ Y, Y <+: X ∧ parseAuthority (Y.takeWhile (fun c => c != '/')) = .ok host := by
  unfold urlParseNoFragment at h
  by_cases hctl : stringContainsCTLByte (sshScheme ++ X) = true
  · rw [if_pos hctl] at h
    exact absurd h (by simp)
  · have hstar : ¬ sshScheme ++ X = "*".toList := by
      intro e
      have := congrArg List.head? e
      revert this
      simp [sshScheme]
    rw [if_neg hctl, if_neg hstar, getScheme_ssh] at h
    obtain ⟨Y, hY, hrest⟩ := questionCut_start X
    simp only [hrest] at h
    have p1 : HasPrefix ('/' :: '/' :: Y) "/".toList = true := rfl
    have p2 : HasPrefix ('/' :: '/' :: Y) "//".toList = true := by
      simp [HasPrefix, List.isPrefixOf]
    simp only [p1, p2, Bool.not_true, Bool.false_and, Bool.false_eq_true, if_false,
      Bool.and_true, List.drop_succ_cons, List.drop_zero] at h
    rw [if_pos (Bool.or_eq_true_iff.2 (Or.inl (by decide)))] at h
    refine ⟨Y, hY, ?_⟩
    cases hp : parseAuthority (Y.takeWhile (fun c => c != '/')) with
    | error e =>
      rw [hp] at h
      exact absurd h (by simp)
    | ok host2 =>
      rw [hp] at h
      simp only at h
      split at h
      · exact absurd h (by simp)
      · injection h with h
        rw [h]

/-- The host `url.Parse` gives for `ssh://h/tail`, with `h` free of colons, has no
port. -/
theorem urlParseHost_PortLess (h tail host : Str) (hc : ':' ∉ h)
    (hu : urlParseHost (sshScheme ++ h ++ '/' :: tail) = .ok host) : PortLess host := by
  unfold urlParseHost at hu
  have hhash : '#' ∉ sshScheme := by decide
  have e : (Cut (sshScheme ++ h ++ '/' :: tail) '#').1 =
      sshScheme ++ (h ++ '/' :: tail).takeWhile (fun c => c != '#') := by
    simp only [Cut]
    rw [List.append_assoc, takeWhile_ne_append _ _ '#' hhash]
  simp only [e] at hu
  cases hp : urlParseNoFragment
      (sshScheme ++ (h ++ '/' :: tail).takeWhile (fun c => c != '#')) with
  | error e1 =>
    rw [hp] at hu
    exact absurd hu (by simp)
  | ok host2 =>
    rw [hp] at hu
    have hh : host = host2 := by
      simp only at hu
      split at hu
      · injection hu with hu
        exact hu.symm
      · split at hu
        · exact absurd hu (by simp)
        · injection hu with hu
          exact hu.symm
    obtain ⟨Y, hY, hauth⟩ := urlParseNoFragment_authority _ host2 hp
    have hpre : Y.takeWhile (fun c => c != '/') <+: h :=
      (takeWhile_mono_start _ Y _ (hY.trans (List.takeWhile_prefix _))).trans
        (takeWhile_slash_start h tail)
    rw [hh]
    exact parseAuthority_PortLess _ host2 (fun hm => hc (hpre.subset hm)) hauth

/-- On `ssh://h/tail`, with `h` free of colons, `parseDomain` fails. -/
theorem parseDomain_portless (h tail : Str) (hc : ':' ∉ h) :
    ∃ e, parseDomain (sshScheme ++ h ++ '/' :: tail) = .error e := by
  unfold parseDomain
  cases hu : urlParseHost (sshScheme ++ h ++ '/' :: tail) with
  | error e => exact ⟨_, rfl⟩
  | ok host =>
    obtain ⟨e, he⟩ := SplitHostPort_PortLess host (urlParseHost_PortLess h tail host hc hu)
    simp only [he]
    exact ⟨_, rfl⟩

/-- A run whose remote URL cannot be taken apart ends in `Invalid remote URL`. -/
theorem main_invalid_remote (w : World) (optM optR optN : Bool) (args : List Str)
    (gitDir remoteURL : Str) (e : Error)
    (hgit : findGitDir w ".".toList = some (.ok gitDir))
    (hremote : parseRemoteURL w (Join [gitDir, "config".toList]) = .ok remoteURL)
    (hd : parseDomain remoteURL = .error e) :
    ∃ e2, main w optM optR optN args = Outcome.fatal (Fatal.invalidRemoteURL e2) := by
  unfold main
  simp only [hgit, hremote]
  cases hr : parseRepoInfo remoteURL with
  | error e1 => exact ⟨_, rfl⟩
  | ok pr =>
    obtain ⟨project, repoName⟩ := pr
    simp only [hd]
    exact ⟨_, rfl⟩

/-- C12, amended (port requirement, and the two extractions).  For every host `h`
without `:`, on `ssh://h/tail` for every `tail`, so on the port-less
`ssh://h/P/R.git`, `parseDomain` fails, and a run on a repository with such a
remote ends in `Invalid remote URL`; when `h` is not empty and has no `/`, for
every non-empty `P` without `/` and non-empty `R` without `/` and `.`,
`parseRepoInfo` succeeds on `ssh://h/P/R.git` with `(P, R)`. -/
theorem parseDomain_requires_port (h : Str) (hc : ':' ∉ h) :
    (∀ tail, ∃ e, parseDomain ("ssh://".toList ++ h ++ "/".toList ++ tail) = .error e) ∧
    (∀ (tail : Str) (w : World) (optM optR optN : Bool) (args : List Str) (gitDir : Str),
      findGitDir w ".".toList = some (.ok gitDir) →
      parseRemoteURL w (Join [gitDir, "config".toList]) =
        .ok ("ssh://".toList ++ h ++ "/".toList ++ tail) →
      ∃ e, main w optM optR optN args = Outcome.fatal (Fatal.invalidRemoteURL e)) ∧
    (h ≠ [] → '/' ∉ h → ∀ P R : Str, P ≠ [] → '/' ∉ P → R ≠ [] → '/' ∉ R → '.' ∉ R →
      parseRepoInfo ("ssh://".toList ++ h ++ "/".toList ++ P ++ "/".toList ++ R ++
        ".git".toList) = .ok (P, R)) := by
  have e1 : ∀ tail : Str, "ssh://".toList ++ h ++ "/".toList ++ tail =
      sshScheme ++ h ++ '/' :: tail := by
    intro tail
    simp [sshScheme]
  refine ⟨?_, ?_, ?_⟩
  · intro tail
    rw [e1]
    exact parseDomain_portless h tail hc
  · intro tail w optM optR optN args gitDir hgit hremote
    obtain ⟨e, he⟩ := parseDomain_portless h tail hc
    rw [e1] at hremote
    exact main_invalid_remote w optM optR optN args gitDir _ e hgit hremote he
  · intro hne hs P R hP hP2 hR hR2 hR3
    have e2 : "ssh://".toList ++ h ++ "/".toList ++ P ++ "/".toList ++ R ++ ".git".toList =
        sshScheme ++ h ++ '/' :: (P ++ '/' :: (R ++ ".git".toList)) := by
      simp [sshScheme]
    rw [e2]
    exact parseRepoInfo_ssh h P R ".git".toList hne hs hP hP2 hR hR2 hR3 (Or.inr (Or.inl rfl))

/-- Witness of C12, amended: on `ssh://git.example.com/ABC/proj.git` `parseDomain`
fails with the missing port of `net.SplitHostPort`, `parseRepoInfo` gives
`(ABC, proj)`, and the run in the example repository ends in
`Invalid remote URL`. -/
theorem parseDomain_requires_port_witness :
    parseDomain "ssh://git.example.com/ABC/proj.git".toList =
      .error (Error.addr AddrError.missingPort) ∧
    (∃ e, parseDomain ("ssh://".toList ++ "git.example.com".toList ++ "/".toList ++
      "ABC/proj.git".toList) = .error e) ∧
    parseRepoInfo ("ssh://".toList ++ "git.example.com".toList ++ "/".toList ++ "ABC".toList ++
      "/".toList ++ "proj".toList ++ ".git".toList) = .ok ("ABC".toList, "proj".toList) ∧
    main (exampleWorld "/repo".toList "ssh://git.example.com/ABC/proj.git".toList
        (some "ref: refs/heads/master\n".toList)) false false true [] =
      Outcome.fatal (Fatal.invalidRemoteURL (Error.addr AddrError.missingPort)) :=
  ⟨by decide,
   (parseDomain_requires_port "git.example.com".toList (by decide)).1 "ABC/proj.git".toList,
   (parseDomain_requires_port "git.example.com".toList (by decide)).2.2 (by decide) (by decide)
     "ABC".toList "proj".toList (by decide) (by decide) (by decide) (by decide) (by decide),
   by decide⟩

/-- C12 as stated fails: a host without `:` may be empty or hold a `/`.  On
`ssh:///P/R.git`, with the empty host, `parseRepoInfo` fails; on
`ssh://a/b/P/R.git`, with the host `a/b`, it gives `(b, P)`. -/
theorem parseDomain_requires_port_counterexample :
    ':' ∉ ([] : Str) ∧
    parseRepoInfo ("ssh://".toList ++ [] ++ "/".toList ++ "P".toList ++ "/".toList ++
      "R".toList ++ ".git".toList) =
      .error (Error.unsupportedRemoteFormat "ssh:///P/R.git".toList) ∧
    ':' ∉ "a/b".toList ∧
    parseRepoInfo ("ssh://".toList ++ "a/b".toList ++ "/".toList ++ "P".toList ++ "/".toList ++
      "R".toList ++ ".git".toList) = .ok ("b".toList, "P".toList) := by
  decide

/-! ## The order of the effects of `main` -/

/-- The two transcriptions of `main` agree. -/
theorem main_eq_outcomeOf (w : World) (optM optR optN : Bool) (args : List Str) :
    main w optM optR optN args = outcomeOf (mainRun w optM optR optN args noEffects) := by
  unfold main mainRun
  cases findGitDir w ".".toList with
  | none => rfl
  | some r =>
    cases r with
    | error e => rfl
    | ok gitDir =>
      simp only
      cases parseRemoteURL w (Join [gitDir, "config".toList]) with
      | error e => rfl
      | ok remoteURL =>
        simp only
        cases parseRepoInfo remoteURL with
        | error e => rfl
        | ok pr =>
          obtain ⟨project, repoName⟩ := pr
          simp only
          cases parseDomain remoteURL with
          | error e => rfl
          | ok domain =>
            simp only
            cases resolveBranch w optM gitDir with
            | error f => rfl
            | ok branch =>
              simp only
              cases resolveRelativePath w optR gitDir (filePathOf args) with
              | error f => rfl
              | ok rel =>
                simp only
                cases optN with
                | true => rfl
                | false => rfl

/-- A run of `main` returns, or ends with nothing written and nothing started. -/
theorem mainRun_returned_or_unchanged (w : World) (optM optR optN : Bool) (args : List Str)
    (e : Effects) :
    (mainRun w optM optR optN args e).exit = Exit.returned ∨
      (mainRun w optM optR optN args e).effects = e := by
  unfold mainRun
  repeat' split
  all_goals first | exact Or.inr rfl | exact Or.inl rfl

/-- A call of `log.Fatal` in `main` comes before anything is written or started. -/
theorem mainRun_fatal (w : World) (optM optR optN : Bool) (args : List Str) (e : Effects)
    (f : Fatal) (h : (mainRun w optM optR optN args e).exit = Exit.fatal f) :
    (mainRun w optM optR optN args e).effects = e := by
  rcases mainRun_returned_or_unchanged w optM optR optN args e with h2 | h2
  · rw [h2] at h
    exact absurd h (by simp)
  · exact h2

/-- A run of `main` that returns has gone through every stage and has printed the
final URL first. -/
theorem mainRun_returned (w : World) (optM optR optN : Bool) (args : List Str)
    (h : (mainRun w optM optR optN args noEffects).exit = Exit.returned) :
    ∃ gitDir remoteURL domain project repoName branch rel,
      findGitDir w ".".toList = some (.ok gitDir) ∧
      parseRemoteURL w (Join [gitDir, "config".toList]) = .ok remoteURL ∧
      parseRepoInfo remoteURL = .ok (project, repoName) ∧
      parseDomain remoteURL = .ok domain ∧
      resolveBranch w optM gitDir = .ok branch ∧
      resolveRelativePath w optR gitDir (filePathOf args) = .ok rel ∧
      ((mainRun w optM optR optN args noEffects).effects.stdout =
          [(if optN then "URL: ".toList else "Opening: ".toList) ++
            finalURL (baseURL domain project repoName) rel branch] ∨
        (optN = false ∧ (mainRun w optM optR optN args noEffects).effects.stdout =
          ["Opening: ".toList ++ finalURL (baseURL domain project repoName) rel branch,
            "Please open the following URL manually:".toList,
            finalURL (baseURL domain project repoName) rel branch])) := by
  unfold mainRun at h
  cases hg : findGitDir w ".".toList with
  | none =>
    rw [hg] at h
    exact absurd h (by simp)
  | some r =>
    cases r with
    | error e =>
      rw [hg] at h
      exact absurd h (by simp [logFatal])
    | ok gitDir =>
      rw [hg] at h
      simp only at h
      cases hr : parseRemoteURL w (Join [gitDir, "config".toList]) with
      | error e =>
        rw [hr] at h
        exact absurd h (by simp [logFatal])
      | ok remoteURL =>
        rw [hr] at h
        simp only at h
        cases hp : parseRepoInfo remoteURL with
        | error e =>
          rw [hp] at h
          exact absurd h (by simp [logFatal])
        | ok pr =>
          obtain ⟨project, repoName⟩ := pr
          rw [hp] at h
          simp only at h
          cases hd : parseDomain remoteURL with
          | error e =>
            rw [hd] at h
            exact absurd h (by simp [logFatal])
          | ok domain =>
            rw [hd] at h
            simp only at h
            cases hb : resolveBranch w optM gitDir with
            | error f =>
              rw [hb] at h
              exact absurd h (by simp [logFatal])
            | ok branch =>
              rw [hb] at h
              simp only at h
              cases hrel : resolveRelativePath w optR gitDir (filePathOf args) with
              | error f =>
                rw [hrel] at h
                exact absurd h (by simp [logFatal])
              | ok rel =>
                refine ⟨gitDir, remoteURL, domain, project, repoName, branch, rel, rfl, hr,
                  hp, hd, hb, hrel, ?_⟩
                have e : (mainRun w optM optR optN args noEffects).effects =
                    if !optN then andThen
                      (printLine noEffects ("Opening: ".toList ++
                        finalURL (baseURL domain project repoName) rel branch))
                      (openBrowser w (finalURL (baseURL domain project repoName) rel branch))
                    else printLine noEffects ("URL: ".toList ++
                      finalURL (baseURL domain project repoName) rel branch) := by
                  unfold mainRun
                  simp only [hg, hr, hp, hd, hb, hrel]
                  cases optN <;> rfl
                rw [e]
                cases optN with
                | true => exact Or.inl rfl
                | false =>
                  simp only [Bool.not_false, if_true, andThen, printLine, noEffects,
                    List.nil_append, Bool.false_eq_true, if_false]
                  unfold openBrowser
                  cases browserCommand w.goos
                      (finalURL (baseURL domain project repoName) rel branch) with
                  | none => exact Or.inr ⟨trivial, rfl⟩
                  | some cmd =>
                    simp only
                    cases w.startOK with
                    | true => exact Or.inl rfl
                    | false => exact Or.inr ⟨trivial, rfl⟩

/-- From an absolute working directory the search of `findGitDir` ends within its
bound of rounds. -/
theorem findGitDir_dot_isSome (w : World) (hwd : ∀ wd, w.getwd = some wd → IsAbs wd = true) :
    ∃ r, findGitDir w ".".toList = some r := by
  unfold findGitDir
  have hi : IsAbs ".".toList = false := by decide
  cases hg : w.getwd with
  | none =>
    refine ⟨.error Error.getwd, ?_⟩
    simp only [Abs, hi, hg, Bool.false_eq_true, if_false]
  | some wd =>
    have habs := hwd wd hg
    have hne : wd ≠ [] := by
      intro e
      rw [e] at habs
      exact absurd habs (by decide)
    have ej : Join [wd, ".".toList] = Clean (wd ++ "/.".toList) := by
      simp [Join, hne, List.intercalate, Separator]
    have habs2 : IsAbs (wd ++ "/.".toList) = true := by
      cases wd with
      | nil => exact absurd rfl hne
      | cons c cs => simpa [IsAbs, HasPrefix] using habs
    obtain ⟨segs, hv, hc⟩ := Clean_of_IsAbs _ habs2
    simp only [Abs, hi, hg, Bool.false_eq_true, if_false, ej, hc]
    rcases findGitDirLoop_absPath w segs _ (length_lt_absPath segs hv) hv with
      ⟨a, -, hrun⟩ | ⟨-, hrun⟩
    · exact ⟨_, hrun⟩
    · exact ⟨_, hrun⟩

/-- C18 (no partial success).  With standard output as a list of lines and the run
of `main` taken statement by statement: a run that ends in a call of `log.Fatal`
has written nothing to standard output and has started no command; a run that
returns has gone through every stage and its first line is `Opening: ` or, with
`-n`, `URL: `, followed by the final URL, the only line but for the two lines
`openBrowser` adds when the browser cannot be started; and from an absolute
working directory every run ends in one of these two ways. -/
theorem main_no_partial_success (w : World) (optM optR optN : Bool) (args : List Str) :
    main w optM optR optN args = outcomeOf (mainRun w optM optR optN args noEffects) ∧
    (∀ f, (mainRun w optM optR optN args noEffects).exit = Exit.fatal f →
      (mainRun w optM optR optN args noEffects).effects.stdout = [] ∧
      (mainRun w optM optR optN args noEffects).effects.started = []) ∧
    ((mainRun w optM optR optN args noEffects).exit = Exit.returned →
      ∃ gitDir remoteURL domain project repoName branch rel,
        findGitDir w ".".toList = some (.ok gitDir) ∧
        parseRemoteURL w (Join [gitDir, "config".toList]) = .ok remoteURL ∧
        parseRepoInfo remoteURL = .ok (project, repoName) ∧
        parseDomain remoteURL = .ok domain ∧
        resolveBranch w optM gitDir = .ok branch ∧
        resolveRelativePath w optR gitDir (filePathOf args) = .ok rel ∧
        ((mainRun w optM optR optN args noEffects).effects.stdout =
            [(if optN then "URL: ".toList else "Opening: ".toList) ++
              finalURL (baseURL domain project repoName) rel branch] ∨
          (optN = false ∧ (mainRun w optM optR optN args noEffects).effects.stdout =
            ["Opening: ".toList ++ finalURL (baseURL domain project repoName) rel branch,
              "Please open the following URL manually:".toList,
              finalURL (baseURL domain project repoName) rel branch]))) ∧
    ((∀ wd, w.getwd = some wd → IsAbs wd = true) →
      (mainRun w optM optR optN args noEffects).exit ≠ Exit.outOfFuel) := by
  refine ⟨main_eq_outcomeOf w optM optR optN args, ?_,
    mainRun_returned w optM optR optN args, ?_⟩
  · intro f hf
    rw [mainRun_fatal w optM optR optN args noEffects f hf]
    exact ⟨rfl, rfl⟩
  · intro hwd
    obtain ⟨r, hr⟩ := findGitDir_dot_isSome w hwd
    unfold mainRun
    rw [hr]
    cases r with
    | error e => simp [logFatal]
    | ok gitDir =>
      simp only
      repeat' split
      all_goals simp [logFatal]

/-- Witness of C18: in the example repository a run with `-n` prints the one line
`URL: ...` and returns; a run on a detached HEAD ends in a fatal error with
nothing written and nothing started. -/
theorem main_no_partial_success_witness :
    mainRun (exampleWorld "/repo/src".toList "ssh://git.example.com:7999/ABC/proj.git".toList
        (some "ref: refs/heads/dev\n".toList)) false false true [] noEffects =
      { effects :=
          { stdout := [("URL: https://git.example.com/projects/ABC/repos/proj/browse/src" ++
              "?at=refs%2Fheads%2Fdev").toList],
            stderr := [], started := [] },
        exit := Exit.returned } ∧
    mainRun (exampleWorld "/repo/src".toList "ssh://git.example.com:7999/ABC/proj.git".toList
        (some "4b825dc642cb6eb9a060e54bf8d69288fbee4904\n".toList)) false false false []
        noEffects =
      { effects := noEffects,
        exit := Exit.fatal (Fatal.couldNotDetermineBranch Error.couldNotParseHead) } ∧
    (mainRun (exampleWorld "/repo/src".toList "ssh://git.example.com:7999/ABC/proj.git".toList
        (some "4b825dc642cb6eb9a060e54bf8d69288fbee4904\n".toList)) false false false []
        noEffects).effects.stdout = [] ∧
    (mainRun (exampleWorld "/repo/src".toList "ssh://git.example.com:7999/ABC/proj.git".toList
        (some "4b825dc642cb6eb9a060e54bf8d69288fbee4904\n".toList)) false false false []
        noEffects).effects.started = [] :=
  ⟨by decide, by decide,
    (main_no_partial_success (exampleWorld "/repo/src".toList
      "ssh://git.example.com:7999/ABC/proj.git".toList
      (some "4b825dc642cb6eb9a060e54bf8d69288fbee4904\n".toList)) false false false []).2.1
      (Fatal.couldNotDetermineBranch Error.couldNotParseHead) (by decide)⟩

/-! ## Targets outside the repository -/

/-- Two lists of names, the first not a start of the second, part after a common
start: the first goes on with a name the second does not have there. -/
theorem diverge_of_not_prefix : ∀ (rs ts : List Str), ¬ rs <+: ts →
    ∃ cs r rs2 ts2, rs = cs ++ r :: rs2 ∧ ts = cs ++ ts2 ∧ ts2.head? ≠ some r := by
  intro rs
  induction rs with
  | nil => intro ts h; exact absurd List.nil_prefix h
  | cons a rs ih =>
    intro ts h
    cases ts with
    | nil => exact ⟨[], a, rs, [], rfl, rfl, by simp⟩
    | cons t ts =>
      by_cases hat : a = t
      · subst hat
        have h2 : ¬ rs <+: ts := fun hp => h (List.cons_prefix_cons.2 ⟨rfl, hp⟩)
        obtain ⟨cs, r, rs2, ts2, e1, e2, hd⟩ := ih ts h2
        exact ⟨a :: cs, r, rs2, ts2, by rw [e1]; rfl, by rw [e2]; rfl, hd⟩
      · refine ⟨[], a, rs, t :: ts, rfl, rfl, ?_⟩
        intro e
        simp only [List.head?_cons, Option.some.injEq] at e
        exact hat e.symm

/-- Joined names determine the names. -/
theorem joinSegs_injective (a b : List Str) (ha : ∀ s ∈ a, validName s = true)
    (hb : ∀ s ∈ b, validName s = true) (h : joinSegs a = joinSegs b) : a = b := by
  by_cases ea : a = []
  · subst ea
    by_contra hne
    exact joinSegs_ne_nil b (fun e => hne e.symm) hb h.symm
  · by_cases eb : b = []
    · subst eb
      exact absurd h (joinSegs_ne_nil a ea ha)
    · rw [← Split_joinSegs a ha ea, ← Split_joinSegs b hb eb, h]

/-- The loop of `Rel` on two runs of names that part after a common start stops
where they part, on a name of the base or with the target used up. -/
theorem relLoop_diverge (cs : List Str) : ∀ (n : Nat) (r : Str) (rs2 ts2 : List Str),
    (∀ s ∈ cs, validName s = true) → validName r = true → (∀ s ∈ rs2, validName s = true) →
    (∀ s ∈ ts2, validName s = true) → ts2.head? ≠ some r →
    (joinSegs (cs ++ r :: rs2)).length ≤ n →
    (relLoop n (joinSegs (cs ++ r :: rs2)) (joinSegs (cs ++ ts2))).1 ≠ ['.', '.'] ∧
    (relLoop n (joinSegs (cs ++ r :: rs2)) (joinSegs (cs ++ ts2))).2 =
      (joinSegs (r :: rs2), joinSegs ts2) := by
  induction cs with
  | nil =>
    intro n r rs2 ts2 _ hr hrs hts hd hn
    have hv : ∀ s ∈ r :: rs2, validName s = true := by
      intro s hs
      rcases List.mem_cons.1 hs with e | e
      · rw [e]; exact hr
      · exact hrs s e
    have hb : joinSegs (r :: rs2) ≠ [] := joinSegs_ne_nil _ (by simp) hv
    obtain ⟨m, rfl⟩ : ∃ m, n = m + 1 := by
      have : 0 < (joinSegs ([] ++ r :: rs2)).length := List.length_pos.2 hb
      exact ⟨n - 1, by omega⟩
    simp only [List.nil_append]
    rw [relLoop_succ]
    cases ts2 with
    | nil =>
      rw [joinSegs_nil, if_neg (fun h => h.2 rfl)]
      exact ⟨by simp, rfl⟩
    | cons t ts3 =>
      have ht : validName t = true := hts t (by simp)
      have htr : t ≠ r := by
        intro e
        exact hd (by rw [e]; rfl)
      have hne : joinSegs (t :: ts3) ≠ [] := joinSegs_ne_nil _ (by simp) hts
      rw [if_pos ⟨hb, hne⟩, takeWhile_joinSegs_cons t ts3 ht, takeWhile_joinSegs_cons r rs2 hr,
        if_pos htr]
      exact ⟨((validName_iff r).1 hr).2.2.2, rfl⟩
  | cons c cs ih =>
    intro n r rs2 ts2 hcs hr hrs hts hd hn
    have hc : validName c = true := hcs c (by simp)
    have hcs2 : ∀ s ∈ cs, validName s = true := fun s hs => hcs s (List.mem_cons_of_mem _ hs)
    have hvb : ∀ s ∈ c :: (cs ++ r :: rs2), validName s = true := by
      intro s hs
      rcases List.mem_cons.1 hs with e | e
      · rw [e]; exact hc
      · rcases List.mem_append.1 e with e | e
        · exact hcs2 s e
        · rcases List.mem_cons.1 e with e | e
          · rw [e]; exact hr
          · exact hrs s e
    have hvt : ∀ s ∈ c :: (cs ++ ts2), validName s = true := by
      intro s hs
      rcases List.mem_cons.1 hs with e | e
      · rw [e]; exact hc
      · rcases List.mem_append.1 e with e | e
        · exact hcs2 s e
        · exact hts s e
    have hb : joinSegs (c :: (cs ++ r :: rs2)) ≠ [] := joinSegs_ne_nil _ (by simp) hvb
    have ht : joinSegs (c :: (cs ++ ts2)) ≠ [] := joinSegs_ne_nil _ (by simp) hvt
    simp only [List.cons_append] at hn ⊢
    obtain ⟨m, rfl⟩ : ∃ m, n = m + 1 := by
      have : 0 < (joinSegs (c :: (cs ++ r :: rs2))).length := List.length_pos.2 hb
      exact ⟨n - 1, by omega⟩
    rw [relLoop_succ, if_pos ⟨hb, ht⟩, takeWhile_joinSegs_cons c _ hc,
      takeWhile_joinSegs_cons c _ hc, if_neg (fun h => h rfl), dropWhile_joinSegs_cons c _ hc,
      dropWhile_joinSegs_cons c _ hc]
    refine ih m r rs2 ts2 hcs2 hr hrs hts hd ?_
    have hne : cs ++ r :: rs2 ≠ [] := by simp
    obtain ⟨x, xs, e⟩ := List.exists_cons_of_ne_nil hne
    rw [e] at hn ⊢
    rw [joinSegs_cons_cons, List.length_append, List.length_cons] at hn
    omega

/-- The relative path from a clean absolute base to a clean absolute target that is
neither the base nor below it starts with the element `..`. -/
theorem Rel_outside (rs ts : List Str) (hrs : ∀ s ∈ rs, validName s = true)
    (hts : ∀ s ∈ ts, validName s = true) (hout : ¬ rs <+: ts) :
    ∃ X : Str, Rel (absPath rs) (absPath ts) = .ok ("..".toList ++ X) ∧
      (X = [] ∨ X.head? = some Separator) := by
  obtain ⟨cs, r, rs2, ts2, e1, e2, hd⟩ := diverge_of_not_prefix rs ts hout
  subst e1 e2
  have hcs : ∀ s ∈ cs, validName s = true := fun s hs => hrs s (List.mem_append_left _ hs)
  have hr : validName r = true := hrs r (by simp)
  have hrs2 : ∀ s ∈ rs2, validName s = true := fun s hs => hrs s (by simp [hs])
  have hts2 : ∀ s ∈ ts2, validName s = true := fun s hs => hts s (List.mem_append_right _ hs)
  have hne : absPath (cs ++ ts2) ≠ absPath (cs ++ r :: rs2) := by
    intro e
    have ej : joinSegs (cs ++ ts2) = joinSegs (cs ++ r :: rs2) := by
      simpa [absPath] using e
    have := List.append_cancel_left (joinSegs_injective _ _ hts hrs ej)
    rw [this] at hd
    exact hd rfl
  have hloop := relLoop_diverge cs (absPath (cs ++ r :: rs2)).length r rs2 ts2 hcs hr hrs2 hts2 hd
    (by simp [absPath])
  have e1 : ∀ x : List Str, (absPath x).takeWhile (fun c => c != Separator) = [] := by
    intro x
    simp [absPath]
  have e2 : ∀ x : List Str, ((absPath x).dropWhile (fun c => c != Separator)).drop 1 =
      joinSegs x := by
    intro x
    simp [absPath]
  have hfirst : relLoop ((absPath (cs ++ r :: rs2)).length + 1) (absPath (cs ++ r :: rs2))
      (absPath (cs ++ ts2)) =
      relLoop (absPath (cs ++ r :: rs2)).length (joinSegs (cs ++ r :: rs2))
        (joinSegs (cs ++ ts2)) := by
    rw [relLoop_succ, if_pos ⟨absPath_ne_nil _, absPath_ne_nil _⟩, e1, e1,
      if_neg (fun h => h rfl), e2, e2]
  have hbase : joinSegs (r :: rs2) ≠ [] := joinSegs_ne_nil _ (by simp) (fun s hs => by
    rcases List.mem_cons.1 hs with e | e
    · rw [e]; exact hr
    · exact hrs2 s e)
  have hdot : absPath (cs ++ r :: rs2) ≠ ['.'] := by simp [absPath, Separator]
  refine ⟨(List.replicate (Count (joinSegs (r :: rs2)) Separator) [Separator, '.', '.']).flatten ++
    (if joinSegs ts2 ≠ [] then Separator :: joinSegs ts2 else []), ?_, ?_⟩
  · unfold Rel
    simp only [Clean_absPath _ hrs, Clean_absPath _ hts, if_neg hne, if_neg hdot]
    have hh : ∀ x : List Str, (absPath x).head? = some Separator := fun x => rfl
    simp only [hh, bne_self_eq_false, Bool.false_eq_true, if_false, hfirst, if_neg hloop.1,
      hloop.2, if_pos hbase]
    simp
  · cases hk : Count (joinSegs (r :: rs2)) Separator with
    | zero =>
      simp only [List.replicate_zero, List.flatten_nil, List.nil_append]
      by_cases ht : joinSegs ts2 ≠ []
      · rw [if_pos ht]
        exact Or.inr rfl
      · rw [if_neg ht]
        exact Or.inl rfl
    | succ k =>
      refine Or.inr ?_
      simp [List.replicate_succ]

/-- A path that starts with the element `..` has a `..` segment. -/
theorem hasDotDot_of_dotdot (X : Str) (hX : X = [] ∨ X.head? = some Separator) :
    hasDotDot ('/' :: ("..".toList ++ X)) = true := by
  unfold hasDotDot
  rw [show ('/' : Char) = Separator from rfl, Split_sep_cons]
  rcases hX with h | h
  · subst h
    decide
  · cases X with
    | nil => simp at h
    | cons x xs =>
      have hx : x = Separator := by simpa using h
      subst hx
      rw [Split_append_sep "..".toList xs Separator (by decide)]
      simp

/-- A relative path resolved without `-r` for a target outside the repository has a
`..` segment. -/
theorem resolveRelativePath_outside (w : World) (rs ts : List Str)
    (filePath rel : Str) (hrs : ∀ s ∈ rs, validName s = true)
    (hts : ∀ s ∈ ts, validName s = true) (hout : ¬ rs <+: ts)
    (hcwd : filePath = [] → w.getwd = some (absPath ts))
    (habs : filePath ≠ [] → Abs w (Clean filePath) = .ok (absPath ts))
    (h : resolveRelativePath w false (Join [absPath rs, dotGit]) filePath = .ok rel) :
    hasDotDot rel = true := by
  obtain ⟨X, hrel, hX⟩ := Rel_outside rs ts hrs hts hout
  unfold resolveRelativePath at h
  simp only [Bool.not_false, if_true, workdir_absPath rs hrs] at h
  by_cases hf : filePath = []
  · simp only [hf, ne_eq, not_true_eq_false, if_false, hcwd hf, hrel] at h
    have hnd : ¬ ("..".toList ++ X = ['.']) := by
      intro e
      have := congrArg List.length e
      simp at this
    rw [if_neg hnd] at h
    injection h with h
    rw [← h]
    exact hasDotDot_of_dotdot X hX
  · simp only [ne_eq, hf, not_false_eq_true, if_true, habs hf, hrel] at h
    by_cases hex : w.stat (Clean filePath) = StatResult.notExist
    · rw [if_pos hex] at h
      exact absurd h (by simp)
    · rw [if_neg hex] at h
      injection h with h
      rw [← h]
      exact hasDotDot_of_dotdot X hX

/-- C16, amended (the relative path).  For every flag combination, path argument and
current directory on which path resolution succeeds, the relative path is empty
or starts with `/`; when the target, the current directory of a run without
argument or the absolute form of the argument, is the repository root `/rs...`
or a path `/rs.../ps...` below it, the relative path has no `..` segment; and
when, without `-r`, the target `/ts...` is neither the root nor below it, the
relative path has a `..` segment. -/
theorem resolveRelativePath_invariant (w : World) (optR : Bool) (gitDir filePath rel : Str)
    (h : resolveRelativePath w optR gitDir filePath = .ok rel) :
    (rel = [] ∨ rel.head? = some '/') ∧
    (∀ rs ps : List Str, (∀ s ∈ rs, validName s = true) → (∀ s ∈ ps, validName s = true) →
      gitDir = Join [absPath rs, dotGit] →
      (filePath = [] → w.getwd = some (absPath (rs ++ ps))) →
      (filePath ≠ [] → Abs w (Clean filePath) = .ok (absPath (rs ++ ps))) →
      hasDotDot rel = false) ∧
    (∀ rs ts : List Str, (∀ s ∈ rs, validName s = true) → (∀ s ∈ ts, validName s = true) →
      optR = false → gitDir = Join [absPath rs, dotGit] → ¬ rs <+: ts →
      (filePath = [] → w.getwd = some (absPath ts)) →
      (filePath ≠ [] → Abs w (Clean filePath) = .ok (absPath ts)) →
      hasDotDot rel = true) := by
  refine ⟨resolveRelativePath_head w optR gitDir filePath rel h, ?_, ?_⟩
  · intro rs ps hrs hps hg hcwd habs
    subst hg
    exact resolveRelativePath_inside w optR rs ps filePath rel hrs hps hcwd habs h
  · intro rs ts hrs hts hr hg hout hcwd habs
    subst hg hr
    exact resolveRelativePath_outside w rs ts filePath rel hrs hts hout hcwd habs h

/-- Witness of C16, amended: in the example repository, from `/repo/src`, the argument
`a.go` gives `/src/a.go`, which starts with `/` and has no `..` segment; from
`/repo` the argument `..`, the directory above the repository, gives `/..`, which
has one. -/
theorem resolveRelativePath_invariant_witness :
    resolveRelativePath (exampleWorld "/repo/src".toList [] none) false "/repo/.git".toList
      "a.go".toList = .ok "/src/a.go".toList ∧
    ("/src/a.go".toList = [] ∨ "/src/a.go".toList.head? = some '/') ∧
    hasDotDot "/src/a.go".toList = false ∧
    resolveRelativePath (exampleWorld "/repo".toList [] none) false "/repo/.git".toList
      "..".toList = .ok "/..".toList ∧
    hasDotDot "/..".toList = true :=
  ⟨by decide,
   (resolveRelativePath_invariant (exampleWorld "/repo/src".toList [] none) false
      "/repo/.git".toList "a.go".toList "/src/a.go".toList (by decide)).1,
   (resolveRelativePath_invariant (exampleWorld "/repo/src".toList [] none) false
      "/repo/.git".toList "a.go".toList "/src/a.go".toList (by decide)).2.1
      ["repo".toList] ["src".toList, "a.go".toList] (by decide) (by decide) (by decide)
      (by decide) (by decide),
   by decide,
   (resolveRelativePath_invariant (exampleWorld "/repo".toList [] none) false
      "/repo/.git".toList "..".toList "/..".toList (by decide)).2.2
      ["repo".toList] [] (by decide) (by decide) rfl (by decide) (by simp)
      (by decide) (by decide)⟩

/-- C16 as stated fails: from the root `/repo` of the example repository the argument
`..`, the directory above the root, resolves to the relative path `/..`, which
has a `..` segment, and the URL printed ends in `/browse/..`; the argument `/`
does the same. -/
theorem resolveRelativePath_invariant_counterexample :
    resolveRelativePath (exampleWorld "/repo".toList [] none) false "/repo/.git".toList
      "..".toList = .ok "/..".toList ∧
    resolveRelativePath (exampleWorld "/repo".toList [] none) false "/repo/.git".toList
      "/".toList = .ok "/..".toList ∧
    hasDotDot "/..".toList = true ∧
    main (exampleWorld "/repo".toList "ssh://git.example.com:7999/ABC/proj.git".toList
        (some "ref: refs/heads/master\n".toList)) false false true ["..".toList] =
      Outcome.done
        { stdout := ["URL: https://git.example.com/projects/ABC/repos/proj/browse/..".toList],
          stderr := [], started := [] } := by
  decide

end GitOpen
